import Mathlib

/-!
crappy-spreadsheet: formula engine

A shallow embedding of the formula engine of the terminal spreadsheet
(`expression.cpp`, `worksheet.cpp`, `worksheet_reference.cpp`) and of the key
handler of its editor (`workspace.cpp`), together with theorems about them.

Conventions of the embedding

* `std::string` is `List Char`; a string literal of the source is written
  `"...".toList`.
* `int64_t` / `int` values are `Int`; arithmetic results are reduced with
  `wrap64` / `wrap32` (two's complement), integer division by zero and the
  quotient `INT64_MIN / -1` are the outcome `fault`.
* C++ exceptions and undefined behaviour are explicit outcomes
  (`parse_result`, `outcome`).
* The global worksheet `workspace::ws` is passed explicitly as a `grid`.
* Recursion of the source that is not structural is driven by a fuel
  argument; running out of fuel is the distinguished outcome `out_of_fuel`.
-/

namespace Spreadsheet

/-! ## Characters and strings -/

/-- The double-quote character (code 34). -/
def dquote : Char := Char.ofNat 34

/-- Whitespace of the classic locale (`std::isspace`): space, `\t`, `\n`, `\v`, `\f`, `\r`. -/
def isspace (c : Char) : Bool :=
  c = ' ' || c = Char.ofNat 9 || c = Char.ofNat 10 || c = Char.ofNat 11 ||
    c = Char.ofNat 12 || c = Char.ofNat 13

/-- Model of `boost::trim_copy`: whitespace is removed at both ends. -/
def trim_copy (s : List Char) : List Char :=
  (s.dropWhile isspace).rdropWhile isspace

/-- Model of `toupper` in the classic locale. -/
def toupper (c : Char) : Char :=
  if 'a' ≤ c ∧ c ≤ 'z' then Char.ofNat (c.toNat - 32) else c

/-- Decimal digit test, `c >= '0' && c <= '9'`. -/
def is_digit (c : Char) : Bool := decide ('0' ≤ c) && decide (c ≤ '9')

/-- Letter test used by `cell_reference::from_code`. -/
def is_letter (c : Char) : Bool :=
  (decide ('A' ≤ c) && decide (c ≤ 'Z')) || (decide ('a' ≤ c) && decide (c ≤ 'z'))

/-- Source: `is_letter_or_underscore` of `expression.cpp`. -/
def is_letter_or_underscore (x : Char) : Bool :=
  (decide ('A' ≤ x) && decide (x ≤ 'Z')) || (decide ('a' ≤ x) && decide (x ≤ 'z')) || x = '_'

/-- Value of a decimal digit character. -/
def digit_value (c : Char) : Nat := c.toNat - 48

/-- Value of a run of decimal digits, most significant first. -/
def digits_value (l : List Char) : Nat :=
  l.foldl (fun acc c => acc * 10 + digit_value c) 0

/-- Model of `strtol`-style conversion as used by `std::stoll` / `std::stoi`
(base 10): leading whitespace is skipped, one optional sign is read, then
the longest run of digits. The result is the value and the number of
characters consumed; `none` stands for `std::invalid_argument` (no digits)
and `std::out_of_range` (value outside `[lo, hi]`). -/
def strto (lo hi : Int) (s : List Char) : Option (Int × Nat) :=
  let ws := s.takeWhile isspace
  let s1 := s.dropWhile isspace
  let neg : Bool := s1.head? = some '-'
  let sgn : Nat := if s1.head? = some '-' ∨ s1.head? = some '+' then 1 else 0
  let ds := (s1.drop sgn).takeWhile is_digit
  if ds = [] then none
  else
    let v : Int := if neg then -(digits_value ds : Int) else (digits_value ds : Int)
    if v < lo ∨ hi < v then none else some (v, ws.length + sgn + ds.length)

/-- Model of `std::stoll(str, &size)`. -/
def stoll (s : List Char) : Option (Int × Nat) := strto (-(2 : Int) ^ 63) (2 ^ 63 - 1) s

/-- Model of `std::stoi(str, &size)`. -/
def stoi (s : List Char) : Option (Int × Nat) := strto (-(2 : Int) ^ 31) (2 ^ 31 - 1) s

/-- Model of `std::to_string` on a signed integer. -/
def to_string (n : Int) : List Char :=
  if n < 0 then '-' :: Nat.toDigits 10 n.natAbs else Nat.toDigits 10 n.toNat

/-- Two's complement reduction to 64 bits (`int64_t`). -/
def wrap64 (x : Int) : Int := (x + 2 ^ 63) % 2 ^ 64 - 2 ^ 63

/-- Two's complement reduction to 32 bits (`int`). -/
def wrap32 (x : Int) : Int := (x + 2 ^ 31) % 2 ^ 32 - 2 ^ 31

/-- Conversion of an `int` to `size_t` (64 bits), as performed when an `int`
is compared with or subtracted from a `size_t`. -/
def to_size_t (x : Int) : Nat := (x % 2 ^ 64).toNat

/-! ## Address codec (`worksheet_reference.cpp`) -/

/-- Source: `worksheet_reference::cell_reference`; `row` and `col` are the
zero-based `number` fields of the row and the column reference. -/
structure cell_reference where
  row : Int
  col : Int
deriving DecidableEq, Repr

/-- Source: `row_reference::to_code`. -/
def row_reference.to_code (number : Int) : List Char := to_string (wrap32 (number + 1))

/-- Source: `row_reference::from_code`; `none` is a thrown exception. -/
def row_reference.from_code (code : List Char) : Option Int :=
  if code.length = 0 then none
  else
    match stoi code with
    | none => none
    | some (v, parsed) =>
      let no := wrap32 (v - 1)
      if parsed ≠ code.length then none
      else if no < 0 then none
      else some no

/-- The loop of `col_reference::to_code`, with the remaining value `no`. -/
def col_reference.to_code_loop : Nat → Int → List Char → List Char
  | 0, _, res => res
  | fuel + 1, no, res =>
    let c := Int.tmod (no - 1) 26
    let res1 := Char.ofNat (c + 65).toNat :: res
    let no1 := Int.tdiv (no - c) 26
    if no1 > 0 then col_reference.to_code_loop fuel no1 res1 else res1

/-- Source: `col_reference::to_code` (the loop runs at most 32 times on an `int`). -/
def col_reference.to_code (number : Int) : List Char :=
  col_reference.to_code_loop 32 (wrap32 (number + 1)) []

/-- The loop of `col_reference::from_code`. -/
def col_reference.from_code_loop : List Char → Int → Option Int
  | [], no => some no
  | ch :: rest, no =>
    let up := if 'a' ≤ ch ∧ ch ≤ 'z' then Char.ofNat (ch.toNat - 32) else ch
    if ¬ ('A' ≤ up ∧ up ≤ 'Z') then none
    else col_reference.from_code_loop rest (wrap32 (no * 26 + ((up.toNat : Int) - 65 + 1)))

/-- Source: `col_reference::from_code`; `none` is a thrown exception. -/
def col_reference.from_code (code : List Char) : Option Int :=
  if code.length = 0 then none
  else (col_reference.from_code_loop code 0).map (fun no => wrap32 (no - 1))

/-- Source: `cell_reference::to_code`. -/
def cell_reference.to_code (ref : cell_reference) : List Char :=
  col_reference.to_code ref.col ++ row_reference.to_code ref.row

/-- Source: `cell_reference::from_code`; `none` is a thrown exception. The
split index is the position of the first character that is not a letter. -/
def cell_reference.from_code (code : List Char) : Option cell_reference :=
  match code.head? with
  | none => none
  | some c0 =>
    if ¬ is_letter c0 then none
    else
      let rest := code.dropWhile is_letter
      if rest = [] then none
      else
        match row_reference.from_code rest, col_reference.from_code (code.takeWhile is_letter) with
        | some r, some c => some ⟨r, c⟩
        | _, _ => none

/-! ## Values and expression trees (`expression.h`) -/

/-- Source: `expression::error::values`. -/
inductive values where
  | arg | value | div0 | name | recur
deriving DecidableEq, Repr

/-- Source: the four subclasses of `expression::primitive`. -/
inductive primitive where
  | integer (raw : Int)
  | text (raw : List Char)
  | boolean (raw : Bool)
  | error (raw : values)
deriving DecidableEq, Repr

/-- Source: `primitive::get_type`. -/
def primitive.get_type : primitive → Nat
  | .integer _ => 1
  | .text _ => 2
  | .boolean _ => 3
  | .error _ => 4

/-- Source: `struct expression` with its subclasses `primitive`, `reference`
and `function`. -/
inductive expression where
  | prim (p : primitive)
  | reference (ref : cell_reference)
  | function (name : List Char) (arg : List expression)

instance : Inhabited expression := ⟨.prim (.text [])⟩

/-! ## Parser (`expression::parse`) -/

/-- Result of `expression::parse`: a tree, a thrown `parse_exception` with
its `attempt` and `message`, or exhaustion of the recursion fuel. -/
inductive parse_result where
  | ok (e : expression)
  | parse_exception (attempt : List Char) (message : String)
  | out_of_fuel

/-- Source: `get_precedence`. -/
def get_precedence (op : List Char) : Int :=
  if op = "*".toList ∨ op = "/".toList then 3
  else if op = "+".toList ∨ op = "-".toList then 2
  else if op = "&".toList then 1
  else if op = "=".toList ∨ op = "<>".toList ∨ op = "<".toList ∨ op = ">".toList
      ∨ op = "<=".toList ∨ op = ">=".toList then 0
  else -1

/-- Source: `is_unary`. -/
def is_unary (op : List Char) : Bool := op = "+".toList || op = "-".toList

/-- Rule "constant": case-insensitive `TRUE` / `FALSE`. -/
def parse_boolean (trimmed : List Char) : Option expression :=
  let upper_trimmed := trimmed.map toupper
  if upper_trimmed = "TRUE".toList then some (.prim (.boolean true))
  else if upper_trimmed = "FALSE".toList then some (.prim (.boolean false))
  else none

/-- Rule "string": quote at both ends and exactly two quotes in all. -/
def parse_text (trimmed : List Char) : Option expression :=
  if trimmed.head? = some dquote ∧ trimmed.getLast? = some dquote ∧ trimmed.count dquote = 2 then
    some (.prim (.text ((trimmed.drop 1).take (trimmed.length - 2))))
  else none

/-- Rule "integer": `std::stoll` must consume the whole text. -/
def parse_integer (trimmed : List Char) : Option expression :=
  match stoll trimmed with
  | none => none
  | some (res, size) => if size ≠ trimmed.length then none else some (.prim (.integer res))

/-- Rule "reference": the whole text decodes as a cell address. -/
def parse_reference (trimmed : List Char) : Option expression :=
  (cell_reference.from_code trimmed).map expression.reference

/-- Rule "bracket". `none` means that the rule does not apply or that the
inner parse threw (the exception is caught), so later rules are tried. -/
def parse_bracket (p : List Char → parse_result) (trimmed : List Char) : Option parse_result :=
  if trimmed.head? = some '(' ∧ trimmed.getLast? = some ')' then
    match p ((trimmed.drop 1).take (trimmed.length - 2)) with
    | .ok e => some (.ok e)
    | .parse_exception _ _ => none
    | .out_of_fuel => some .out_of_fuel
  else none

/-- The comma-splitting loop of the function call rule over the text between
the brackets. The state is `bracket_level`, `is_text`, `str_args` and
`cur_str_arg`; `none` is the `throw` on a negative bracket level. -/
def split_args : List Char → Int → Bool → List (List Char) → List Char →
    Option (Int × Bool × List (List Char) × List Char)
  | [], bracket_level, is_text, str_args, cur_str_arg =>
    some (bracket_level, is_text, str_args, cur_str_arg)
  | c :: rest, bracket_level, is_text, str_args, cur_str_arg =>
    let is_text1 := if c = dquote then !is_text else is_text
    if is_text1 then split_args rest bracket_level is_text1 str_args (cur_str_arg ++ [c])
    else
      let str_args1 := if bracket_level = 0 ∧ c = ',' then str_args ++ [cur_str_arg] else str_args
      let cur1 := if bracket_level = 0 ∧ c = ',' then [] else cur_str_arg ++ [c]
      if c = '(' then split_args rest (bracket_level + 1) is_text1 str_args1 cur1
      else if c = ')' then
        if bracket_level - 1 < 0 then none
        else split_args rest (bracket_level - 1) is_text1 str_args1 cur1
      else split_args rest bracket_level is_text1 str_args1 cur1

/-- Result of parsing the argument texts of a function call. -/
inductive args_result where
  | ok (arg : List expression)
  | failure
  | out_of_fuel

/-- The argument loop of the function call rule: arguments are parsed in
order and the loop stops at the first `parse_exception` (`success = false`). -/
def parse_args (p : List Char → parse_result) : List (List Char) → args_result
  | [] => .ok []
  | s :: rest =>
    match p s with
    | .ok e =>
      match parse_args p rest with
      | .ok es => .ok (e :: es)
      | r => r
    | .parse_exception _ _ => .failure
    | .out_of_fuel => .out_of_fuel

/-- Rule "function call". `none` means fall through to the operator rule;
`some` is a returned tree or the exception thrown out of `parse`. -/
def parse_function_call (p : List Char → parse_result) (str trimmed : List Char) :
    Option parse_result :=
  match trimmed with
  | [] => none
  | c0 :: tl =>
    if trimmed.getLast? = some ')' ∧ is_letter_or_underscore c0 then
      let func_name := c0 :: tl.takeWhile (fun x => is_letter_or_underscore x || is_digit x)
      let after := tl.dropWhile (fun x => is_letter_or_underscore x || is_digit x)
      if after.head? = some '(' then
        match split_args (after.drop 1).dropLast 0 false [] [] with
        | none => some (.parse_exception str "bracket unmatched")
        | some (bracket_level, _, str_args, cur_str_arg) =>
          if bracket_level = 0 then
            let str_args1 :=
              if cur_str_arg.length ≠ 0 ∧ trim_copy cur_str_arg ≠ [] then str_args ++ [cur_str_arg]
              else str_args
            match parse_args p str_args1 with
            | .ok arg => some (.ok (.function func_name arg))
            | .failure => none
            | .out_of_fuel => some .out_of_fuel
          else none
      else none
    else none

/-- State of the operator scan: `min_i`, `min_j`, `min_precedence`. -/
structure op_min where
  min_i : Int
  min_j : Int
  min_precedence : Int
deriving DecidableEq, Repr

/-- The scanning loop of the operator rule over the characters from index
`i` on. `skip` is set after a two-character operator was taken (`i++;
continue;`), so that its second character is not looked at. `none` is the
`throw` on a negative bracket level. -/
def scan_operator : List Char → Nat → Bool → Int → Bool → op_min → Option op_min
  | [], _, _, _, _, m => some m
  | c :: rest, i, skip, bracket_level, is_text, m =>
    if skip then scan_operator rest (i + 1) false bracket_level is_text m
    else
      let is_text1 := if c = dquote then !is_text else is_text
      if is_text1 then scan_operator rest (i + 1) false bracket_level is_text1 m
      else
        let precedence2 := get_precedence (c :: rest.take 1)
        let precedence1 := get_precedence [c]
        if bracket_level = 0 ∧ rest ≠ [] ∧ precedence2 ≠ -1 ∧
            (m.min_precedence = -1 ∨ precedence2 ≤ m.min_precedence) then
          scan_operator rest (i + 1) true bracket_level is_text1 ⟨i, i + 2, precedence2⟩
        else
          let m1 : op_min :=
            if bracket_level = 0 ∧ precedence1 ≠ -1 ∧
                (m.min_precedence = -1 ∨ precedence1 ≤ m.min_precedence) then
              ⟨i, i + 1, precedence1⟩
            else m
          if c = '(' then scan_operator rest (i + 1) false (bracket_level + 1) is_text1 m1
          else if c = ')' then
            if bracket_level - 1 < 0 then none
            else scan_operator rest (i + 1) false (bracket_level - 1) is_text1 m1
          else scan_operator rest (i + 1) false bracket_level is_text1 m1

/-- Rule "operator" together with the final `throw`. -/
def parse_operator (p : List Char → parse_result) (str trimmed : List Char) : parse_result :=
  match scan_operator trimmed 0 false 0 false ⟨-1, -1, -1⟩ with
  | none => .parse_exception str "bracket unmatched"
  | some m =>
    if m.min_precedence ≠ -1 then
      let op := (trimmed.drop m.min_i.toNat).take (m.min_j - m.min_i).toNat
      if ¬ (is_unary op ∧ trim_copy (trimmed.take m.min_i.toNat) = []) then
        match p (trimmed.take m.min_i.toNat) with
        | .ok l =>
          match p (trimmed.drop m.min_j.toNat) with
          | .ok r => .ok (.function op [l, r])
          | e => e
        | e => e
      else
        match p (trimmed.drop m.min_j.toNat) with
        | .ok r => .ok (.function op [r])
        | e => e
    else .parse_exception str "does not match any expression types"

/-- Source: `expression::parse`, with recursion fuel. The rules are tried in
the order of the source. -/
def parse_fuel : Nat → List Char → parse_result
  | 0, _ => .out_of_fuel
  | fuel + 1, str =>
    let trimmed := trim_copy str
    if trimmed = [] then .parse_exception str "empty expresion"
    else
      match parse_boolean trimmed with
      | some e => .ok e
      | none =>
      match parse_text trimmed with
      | some e => .ok e
      | none =>
      match parse_integer trimmed with
      | some e => .ok e
      | none =>
      match parse_reference trimmed with
      | some e => .ok e
      | none =>
      match parse_bracket (parse_fuel fuel) trimmed with
      | some r => r
      | none =>
      match parse_function_call (parse_fuel fuel) str trimmed with
      | some r => r
      | none => parse_operator (parse_fuel fuel) str trimmed

/-- Source: `expression::parse`. Every recursive call is on a text shorter
than the trimmed input, so `str.length + 1` units of fuel are enough. -/
def expression.parse (str : List Char) : parse_result := parse_fuel (str.length + 1) str

/-! ## Display (`cell_value`) -/

/-- Source: `expression::integer::cell_value`. Comparisons of the `int`
`unsigned_width` with a `size_t` convert it to `size_t`, and the count of
`substr` is computed in `size_t`. -/
def integer.cell_value (raw : Int) (width : Nat) : List Char :=
  let full := to_string raw
  if full.length ≤ width then List.replicate (width - full.length) ' ' ++ full
  else
    let unsigned_width : Int := (width : Int) - (if raw ≥ 0 then 0 else 1)
    let sign : List Char := if raw ≥ 0 then [] else ['-']
    let exp : Int := (full.length : Int) - 1
    let exp_str := to_string exp
    if to_size_t unsigned_width < 3 + exp_str.length then List.replicate width '#'
    else if to_size_t unsigned_width < 5 + exp_str.length then
      let res := sign ++ full.take 1 ++ "E+".toList ++ exp_str
      if res.length < width then List.replicate (width - res.length) ' ' ++ res else res
    else
      let res := sign ++ full.take 1 ++ ".".toList ++
        (full.drop 1).take (to_size_t (unsigned_width - 4 - (exp_str.length : Int))) ++
        "E+".toList ++ exp_str
      if res.length < width then List.replicate (width - res.length) ' ' ++ res else res

/-- Source: `expression::text::cell_value`. -/
def text.cell_value (raw : List Char) (width : Nat) : List Char :=
  let res := raw.take (min width raw.length)
  if res.length < width then res ++ List.replicate (width - res.length) ' ' else res

/-- Source: `expression::error::to_string`. -/
def error.to_string : values → List Char
  | .arg => "#ARG!".toList
  | .value => "#VALUE!".toList
  | .div0 => "#DIV/0!".toList
  | .name => "#NAME!".toList
  | .recur => "#RECUR!".toList

/-- The common body of `error::cell_value` and `boolean::cell_value`. -/
def centered (content : List Char) (width : Nat) : List Char :=
  if content.length > width then List.replicate width '#'
  else
    List.replicate ((width - content.length) / 2) ' ' ++ content ++
      List.replicate (width - (width - content.length) / 2 - content.length) ' '

/-- Source: `expression::error::cell_value`. -/
def error.cell_value (raw : values) (width : Nat) : List Char :=
  centered (error.to_string raw) width

/-- Source: `expression::boolean::cell_value`. -/
def boolean.cell_value (raw : Bool) (width : Nat) : List Char :=
  centered (if raw then "TRUE".toList else "FALSE".toList) width

/-- Source: the virtual `primitive::cell_value`. -/
def primitive.cell_value : primitive → Nat → List Char
  | .integer raw, width => integer.cell_value raw width
  | .text raw, width => text.cell_value raw width
  | .boolean raw, width => boolean.cell_value raw width
  | .error raw, width => error.cell_value raw width

/-! ## Cells and the grid (`worksheet.h`) -/

/-- Ways in which a call does not return normally. -/
inductive failure where
  /-- `throw std::make_shared<expression::error>(e)`. -/
  | thrown (e : values)
  /-- An `expression::parse_exception` leaving `expression::parse`. -/
  | parse_exception (attempt : List Char) (message : String)
  /-- Undefined behaviour: division by zero, index outside an array or vector. -/
  | fault
  /-- The recursion fuel of the model is used up. -/
  | out_of_fuel
deriving DecidableEq

/-- Outcome of a call: a returned value or a `failure`. -/
abbrev outcome (α : Type) := Except failure α

/-- Source: `worksheet::cell::calculation_state_type`. -/
inductive calculation_state_type where
  | pending | in_progress | finished
deriving DecidableEq, Repr

/-- Source: `worksheet::cell` (the field `ref` is never read by the engine
and is left out). -/
structure cell where
  raw : List Char
  calculation_state : calculation_state_type
  needs_redraw : Bool
  expr : expression
  value : primitive

/-- Source: `worksheet::MAX_ROW`. -/
def MAX_ROW : Nat := 100

/-- Source: `worksheet::MAX_COL`. -/
def MAX_COL : Nat := 100

/-- Source: `worksheet::grid`, indexed `cells[row][col]`. Only indices below
`MAX_ROW` and `MAX_COL` are ever read or written. -/
abbrev grid := Nat → Nat → cell

/-- Assignment to the cell at `(r, c)`. -/
def grid.set (g : grid) (r c : Nat) (x : cell) : grid :=
  fun r1 c1 => if r1 = r ∧ c1 = c then x else g r1 c1

/-! ## Function registry and evaluator (`expression.cpp`) -/

/-- An evaluator of expressions against the grid. -/
abbrev evaluator := grid → expression → outcome primitive × grid

/-- The built-in operations returned by `expression::function::lookup`. -/
inductive builtin where
  | op_add | op_minus | op_multiply | op_divide | op_concat
  | op_eq | op_neq | op_less | op_leq | op_greater | op_geq
  | sum | if_func
deriving DecidableEq, Repr

/-- Source: `expression::function::lookup`; `none` is `throw error(name)`. -/
def function.lookup (name : List Char) : Option builtin :=
  let name := name.map toupper
  if name = "+".toList then some .op_add
  else if name = "-".toList then some .op_minus
  else if name = "*".toList then some .op_multiply
  else if name = "/".toList then some .op_divide
  else if name = "&".toList then some .op_concat
  else if name = "=".toList then some .op_eq
  else if name = "<>".toList then some .op_neq
  else if name = "<".toList then some .op_less
  else if name = "<=".toList then some .op_leq
  else if name = ">".toList then some .op_greater
  else if name = ">=".toList then some .op_geq
  else if name = "SUM".toList then some .sum
  else if name = "IF".toList then some .if_func
  else none

/-- Source: `arg_evaluate`: the arguments are evaluated in order. -/
def arg_evaluate (ev : evaluator) : grid → List expression → outcome (List primitive) × grid
  | g, [] => (.ok [], g)
  | g, e :: rest =>
    match ev g e with
    | (.ok v, g1) =>
      match arg_evaluate ev g1 rest with
      | (.ok vs, g2) => (.ok (v :: vs), g2)
      | (.error f, g2) => (.error f, g2)
    | (.error f, g1) => (.error f, g1)

/-- Source: `cast_or_throw<integer>`; `none` is `throw error(value)`. -/
def cast_integer : primitive → Option Int
  | .integer raw => some raw
  | _ => none

/-- Source: `cast_or_throw<text>`. -/
def cast_text : primitive → Option (List Char)
  | .text raw => some raw
  | _ => none

/-- Source: `cast_or_throw<boolean>`. -/
def cast_boolean : primitive → Option Bool
  | .boolean raw => some raw
  | _ => none

/-- Source: `function::op_add`. -/
def function.op_add (ev : evaluator) (g : grid) (arg : List expression) : outcome primitive × grid :=
  match arg_evaluate ev g arg with
  | (.error f, g1) => (.error f, g1)
  | (.ok evaluated, g1) =>
    match evaluated with
    | [a] =>
      match cast_integer a with
      | some x => (.ok (.integer x), g1)
      | none => (.error (.thrown .value), g1)
    | [a, b] =>
      match cast_integer a, cast_integer b with
      | some x, some y => (.ok (.integer (wrap64 (x + y))), g1)
      | _, _ => (.error (.thrown .value), g1)
    | _ => (.error (.thrown .arg), g1)

/-- Source: `function::op_minus`. -/
def function.op_minus (ev : evaluator) (g : grid) (arg : List expression) : outcome primitive × grid :=
  match arg_evaluate ev g arg with
  | (.error f, g1) => (.error f, g1)
  | (.ok evaluated, g1) =>
    match evaluated with
    | [a] =>
      match cast_integer a with
      | some x => (.ok (.integer (wrap64 (-x))), g1)
      | none => (.error (.thrown .value), g1)
    | [a, b] =>
      match cast_integer a, cast_integer b with
      | some x, some y => (.ok (.integer (wrap64 (x - y))), g1)
      | _, _ => (.error (.thrown .value), g1)
    | _ => (.error (.thrown .arg), g1)

/-- Source: `function::op_multiply`. -/
def function.op_multiply (ev : evaluator) (g : grid) (arg : List expression) : outcome primitive × grid :=
  if arg.length ≠ 2 then (.error (.thrown .arg), g)
  else
    match arg_evaluate ev g arg with
    | (.error f, g1) => (.error f, g1)
    | (.ok evaluated, g1) =>
      match evaluated with
      | [a, b] =>
        match cast_integer a, cast_integer b with
        | some x, some y => (.ok (.integer (wrap64 (x * y))), g1)
        | _, _ => (.error (.thrown .value), g1)
      | _ => (.error .fault, g1)

/-- Source: `function::op_divide`. The quotient is computed by the machine
division of two `int64_t` without any test of the divisor: a zero divisor
(and `INT64_MIN / -1`) is undefined behaviour, here `fault`. -/
def function.op_divide (ev : evaluator) (g : grid) (arg : List expression) : outcome primitive × grid :=
  if arg.length ≠ 2 then (.error (.thrown .arg), g)
  else
    match arg_evaluate ev g arg with
    | (.error f, g1) => (.error f, g1)
    | (.ok evaluated, g1) =>
      match evaluated with
      | [a, b] =>
        match cast_integer a, cast_integer b with
        | some x, some y =>
          if y = 0 ∨ (x = -(2 : Int) ^ 63 ∧ y = -1) then (.error .fault, g1)
          else (.ok (.integer (Int.tdiv x y)), g1)
        | _, _ => (.error (.thrown .value), g1)
      | _ => (.error .fault, g1)

/-- Source: `function::op_concat`. -/
def function.op_concat (ev : evaluator) (g : grid) (arg : List expression) : outcome primitive × grid :=
  if arg.length ≠ 2 then (.error (.thrown .arg), g)
  else
    match arg_evaluate ev g arg with
    | (.error f, g1) => (.error f, g1)
    | (.ok evaluated, g1) =>
      match evaluated with
      | [a, b] =>
        match cast_text a, cast_text b with
        | some x, some y => (.ok (.text (x ++ y)), g1)
        | _, _ => (.error (.thrown .value), g1)
      | _ => (.error .fault, g1)

/-- Source: the macro `equality_operator(op)`, the body of the six
comparison functions. There is no test of the argument count: reading
`evaluated[0]` or `evaluated[1]` of a shorter vector is `fault`. -/
def function.equality_operator (cmp_integer : Int → Int → Bool)
    (cmp_text : List Char → List Char → Bool) (cmp_boolean : Bool → Bool → Bool)
    (ev : evaluator) (g : grid) (arg : List expression) : outcome primitive × grid :=
  match arg_evaluate ev g arg with
  | (.error f, g1) => (.error f, g1)
  | (.ok evaluated, g1) =>
    match evaluated with
    | [] => (.error .fault, g1)
    | .error _ :: _ => (.error (.thrown .value), g1)
    | _ :: [] => (.error .fault, g1)
    | .integer x :: .integer y :: _ => (.ok (.boolean (cmp_integer x y)), g1)
    | .text x :: .text y :: _ => (.ok (.boolean (cmp_text x y)), g1)
    | .boolean x :: .boolean y :: _ => (.ok (.boolean (cmp_boolean x y)), g1)
    | _ :: _ :: _ => (.ok (.boolean false), g1)

/-- The loop of `function::sum` with the running total `ans`. -/
def function.sum_loop (ev : evaluator) : grid → List expression → Int → outcome primitive × grid
  | g, [], ans => (.ok (.integer ans), g)
  | g, x :: rest, ans =>
    match ev g x with
    | (.error f, g1) => (.error f, g1)
    | (.ok v, g1) =>
      match cast_integer v with
      | some n => function.sum_loop ev g1 rest (wrap64 (ans + n))
      | none => (.error (.thrown .value), g1)

/-- Source: `function::if_func`. -/
def function.if_func (ev : evaluator) (g : grid) (arg : List expression) : outcome primitive × grid :=
  match arg with
  | [a0, a1, a2] =>
    match ev g a0 with
    | (.error f, g1) => (.error f, g1)
    | (.ok v, g1) =>
      match cast_boolean v with
      | some true => ev g1 a1
      | some false => ev g1 a2
      | none => (.error (.thrown .value), g1)
  | _ => (.error (.thrown .arg), g)

/-- Call of the function object returned by `lookup`. -/
def builtin.call : builtin → evaluator → grid → List expression → outcome primitive × grid
  | .op_add => function.op_add
  | .op_minus => function.op_minus
  | .op_multiply => function.op_multiply
  | .op_divide => function.op_divide
  | .op_concat => function.op_concat
  | .op_eq => function.equality_operator (fun x y => x == y) (fun x y => x == y) (fun x y => x == y)
  | .op_neq => function.equality_operator (fun x y => x != y) (fun x y => x != y) (fun x y => x != y)
  | .op_less => function.equality_operator (fun x y => decide (x < y)) (fun x y => decide (x < y))
      (fun x y => decide (x < y))
  | .op_leq => function.equality_operator (fun x y => decide (x ≤ y)) (fun x y => decide (x ≤ y))
      (fun x y => decide (x ≤ y))
  | .op_greater => function.equality_operator (fun x y => decide (x > y)) (fun x y => decide (x > y))
      (fun x y => decide (x > y))
  | .op_geq => function.equality_operator (fun x y => decide (x ≥ y)) (fun x y => decide (x ≥ y))
      (fun x y => decide (x ≥ y))
  | .sum => fun ev g arg => function.sum_loop ev g arg 0
  | .if_func => function.if_func

/-- The two literal branches of `worksheet::cell::calculate`: a raw text
that `std::stoll` reads completely is an integer; otherwise a raw text that
is empty or does not start with `=` is a text. `none`: the raw text is a
formula. -/
def cell.literal (raw : List Char) : Option primitive :=
  let number : Option primitive :=
    match stoll raw with
    | some (v, size) => if size ≠ raw.length then none else some (.integer v)
    | none => none
  match number with
  | some res => some res
  | none => if raw.length = 0 ∨ raw.head? ≠ some '=' then some (.text raw) else none

/-- Source: `worksheet::cell::calculate` for the cell at `(r, c)`, with `ev`
the evaluator used for the parsed formula.

In the two literal branches `res` is a `shared_ptr<primitive>` while `value`
is a `shared_ptr<const primitive>`, so `value != res` is the pointer
comparison of `std::shared_ptr` and holds for the fresh `res`; in the
formula branches both are `shared_ptr<const primitive>` and the comparison
of `expression.cpp` (type and payload) is used. A `parse_exception` is not
caught: the state stays `in_progress`. -/
def cell.calculate (ev : evaluator) (g : grid) (r c : Nat) : outcome primitive × grid :=
  let cl := g r c
  match cl.calculation_state with
  | .finished => (.ok cl.value, g)
  | .in_progress => (.error (.thrown .recur), g)
  | .pending =>
    let g1 := g.set r c { cl with calculation_state := .in_progress }
    match cell.literal cl.raw with
    | some res =>
      (.ok res, g1.set r c { cl with expr := .prim res, needs_redraw := true, value := res,
                                     calculation_state := .finished })
    | none =>
      match expression.parse (cl.raw.drop 1) with
      | .out_of_fuel => (.error .out_of_fuel, g1)
      | .parse_exception attempt message => (.error (.parse_exception attempt message), g1)
      | .ok e =>
        let g2 := g1.set r c { g1 r c with expr := e }
        match ev g2 e with
        | (.ok res, g3) =>
          (.ok res, g3.set r c { g3 r c with needs_redraw := decide ((g3 r c).value ≠ res),
                                             value := res, calculation_state := .finished })
        | (.error (.thrown k), g3) =>
          (.error (.thrown k),
            g3.set r c { g3 r c with needs_redraw := decide ((g3 r c).value ≠ .error k),
                                     value := .error k, calculation_state := .finished })
        | (.error f, g3) => (.error f, g3)

/-- Source: `expression::evaluate` (`primitive::evaluate`,
`reference::evaluate`, `function::evaluate`), with recursion fuel. A
reference outside the `MAX_ROW` x `MAX_COL` arrays is `fault`. -/
def evaluate : Nat → grid → expression → outcome primitive × grid
  | _, g, .prim p => (.ok p, g)
  | 0, g, _ => (.error .out_of_fuel, g)
  | fuel + 1, g, .reference ref =>
    if 0 ≤ ref.row ∧ ref.row < MAX_ROW ∧ 0 ≤ ref.col ∧ ref.col < MAX_COL then
      cell.calculate (evaluate fuel) g ref.row.toNat ref.col.toNat
    else (.error .fault, g)
  | fuel + 1, g, .function name arg =>
    match function.lookup name with
    | none => (.error (.thrown .name), g)
    | some f => f.call (evaluate fuel) g arg

/-! ## Recalculation (`worksheet::recalculate`) -/

/-- The first loop of `recalculate`: every cell becomes `pending` and not dirty. -/
def reset (g : grid) : grid :=
  fun r c =>
    if r < MAX_ROW ∧ c < MAX_COL then
      { g r c with calculation_state := .pending, needs_redraw := false }
    else g r c

/-- The visiting order of the second loop of `recalculate`: row-major. -/
def sweep_order : List (Nat × Nat) :=
  (List.range MAX_ROW).flatMap fun r => (List.range MAX_COL).map fun c => (r, c)

/-- The second loop of `recalculate` over the cells `l`: a thrown `error`
is caught and dropped, any other failure leaves the loop. -/
def sweep (fuel : Nat) : List (Nat × Nat) → grid → outcome Unit × grid
  | [], g => (.ok (), g)
  | (r, c) :: rest, g =>
    match cell.calculate (evaluate fuel) g r c with
    | (.ok _, g1) => sweep fuel rest g1
    | (.error (.thrown _), g1) => sweep fuel rest g1
    | (.error f, g1) => (.error f, g1)

/-- Source: `worksheet::recalculate`. -/
def recalculate (fuel : Nat) (g : grid) : outcome Unit × grid :=
  sweep fuel sweep_order (reset g)

/-- Formula text to result: `expression::parse(str)->evaluate()`. -/
def parse_evaluate (fuel : Nat) (g : grid) (str : List Char) : outcome primitive × grid :=
  match expression.parse str with
  | .ok e => evaluate fuel g e
  | .parse_exception attempt message => (.error (.parse_exception attempt message), g)
  | .out_of_fuel => (.error .out_of_fuel, g)

/-! ## Editor (`workspace.cpp`) -/

/-- Source: `workspace::mode_type`. -/
inductive mode_type where
  | normal | insert
deriving DecidableEq, Repr

/-- Source: the variables of `namespace workspace` together with
`ws.active_cell`; of the worksheet `ws` only the grid of cells is kept, the
layout and the terminal buffer are not part of the engine. -/
structure workspace where
  ws : grid
  active_cell : cell_reference
  mode : mode_type
  mark_flush : Bool
  insert_str : List Char
  insert_parse_error : Bool

/-- Source: `workspace::isWordChar`. -/
def workspace.isWordChar (c : Char) : Bool :=
  (decide ('A' ≤ c) && decide (c ≤ 'Z')) || (decide ('a' ≤ c) && decide (c ≤ 'z')) ||
    (decide ('0' ≤ c) && decide (c ≤ '9'))

/-- The commit at the end of the Enter branch of `workspace::action`: the raw
text of the active cell is overwritten, the editor returns to normal mode
with an empty buffer and the worksheet is recalculated. An active cell
outside the arrays is `fault`. -/
def workspace.commit (fuel : Nat) (w : workspace) : outcome Unit × workspace :=
  if 0 ≤ w.active_cell.row ∧ w.active_cell.row < MAX_ROW ∧ 0 ≤ w.active_cell.col ∧
      w.active_cell.col < MAX_COL then
    let r := w.active_cell.row.toNat
    let c := w.active_cell.col.toNat
    let ws1 := w.ws.set r c { w.ws r c with raw := w.insert_str }
    let res := recalculate fuel ws1
    (res.1, { w with ws := res.2, mode := .normal, insert_str := [] })
  else (.error .fault, w)

/-- Source: `workspace::action`. The calls that only draw on the terminal
(`update_active_cell`) are left out. `char` is signed, so the last branch
takes the codes 32 to 127 only. -/
def workspace.action (fuel : Nat) (w : workspace) (ch : Char) : outcome Unit × workspace :=
  if ch = Char.ofNat 12 then (.ok (), { w with mark_flush := true })
  else
    match w.mode with
    | .normal =>
      if ch = 'j' ∨ ch = 'k' ∨ ch = 'l' ∨ ch = 'h' then
        let offset : Int × Int :=
          if ch = 'j' then (1, 0) else if ch = 'k' then (-1, 0)
          else if ch = 'l' then (0, 1) else (0, -1)
        let newValue : cell_reference :=
          ⟨wrap32 (w.active_cell.row + offset.1), wrap32 (w.active_cell.col + offset.2)⟩
        if newValue.col ≥ 0 ∧ newValue.col < MAX_COL ∧ newValue.row ≥ 0 ∧
            newValue.row < MAX_ROW then
          (.ok (), { w with active_cell := newValue })
        else (.ok (), w)
      else if ch = 'i' then
        if 0 ≤ w.active_cell.row ∧ w.active_cell.row < MAX_ROW ∧ 0 ≤ w.active_cell.col ∧
            w.active_cell.col < MAX_COL then
          (.ok (), { w with mode := .insert,
                            insert_str := (w.ws w.active_cell.row.toNat
                              w.active_cell.col.toNat).raw })
        else (.error .fault, w)
      else (.ok (), w)
    | .insert =>
      if ch = Char.ofNat 127 ∨ ch = Char.ofNat 8 then
        (.ok (), { w with insert_str := w.insert_str.dropLast })
      else if ch = Char.ofNat 23 then
        let s1 := w.insert_str.rdropWhile (fun x => !(workspace.isWordChar x))
        let s2 := s1.rdropWhile workspace.isWordChar
        (.ok (), { w with insert_str := s2 })
      else if ch = Char.ofNat 10 then
        if w.insert_str.length ≠ 0 ∧ w.insert_str.head? = some '=' then
          match expression.parse (w.insert_str.drop 1) with
          | .parse_exception _ _ => (.ok (), { w with insert_parse_error := true })
          | .out_of_fuel => (.error .out_of_fuel, w)
          | .ok _ => workspace.commit fuel w
        else workspace.commit fuel w
      else if ch = Char.ofNat 27 then (.ok (), { w with mode := .normal, insert_str := [] })
      else if 32 ≤ ch.toNat ∧ ch.toNat < 128 then
        (.ok (), { w with insert_str := w.insert_str ++ [ch] })
      else (.ok (), w)

/-! ## Notions used in the statements -/

/-- A non-empty run of decimal digits. -/
def decimal (a : List Char) : Prop := a ≠ [] ∧ ∀ ch ∈ a, is_digit ch = true

/-- A non-negative decimal integer literal: a run of digits whose value is
an `int64_t`. -/
def literal (a : List Char) : Prop := decimal a ∧ digits_value a < 2 ^ 63

instance (a : List Char) : Decidable (decimal a) := by
  unfold decimal
  infer_instance

instance (a : List Char) : Decidable (literal a) := by
  unfold literal
  infer_instance

/-- Characters that the operator scan passes over without any effect. -/
def inert (c : Char) : Prop :=
  c.toNat ≠ 34 ∧ c.toNat ≠ 40 ∧ c.toNat ≠ 41 ∧ c.toNat ≠ 42 ∧ c.toNat ≠ 47 ∧ c.toNat ≠ 43 ∧
    c.toNat ≠ 45 ∧ c.toNat ≠ 38 ∧ c.toNat ≠ 61 ∧ c.toNat ≠ 60 ∧ c.toNat ≠ 62

/-- One of the four arithmetic operator characters. -/
def arith_op (c : Char) : Prop := c = '+' ∨ c = '-' ∨ c = '*' ∨ c = '/'

instance (c : Char) : Decidable (inert c) := by
  unfold inert
  infer_instance

instance (c : Char) : Decidable (arith_op c) := by
  unfold arith_op
  infer_instance

/-- A grid of empty cells, as after the construction of the worksheet. -/
def empty_grid : grid := fun _ _ => ⟨[], .pending, true, .prim (.text []), .text []⟩

/-- One step of reading a text while keeping the bracket depth and the quote
flag: a double quote toggles the flag, and outside quotes `(` adds one to
the depth and `)` takes one off. -/
def depth_step (st : Int × Bool) (c : Char) : Int × Bool :=
  let is_text := if c = dquote then !st.2 else st.2
  if is_text then (st.1, is_text)
  else (if c = '(' then st.1 + 1 else if c = ')' then st.1 - 1 else st.1, is_text)

/-- Bracket depth and quote flag after the text `pre`, read from depth 0
outside quotes. -/
def depth_after (pre : List Char) : Int × Bool := pre.foldl depth_step (0, false)

/-- The text `rest` cut at exactly those commas that stand at bracket depth 0
outside quotes; `pre` is the text read before `rest` and `cur` the piece
collected since the last cut. -/
def cut_top_level (pre : List Char) : List Char → List Char → List (List Char)
  | [], cur => [cur]
  | c :: rest, cur =>
    if c = ',' ∧ depth_after pre = (0, false) then cur :: cut_top_level (pre ++ [c]) rest []
    else cut_top_level (pre ++ [c]) rest (cur ++ [c])

/-- The grid with raw text `a1` in A1, `b1` in B1 and empty cells elsewhere. -/
def two_cell_grid (a1 b1 : List Char) : grid :=
  (empty_grid.set 0 0 ⟨a1, .pending, true, .prim (.text []), .text []⟩).set 0 1
    ⟨b1, .pending, true, .prim (.text []), .text []⟩

/-- The display word of a Boolean or Error value. -/
def display_token : primitive → Option (List Char)
  | .boolean true => some "TRUE".toList
  | .boolean false => some "FALSE".toList
  | .error .arg => some "#ARG!".toList
  | .error .value => some "#VALUE!".toList
  | .error .div0 => some "#DIV/0!".toList
  | .error .name => some "#NAME!".toList
  | .error .recur => some "#RECUR!".toList
  | _ => none

/-- Lexicographic order of two texts by character code; a proper prefix is smaller. -/
def lex_less : List Char → List Char → Bool
  | [], [] => false
  | [], _ :: _ => true
  | _ :: _, [] => false
  | a :: s, b :: t =>
    if a.toNat < b.toNat then true else if b.toNat < a.toNat then false else lex_less s t

/-- The result of the comparison `op` from the two facts "equal" and "less". -/
def order_result (op : List Char) (eq lt : Bool) : Option Bool :=
  if op = "=".toList then some eq
  else if op = "<>".toList then some (!eq)
  else if op = "<".toList then some lt
  else if op = "<=".toList then some (lt || eq)
  else if op = ">".toList then some (!(lt || eq))
  else if op = ">=".toList then some (!lt)
  else none

/-- The value of `x op y` for two values of the same kind: integers in
their order, texts in lexicographic character order, Booleans with
`false < true`. -/
def comparison_result (op : List Char) : primitive → primitive → Option Bool
  | .integer a, .integer b => order_result op (decide (a = b)) (decide (a < b))
  | .text s, .text t => order_result op (decide (s = t)) (lex_less s t)
  | .boolean p, .boolean q => order_result op (decide (p = q)) (!p && q)
  | _, _ => none

/-- The kinds Integer, Text and Boolean, on which the comparisons work. -/
def comparable (v : primitive) : Prop := v.get_type = 1 ∨ v.get_type = 2 ∨ v.get_type = 3

instance (v : primitive) : Decidable (comparable v) := by
  unfold comparable
  infer_instance

/-- One of the six comparison operators. -/
def comparison_op (op : List Char) : Prop :=
  op = "=".toList ∨ op = "<>".toList ∨ op = "<".toList ∨ op = "<=".toList ∨ op = ">".toList ∨
    op = ">=".toList

instance (op : List Char) : Decidable (comparison_op op) := by
  unfold comparison_op
  infer_instance

/-- The digit value of a letter in the column alphabet, `A` or `a` = 1 up to
`Z` or `z` = 26. -/
def letter_index (ch : Char) : Nat := (toupper ch).toNat - 64

/-- The bijective base-26 value of a run of letters, read case-insensitively. -/
def letters_value (l : List Char) : Nat :=
  l.foldl (fun acc ch => acc * 26 + letter_index ch) 0

/-- A non-empty run of ASCII letters. -/
def letter_run (l : List Char) : Prop := l ≠ [] ∧ ∀ ch ∈ l, is_letter ch = true

/-- A non-empty run of capital letters `A`..`Z`. -/
def capital_run (l : List Char) : Prop := l ≠ [] ∧ ∀ ch ∈ l, 'A' ≤ ch ∧ ch ≤ 'Z'

instance (l : List Char) : Decidable (letter_run l) := by
  unfold letter_run
  infer_instance

instance (l : List Char) : Decidable (capital_run l) := by
  unfold capital_run
  infer_instance

/-- One of the four ordering operators. -/
def ordering_op (op : List Char) : Prop :=
  op = "<".toList ∨ op = "<=".toList ∨ op = ">".toList ∨ op = ">=".toList

instance (op : List Char) : Decidable (ordering_op op) := by
  unfold ordering_op
  infer_instance

/-- Every running total of the list, taken from the left, is an `int64_t`. -/
def prefix_sums_fit (ns : List Int) : Prop :=
  ∀ k ≤ ns.length, -(2 : Int) ^ 63 ≤ (ns.take k).sum ∧ (ns.take k).sum < 2 ^ 63

instance (ns : List Int) : Decidable (prefix_sums_fit ns) := by
  unfold prefix_sums_fit
  infer_instance

/-- The names of the 13 built-in operations, as `lookup` compares them. -/
def builtin_names : List (List Char) :=
  ["+".toList, "-".toList, "*".toList, "/".toList, "&".toList, "=".toList, "<>".toList,
    "<".toList, "<=".toList, ">".toList, ">=".toList, "SUM".toList, "IF".toList]

/-- An editor in insert mode on A1 of the empty worksheet, with buffer `s`. -/
def editing (s : List Char) : workspace := ⟨empty_grid, ⟨0, 0⟩, .insert, false, s, false⟩

/-- The empty worksheet with A1 replaced by the cell `x`. -/
def grid_with_A1 (x : cell) : grid := empty_grid.set 0 0 x

/-- A character that leaves the bracket depth and the quote flag as they
are: not a double quote and not a bracket. -/
def neutral (c : Char) : Prop := c ≠ dquote ∧ c ≠ '(' ∧ c ≠ ')'

instance (c : Char) : Decidable (neutral c) := by
  unfold neutral
  infer_instance

/-- The operator scan over `l`, started at index `i`, has chosen an operator
inside `l`: it begins `k` characters into `l`, is `w` characters long and
consists of characters that are neither quotes nor brackets. -/
def scan_found (l : List Char) (i : Nat) (m : op_min) : Prop :=
  ∃ k w : Nat, m.min_i = ((i + k : Nat) : Int) ∧ m.min_j = ((i + k + w : Nat) : Int) ∧
    1 ≤ w ∧ k + w ≤ l.length ∧ ∀ c ∈ (l.drop k).take w, neutral c

/-- Reading `s` from the state `st` (bracket depth and quote flag), the
depth is never negative after a character. -/
def never_negative : Int × Bool → List Char → Bool
  | _, [] => true
  | st, c :: rest => decide (0 ≤ (depth_step st c).1) && never_negative (depth_step st c) rest

/-- A text is balanced when, read from depth 0 outside quotes, its depth is
never negative and it ends at depth 0 outside quotes. -/
def balanced (s : List Char) : Prop :=
  never_negative (0, false) s = true ∧ depth_after s = (0, false)

instance (s : List Char) : Decidable (balanced s) := by
  unfold balanced
  infer_instance

/-- The grid `g1` is a later state of `g` within one sweep: no raw text has
changed, and every cell that was not pending in `g` is as it was. -/
def frozen (g g1 : grid) : Prop :=
  ∀ r c, (g1 r c).raw = (g r c).raw ∧ ((g r c).calculation_state ≠ .pending → g1 r c = g r c)

mutual
/-- Nesting depth of the calls in an expression tree. -/
def expression.depth : expression → Nat
  | .prim _ => 0
  | .reference _ => 0
  | .function _ arg => expression.depth_list arg + 1
/-- The largest nesting depth among the trees of a list. -/
def expression.depth_list : List expression → Nat
  | [] => 0
  | e :: es => max (expression.depth e) (expression.depth_list es)
end

/-- Nesting depth of the formula held by a raw text (0 when the body does
not parse). -/
def formula_depth (raw : List Char) : Nat :=
  match expression.parse (raw.drop 1) with
  | .ok e => e.depth
  | _ => 0

/-- The largest nesting depth among the formulas of the worksheet. -/
def grid_depth (g : grid) : Nat :=
  (sweep_order.map fun p => formula_depth (g p.1 p.2).raw).foldr max 0

/-- Number of cells of the worksheet that are pending. -/
def pending_count (g : grid) : Nat :=
  sweep_order.countP fun p => decide ((g p.1 p.2).calculation_state = .pending)

/-- The argument count `n` is one that the operator rule of the parser gives
to a call named `name`: two operands, or one operand for a unary `+` or `-`.
A name that is not an operator is not constrained. -/
def operator_arity_ok (name : List Char) (n : Nat) : Bool :=
  decide (get_precedence name = -1) || decide (n = 2) || (is_unary name && decide (n = 1))

mutual
/-- Every call node of the tree that is named by an operator has an
argument count that the operator rule gives. -/
def expression.operators_ok : expression → Bool
  | .prim _ => true
  | .reference _ => true
  | .function name arg => operator_arity_ok name arg.length && expression.operators_ok_list arg
/-- The same for every tree of a list. -/
def expression.operators_ok_list : List expression → Bool
  | [] => true
  | e :: es => expression.operators_ok e && expression.operators_ok_list es
end

/-! # Theorems -/

/-! ## Characters -/

theorem char_le_iff (a b : Char) : a ≤ b ↔ a.toNat ≤ b.toNat := by
  rw [Char.le_def]; exact Iff.rfl

theorem char_eq_iff (a b : Char) : a = b ↔ a.toNat = b.toNat := by
  constructor
  · intro h; rw [h]
  · intro h
    apply Char.ext
    apply UInt32.toNat.inj
    exact h

theorem is_digit_iff (d : Char) : is_digit d = true ↔ 48 ≤ d.toNat ∧ d.toNat ≤ 57 := by
  simp [is_digit, char_le_iff]

theorem isspace_iff (c : Char) : isspace c = true ↔
    c.toNat = 32 ∨ c.toNat = 9 ∨ c.toNat = 10 ∨ c.toNat = 11 ∨ c.toNat = 12 ∨ c.toNat = 13 := by
  simp [isspace, char_eq_iff, or_assoc]

theorem is_letter_iff (c : Char) : is_letter c = true ↔
    (65 ≤ c.toNat ∧ c.toNat ≤ 90) ∨ (97 ≤ c.toNat ∧ c.toNat ≤ 122) := by
  simp [is_letter, char_le_iff]

theorem is_letter_or_underscore_iff (c : Char) : is_letter_or_underscore c = true ↔
    (65 ≤ c.toNat ∧ c.toNat ≤ 90) ∨ (97 ≤ c.toNat ∧ c.toNat ≤ 122) ∨ c.toNat = 95 := by
  simp [is_letter_or_underscore, char_le_iff, char_eq_iff, or_assoc]

theorem dquote_toNat : dquote.toNat = 34 := by decide

theorem toupper_of_not_lower (c : Char) (h : ¬ (97 ≤ c.toNat ∧ c.toNat ≤ 122)) : toupper c = c := by
  unfold toupper
  rw [if_neg]
  simpa [char_le_iff] using h

theorem get_precedence_cons (c : Char) (l : List Char)
    (h : c.toNat ≠ 42 ∧ c.toNat ≠ 47 ∧ c.toNat ≠ 43 ∧ c.toNat ≠ 45 ∧ c.toNat ≠ 38 ∧
      c.toNat ≠ 61 ∧ c.toNat ≠ 60 ∧ c.toNat ≠ 62) : get_precedence (c :: l) = -1 := by
  simp [get_precedence, char_eq_iff]
  omega

/-! ## Decimal literals -/

theorem trim_copy_eq_self (s : List Char)
    (h1 : ∀ c, s.head? = some c → isspace c = false)
    (h2 : ∀ c, s.getLast? = some c → isspace c = false) : trim_copy s = s := by
  unfold trim_copy
  have hd : s.dropWhile isspace = s := by
    cases s with
    | nil => rfl
    | cons x t =>
      have := h1 x rfl
      simp [this]
  rw [hd, List.rdropWhile_eq_self_iff]
  intro hl
  have := h2 (s.getLast hl) (List.getLast?_eq_getLast s hl)
  simp [this]

theorem decimal_cons {a : List Char} (ha : decimal a) :
    ∃ d t, a = d :: t ∧ is_digit d = true := by
  obtain ⟨hne, hall⟩ := ha
  cases a with
  | nil => exact absurd rfl hne
  | cons d t => exact ⟨d, t, rfl, hall d (List.mem_cons_self _ _)⟩

theorem decimal_head {a : List Char} (ha : decimal a) (rest : List Char) :
    ∃ d, (a ++ rest).head? = some d ∧ is_digit d = true := by
  obtain ⟨d, t, rfl, hd⟩ := decimal_cons ha
  exact ⟨d, rfl, hd⟩

theorem decimal_getLast {a : List Char} (ha : decimal a) (pre : List Char) :
    ∃ d, (pre ++ a).getLast? = some d ∧ is_digit d = true := by
  obtain ⟨hne, hall⟩ := ha
  refine ⟨a.getLast hne, ?_, hall _ (List.getLast_mem hne)⟩
  rw [List.getLast?_append_of_ne_nil _ hne, List.getLast?_eq_getLast]

theorem digit_not_space {d : Char} (h : is_digit d = true) : isspace d = false := by
  rw [is_digit_iff] at h
  rw [← Bool.not_eq_true, isspace_iff]
  omega

/-- The value read by `strto` on digits followed by a non-digit. -/
theorem strto_decimal (lo hi : Int) (a rest : List Char) (ha : decimal a)
    (hrest : ∀ c, rest.head? = some c → is_digit c = false) :
    strto lo hi (a ++ rest) =
      if (digits_value a : Int) < lo ∨ hi < (digits_value a : Int) then none
      else some ((digits_value a : Int), a.length) := by
  obtain ⟨d, t, rfl, hd⟩ := decimal_cons ha
  have hsp := digit_not_space hd
  have hall := ha.2
  have htw : List.takeWhile is_digit (d :: t ++ rest) = d :: t := by
    rw [List.takeWhile_append_of_pos hall]
    have : List.takeWhile is_digit rest = [] := by
      cases rest with
      | nil => rfl
      | cons x r => simp [hrest x rfl]
    rw [this, List.append_nil]
  have hm : d ≠ '-' := by
    rw [is_digit_iff] at hd; rw [Ne, char_eq_iff]; simp; omega
  have hp : d ≠ '+' := by
    rw [is_digit_iff] at hd; rw [Ne, char_eq_iff]; simp; omega
  simp only [strto, List.cons_append] at htw ⊢
  simp [hsp, hm, hp, htw]

theorem parse_integer_decimal_rest (a rest : List Char) (ha : decimal a) (hne : rest ≠ [])
    (hrest : ∀ c, rest.head? = some c → is_digit c = false) :
    parse_integer (a ++ rest) = none := by
  have hlen : 0 < rest.length := List.length_pos.mpr hne
  unfold parse_integer stoll
  rw [strto_decimal _ _ a rest ha hrest]
  split_ifs with h
  · rfl
  · simp only [List.length_append]
    rw [if_pos (by omega)]

theorem parse_integer_literal (a : List Char) (ha : literal a) :
    parse_integer a = some (.prim (.integer (digits_value a))) := by
  have := strto_decimal (-(2 : Int) ^ 63) (2 ^ 63 - 1) a [] ha.1 (by simp)
  rw [List.append_nil] at this
  unfold parse_integer stoll
  rw [this]
  have h2 := ha.2
  have : ¬ ((digits_value a : Int) < -(2 : Int) ^ 63 ∨ (2 : Int) ^ 63 - 1 < (digits_value a : Int)) := by
    have : (digits_value a : Int) < 2 ^ 63 := by exact_mod_cast h2
    omega
  rw [if_neg this]
  simp

/-! ## Rules of the parser that are decided by the first character -/

theorem parse_boolean_head (c : Char) (t : List Char)
    (h : ¬ (97 ≤ c.toNat ∧ c.toNat ≤ 122)) (hT : c.toNat ≠ 84) (hF : c.toNat ≠ 70) :
    parse_boolean (c :: t) = none := by
  have hu := toupper_of_not_lower c h
  simp [parse_boolean, hu, char_eq_iff, hT, hF]

theorem parse_text_head (c : Char) (t : List Char) (h : c.toNat ≠ 34) :
    parse_text (c :: t) = none := by
  have : c ≠ dquote := by rw [Ne, char_eq_iff, dquote_toNat]; exact h
  simp [parse_text, this]

theorem parse_reference_head (c : Char) (t : List Char) (h : is_letter c = false) :
    parse_reference (c :: t) = none := by
  simp [parse_reference, cell_reference.from_code, h]

theorem parse_bracket_head (p : List Char → parse_result) (c : Char) (t : List Char)
    (h : c.toNat ≠ 40) : parse_bracket p (c :: t) = none := by
  have : c ≠ '(' := by rw [Ne, char_eq_iff]; exact h
  simp [parse_bracket, this]

theorem parse_function_call_head (p : List Char → parse_result) (str : List Char) (c : Char)
    (t : List Char) (h : is_letter_or_underscore c = false) :
    parse_function_call p str (c :: t) = none := by
  simp [parse_function_call, h]

/-- A text that starts with a character which is neither a letter, an
underscore nor a quote, which is not an integer and to which the bracket
rule does not apply, is handled by the operator rule. -/
theorem parse_fuel_head_operator (fuel : Nat) (str : List Char) (c : Char) (t : List Char)
    (htrim : trim_copy str = c :: t)
    (hl : is_letter_or_underscore c = false) (hq : c.toNat ≠ 34)
    (hb : parse_bracket (parse_fuel fuel) (c :: t) = none)
    (hint : parse_integer (c :: t) = none) :
    parse_fuel (fuel + 1) str = parse_operator (parse_fuel fuel) str (c :: t) := by
  have hl2 := hl
  rw [← Bool.not_eq_true, is_letter_or_underscore_iff] at hl2
  have h1 := parse_boolean_head c t (by omega) (by omega) (by omega)
  have h2 := parse_text_head c t hq
  have hlet : is_letter c = false := by
    rw [← Bool.not_eq_true, is_letter_iff]; omega
  have h3 := parse_reference_head c t hlet
  have h5 := parse_function_call_head (parse_fuel fuel) str c t hl
  simp [parse_fuel, htrim, h1, h2, h3, hb, h5, hint]

theorem parse_fuel_literal_trim (fuel : Nat) (str a : List Char) (htrim : trim_copy str = a)
    (ha : literal a) :
    parse_fuel (fuel + 1) str = .ok (.prim (.integer (digits_value a))) := by
  obtain ⟨d', t, rfl, hd'⟩ := decimal_cons ha.1
  rw [is_digit_iff] at hd'
  have h1 := parse_boolean_head d' t (by omega) (by omega) (by omega)
  have h2 := parse_text_head d' t (by omega)
  have h3 := parse_integer_literal _ ha
  simp [parse_fuel, htrim, h1, h2, h3]

theorem trim_copy_decimal_ends (a mid c : List Char) (ha : decimal a) (hc : decimal c) :
    trim_copy (a ++ mid ++ c) = a ++ mid ++ c := by
  obtain ⟨d, hd, hdig⟩ := decimal_head ha (mid ++ c)
  obtain ⟨l, hl, hldig⟩ := decimal_getLast hc (a ++ mid)
  apply trim_copy_eq_self
  · intro x hx
    rw [List.append_assoc, hd] at hx; cases hx; exact digit_not_space hdig
  · intro x hx
    rw [hl] at hx; cases hx; exact digit_not_space hldig

theorem trim_copy_literal (a : List Char) (ha : decimal a) : trim_copy a = a := by
  have := trim_copy_decimal_ends a [] a ha ha
  obtain ⟨d, hd, hdig⟩ := decimal_head ha []
  obtain ⟨l, hl, hldig⟩ := decimal_getLast ha []
  simp only [List.append_nil, List.nil_append] at hd hl
  apply trim_copy_eq_self
  · intro c hc; rw [hd] at hc; cases hc; exact digit_not_space hdig
  · intro c hc; rw [hl] at hc; cases hc; exact digit_not_space hldig

theorem parse_fuel_literal (fuel : Nat) (a : List Char) (ha : literal a) :
    parse_fuel (fuel + 1) a = .ok (.prim (.integer (digits_value a))) :=
  parse_fuel_literal_trim fuel a a (trim_copy_literal a ha.1) ha

/-! ## The operator scan -/

theorem digit_inert {d : Char} (h : is_digit d = true) : inert d := by
  rw [is_digit_iff] at h
  unfold inert
  omega

theorem scan_operator_inert (c : Char) (rest : List Char) (i : Nat) (lvl : Int) (m : op_min)
    (hc : inert c) :
    scan_operator (c :: rest) i false lvl false m = scan_operator rest (i + 1) false lvl false m := by
  obtain ⟨h1, h2, h3, h4⟩ := hc
  have hq : c ≠ dquote := by rw [Ne, char_eq_iff, dquote_toNat]; exact h1
  have hl : c ≠ '(' := by rw [Ne, char_eq_iff]; exact h2
  have hr : c ≠ ')' := by rw [Ne, char_eq_iff]; exact h3
  have hp2 : get_precedence (c :: rest.take 1) = -1 := get_precedence_cons c _ (by omega)
  have hp1 : get_precedence [c] = -1 := get_precedence_cons c _ (by omega)
  simp [scan_operator, hq, hl, hr, hp2, hp1]

theorem scan_operator_inert_run (a rest : List Char) (i : Nat) (lvl : Int) (m : op_min)
    (ha : ∀ ch ∈ a, inert ch) :
    scan_operator (a ++ rest) i false lvl false m =
      scan_operator rest (i + a.length) false lvl false m := by
  induction a generalizing i with
  | nil => simp
  | cons d t ih =>
    rw [List.cons_append, scan_operator_inert d _ i lvl m (ha d (List.mem_cons_self _ _))]
    rw [ih (i + 1) (fun ch hch => ha ch (List.mem_cons_of_mem _ hch))]
    simp only [List.length_cons]
    congr 1
    omega

theorem scan_operator_arith (c : Char) (rest : List Char) (i : Nat) (m : op_min)
    (hc : arith_op c) :
    scan_operator (c :: rest) i false 0 false m =
      scan_operator rest (i + 1) false 0 false
        (if m.min_precedence = -1 ∨ get_precedence [c] ≤ m.min_precedence then
          ⟨i, i + 1, get_precedence [c]⟩ else m) := by
  have hq : c ≠ dquote := by
    rcases hc with h | h | h | h <;> subst h <;> decide
  have hl : c ≠ '(' := by
    rcases hc with h | h | h | h <;> subst h <;> decide
  have hr : c ≠ ')' := by
    rcases hc with h | h | h | h <;> subst h <;> decide
  have hp1 : get_precedence [c] ≠ -1 := by
    rcases hc with h | h | h | h <;> subst h <;> decide
  cases rest with
  | nil =>
    rw [scan_operator.eq_2]
    simp only [hq, hl, hr, hp1, if_false, Bool.false_eq_true, ne_eq, not_true_eq_false,
      and_false, false_and, not_false_eq_true, true_and, and_true]
  | cons x r =>
    have hp2 : get_precedence (c :: List.take 1 (x :: r)) = -1 := by
      rcases hc with h | h | h | h <;> subst h <;> simp [get_precedence]
    rw [scan_operator]
    simp only [hq, hl, hr, hp1, hp2, if_false, Bool.false_eq_true, ne_eq, not_true_eq_false,
      and_false, false_and, not_false_eq_true, true_and, and_true]

theorem scan_operator_arith_nested (c : Char) (rest : List Char) (i : Nat) (lvl : Int)
    (m : op_min) (hc : arith_op c) (hlvl : lvl ≠ 0) :
    scan_operator (c :: rest) i false lvl false m =
      scan_operator rest (i + 1) false lvl false m := by
  have hq : c ≠ dquote := by
    rcases hc with h | h | h | h <;> subst h <;> decide
  have hl : c ≠ '(' := by
    rcases hc with h | h | h | h <;> subst h <;> decide
  have hr : c ≠ ')' := by
    rcases hc with h | h | h | h <;> subst h <;> decide
  rw [scan_operator]
  simp [hq, hl, hr, hlvl]

theorem scan_operator_open (rest : List Char) (i : Nat) (lvl : Int) (m : op_min) :
    scan_operator ('(' :: rest) i false lvl false m =
      scan_operator rest (i + 1) false (lvl + 1) false m := by
  have hp2 : get_precedence ('(' :: rest.take 1) = -1 := get_precedence_cons _ _ (by decide)
  have hp1 : get_precedence ['('] = -1 := by decide
  have hq : '(' ≠ dquote := by decide
  rw [scan_operator]
  simp [hp1, hp2, hq]

theorem scan_operator_close (rest : List Char) (i : Nat) (lvl : Int) (m : op_min)
    (hlvl : 1 ≤ lvl) :
    scan_operator (')' :: rest) i false lvl false m =
      scan_operator rest (i + 1) false (lvl - 1) false m := by
  have hp2 : get_precedence (')' :: rest.take 1) = -1 := get_precedence_cons _ _ (by decide)
  have hp1 : get_precedence [')'] = -1 := by decide
  have hq : ')' ≠ dquote := by decide
  have hne : ¬ (lvl - 1 < 0) := by omega
  rw [scan_operator]
  simp [hp1, hp2, hq, hne]

theorem decimal_inert {a : List Char} (ha : decimal a) : ∀ ch ∈ a, inert ch :=
  fun ch h => digit_inert (ha.2 ch h)

theorem arith_op_not_digit {op : Char} (h : arith_op op) (rest : List Char) :
    ∀ c, (op :: rest).head? = some c → is_digit c = false := by
  intro c hc
  simp only [List.head?_cons, Option.some.injEq] at hc
  subst hc
  rcases h with h | h | h | h <;> subst h <;> decide

theorem arith_op_precedence {op : Char} (h : arith_op op) :
    get_precedence [op] = 2 ∨ get_precedence [op] = 3 := by
  rcases h with h | h | h | h <;> subst h <;> decide

theorem trim_copy_decimal_ne_nil {a : List Char} (ha : decimal a) : trim_copy a ≠ [] := by
  rw [trim_copy_literal a ha]; exact ha.1

/-- The operator rule on `l op r` once the scan has chosen `op`, for a
left operand that is not blank. -/
theorem parse_operator_binary (p : List Char → parse_result) (str l r : List Char) (op : Char)
    (prec : Int)
    (hscan : scan_operator (l ++ op :: r) 0 false 0 false ⟨-1, -1, -1⟩ =
      some ⟨l.length, l.length + 1, prec⟩)
    (hprec : prec ≠ -1) (hl : trim_copy l ≠ []) :
    parse_operator p str (l ++ op :: r) =
      match p l with
      | .ok x =>
        match p r with
        | .ok y => .ok (.function [op] [x, y])
        | e => e
      | e => e := by
  unfold parse_operator
  rw [hscan]
  have h1 : ((l.length : Int) + 1 - (l.length : Int)).toNat = 1 := by simp
  have h2 : ((l.length : Int) + 1).toNat = l.length + 1 := by
    have : ((l.length : Int) + 1) = ((l.length + 1 : Nat) : Int) := by push_cast; rfl
    rw [this, Int.toNat_ofNat]
  simp only [hprec, ne_eq, not_false_eq_true, if_true, Int.toNat_ofNat, h1, h2,
    List.take_left, List.drop_left, List.take, hl, and_false]
  have h3 : List.drop (l.length + 1) (l ++ op :: r) = r := by
    rw [← List.drop_drop, List.drop_left]
    rfl
  rw [h3]

theorem scan_operator_binary (a b : List Char) (op : Char) (ha : decimal a) (hb : decimal b)
    (hop : arith_op op) :
    scan_operator (a ++ op :: b) 0 false 0 false ⟨-1, -1, -1⟩ =
      some ⟨a.length, a.length + 1, get_precedence [op]⟩ := by
  rw [scan_operator_inert_run a _ 0 0 _ (decimal_inert ha), scan_operator_arith _ _ _ _ hop]
  have := scan_operator_inert_run b [] (0 + a.length + 1) 0
    (if (⟨-1, -1, -1⟩ : op_min).min_precedence = -1 ∨
        get_precedence [op] ≤ (⟨-1, -1, -1⟩ : op_min).min_precedence then
      (⟨((0 + a.length : Nat) : Int), ((0 + a.length : Nat) : Int) + 1, get_precedence [op]⟩ : op_min)
      else ⟨-1, -1, -1⟩) (decimal_inert hb)
  rw [List.append_nil] at this
  rw [this]
  simp [scan_operator]

/-- A binary arithmetic operation on two literals. -/
theorem parse_fuel_binary (fuel : Nat) (a b : List Char) (op : Char) (ha : literal a)
    (hb : literal b) (hop : arith_op op) :
    parse_fuel (fuel + 2) (a ++ op :: b) =
      .ok (.function [op] [.prim (.integer (digits_value a)), .prim (.integer (digits_value b))]) := by
  have htrim : trim_copy (a ++ op :: b) = a ++ op :: b := by
    have := trim_copy_decimal_ends a [op] b ha.1 hb.1
    simpa using this
  obtain ⟨d, t, rfl, hd⟩ := decimal_cons ha.1
  have hd' := hd
  rw [is_digit_iff] at hd'
  have hint := parse_integer_decimal_rest (d :: t) (op :: b) ha.1 (by simp)
    (arith_op_not_digit hop b)
  have hlu : is_letter_or_underscore d = false := by
    rw [← Bool.not_eq_true, is_letter_or_underscore_iff]; omega
  rw [parse_fuel_head_operator (fuel + 1) (d :: t ++ op :: b) d (t ++ op :: b) htrim hlu (by omega)
    (parse_bracket_head _ _ _ (by omega)) hint]
  have hprec : get_precedence [op] ≠ -1 := by
    rcases arith_op_precedence hop with h | h <;> rw [h] <;> decide
  have := parse_operator_binary (parse_fuel (fuel + 1)) (d :: t ++ op :: b) (d :: t) b op _
    (scan_operator_binary (d :: t) b op ha.1 hb.1 hop) hprec (trim_copy_decimal_ne_nil ha.1)
  simp only [List.cons_append] at this ⊢
  rw [this, parse_fuel_literal fuel _ ha, parse_fuel_literal fuel _ hb]

/-- The scan of `a p b q c` for literals and arithmetic operators: the
split is at `q` unless `q` binds tighter than `p`. -/
theorem scan_operator_chain (a b c : List Char) (p q : Char) (ha : decimal a) (hb : decimal b)
    (hc : decimal c) (hp : arith_op p) (hq : arith_op q) :
    scan_operator (a ++ p :: (b ++ q :: c)) 0 false 0 false ⟨-1, -1, -1⟩ =
      some (if get_precedence [q] ≤ get_precedence [p] then
        ⟨(a.length + 1 + b.length : Nat), (a.length + 1 + b.length : Nat) + 1, get_precedence [q]⟩
        else ⟨a.length, a.length + 1, get_precedence [p]⟩) := by
  rw [scan_operator_inert_run a _ 0 0 _ (decimal_inert ha), scan_operator_arith _ _ _ _ hp,
    scan_operator_inert_run b _ _ 0 _ (decimal_inert hb), scan_operator_arith _ _ _ _ hq]
  have := fun m => scan_operator_inert_run c [] (0 + a.length + 1 + b.length + 1) 0 m
    (decimal_inert hc)
  simp only [List.append_nil] at this
  rw [this]
  have hpp : get_precedence [p] ≠ -1 := by
    rcases arith_op_precedence hp with h | h <;> rw [h] <;> decide
  simp only [scan_operator, true_or, if_true, hpp, false_or, Nat.zero_add]

theorem literal_binary_trim (a b : List Char) (op : Char) (ha : decimal a) (hb : decimal b) :
    trim_copy (a ++ op :: b) = a ++ op :: b := by
  have := trim_copy_decimal_ends a [op] b ha hb
  simpa using this

/-- The chain `a p b q c` when `q` does not bind tighter than `p`: the
split is at `q`, so the grouping is to the left. -/
theorem parse_fuel_chain_left (fuel : Nat) (a b c : List Char) (p q : Char) (ha : literal a)
    (hb : literal b) (hc : literal c) (hp : arith_op p) (hq : arith_op q)
    (hpq : get_precedence [q] ≤ get_precedence [p]) :
    parse_fuel (fuel + 3) (a ++ p :: (b ++ q :: c)) =
      .ok (.function [q] [.function [p] [.prim (.integer (digits_value a)),
        .prim (.integer (digits_value b))], .prim (.integer (digits_value c))]) := by
  have htrim : trim_copy (a ++ p :: (b ++ q :: c)) = a ++ p :: (b ++ q :: c) := by
    have := trim_copy_decimal_ends a (p :: (b ++ [q])) c ha.1 hc.1
    simpa using this
  have hint := parse_integer_decimal_rest a (p :: (b ++ q :: c)) ha.1 (by simp)
    (arith_op_not_digit hp _)
  have hscan := scan_operator_chain a b c p q ha.1 hb.1 hc.1 hp hq
  rw [if_pos hpq] at hscan
  have hprec : get_precedence [q] ≠ -1 := by
    rcases arith_op_precedence hq with h | h <;> rw [h] <;> decide
  have hl : trim_copy (a ++ p :: b) ≠ [] := by
    rw [literal_binary_trim a b p ha.1 hb.1]; simp
  have hop := parse_operator_binary (parse_fuel (fuel + 2)) (a ++ p :: (b ++ q :: c))
    (a ++ p :: b) c q (get_precedence [q])
    (by
      have e : (a ++ p :: b) ++ q :: c = a ++ p :: (b ++ q :: c) := by simp
      rw [e, hscan]
      simp only [List.length_append, List.length_cons]
      have : a.length + (b.length + 1) = a.length + 1 + b.length := by omega
      rw [this]) hprec hl
  have e : (a ++ p :: b) ++ q :: c = a ++ p :: (b ++ q :: c) := by simp
  rw [e] at hop
  obtain ⟨d, t, rfl, hd⟩ := decimal_cons ha.1
  have hd' := hd
  rw [is_digit_iff] at hd'
  have hlu : is_letter_or_underscore d = false := by
    rw [← Bool.not_eq_true, is_letter_or_underscore_iff]; omega
  simp only [List.cons_append] at htrim hint hop ⊢
  rw [parse_fuel_head_operator (fuel + 2) _ d _ htrim hlu (by omega)
    (parse_bracket_head _ _ _ (by omega)) hint, hop]
  have := parse_fuel_binary fuel (d :: t) b p ha hb hp
  simp only [List.cons_append] at this
  rw [this, parse_fuel_literal (fuel + 1) _ hc]

/-- The chain `a p b q c` when `q` binds tighter than `p`: the split is at `p`. -/
theorem parse_fuel_chain_right (fuel : Nat) (a b c : List Char) (p q : Char) (ha : literal a)
    (hb : literal b) (hc : literal c) (hp : arith_op p) (hq : arith_op q)
    (hpq : ¬ get_precedence [q] ≤ get_precedence [p]) :
    parse_fuel (fuel + 3) (a ++ p :: (b ++ q :: c)) =
      .ok (.function [p] [.prim (.integer (digits_value a)),
        .function [q] [.prim (.integer (digits_value b)), .prim (.integer (digits_value c))]]) := by
  have htrim : trim_copy (a ++ p :: (b ++ q :: c)) = a ++ p :: (b ++ q :: c) := by
    have := trim_copy_decimal_ends a (p :: (b ++ [q])) c ha.1 hc.1
    simpa using this
  have hint := parse_integer_decimal_rest a (p :: (b ++ q :: c)) ha.1 (by simp)
    (arith_op_not_digit hp _)
  have hscan := scan_operator_chain a b c p q ha.1 hb.1 hc.1 hp hq
  rw [if_neg hpq] at hscan
  have hprec : get_precedence [p] ≠ -1 := by
    rcases arith_op_precedence hp with h | h <;> rw [h] <;> decide
  have hop := parse_operator_binary (parse_fuel (fuel + 2)) (a ++ p :: (b ++ q :: c))
    a (b ++ q :: c) p (get_precedence [p]) hscan hprec (trim_copy_decimal_ne_nil ha.1)
  obtain ⟨d, t, rfl, hd⟩ := decimal_cons ha.1
  have hd' := hd
  rw [is_digit_iff] at hd'
  have hlu : is_letter_or_underscore d = false := by
    rw [← Bool.not_eq_true, is_letter_or_underscore_iff]; omega
  simp only [List.cons_append] at htrim hint hop ⊢
  rw [parse_fuel_head_operator (fuel + 2) _ d _ htrim hlu (by omega)
    (parse_bracket_head _ _ _ (by omega)) hint, hop]
  rw [parse_fuel_literal (fuel + 1) _ ha, parse_fuel_binary fuel b c q hb hc hq]

theorem strto_head_none (lo hi : Int) (c : Char) (t : List Char) (hs : isspace c = false)
    (hd : is_digit c = false) (hm : c ≠ '-') (hp : c ≠ '+') : strto lo hi (c :: t) = none := by
  simp [strto, hs, hd, hm, hp]

theorem parse_integer_open (t : List Char) : parse_integer ('(' :: t) = none := by
  unfold parse_integer stoll
  rw [strto_head_none _ _ _ _ (by decide) (by decide) (by decide) (by decide)]

theorem parse_bracket_wrap (p : List Char → parse_result) (inner : List Char) :
    parse_bracket p ('(' :: (inner ++ [')'])) =
      match p inner with
      | .ok e => some (.ok e)
      | .parse_exception _ _ => none
      | .out_of_fuel => some .out_of_fuel := by
  have h1 : ('(' :: (inner ++ [')'])).getLast? = some ')' := by
    rw [← List.cons_append, List.getLast?_append_of_ne_nil _ (by simp)]
    rfl
  have h2 : (List.drop 1 ('(' :: (inner ++ [')']))).take (('(' :: (inner ++ [')'])).length - 2)
      = inner := by
    simp
  unfold parse_bracket
  rw [h2, h1]
  simp only [List.head?_cons, and_self, if_true]

/-- A bracketed text whose interior parses is parsed as its interior. -/
theorem parse_fuel_bracket (fuel : Nat) (inner : List Char) (e : expression)
    (h : parse_fuel fuel inner = .ok e) :
    parse_fuel (fuel + 1) ('(' :: (inner ++ [')'])) = .ok e := by
  have htrim : trim_copy ('(' :: (inner ++ [')'])) = '(' :: (inner ++ [')']) := by
    apply trim_copy_eq_self
    · intro c hc
      simp only [List.head?_cons, Option.some.injEq] at hc
      subst hc; decide
    · intro c hc
      rw [← List.cons_append, List.getLast?_append_of_ne_nil _ (by simp)] at hc
      simp only [List.getLast?_singleton, Option.some.injEq] at hc
      subst hc; decide
  have h1 := parse_boolean_head '(' (inner ++ [')']) (by decide) (by decide) (by decide)
  have h2 := parse_text_head '(' (inner ++ [')']) (by decide)
  have h3 := parse_integer_open (inner ++ [')'])
  have h4 := parse_reference_head '(' (inner ++ [')']) (by decide)
  have h5 := parse_bracket_wrap (parse_fuel fuel) inner
  rw [h] at h5
  simp [parse_fuel, htrim, h1, h2, h3, h4, h5]

/-- The scan of `(a p b) q c`: the operator inside the brackets is not a
candidate. -/
theorem scan_operator_bracket_chain (a b c : List Char) (p q : Char) (ha : decimal a)
    (hb : decimal b) (hc : decimal c) (hp : arith_op p) (hq : arith_op q) :
    scan_operator ('(' :: (a ++ p :: (b ++ ')' :: q :: c))) 0 false 0 false ⟨-1, -1, -1⟩ =
      some ⟨(a.length + b.length + 3 : Nat), (a.length + b.length + 3 : Nat) + 1,
        get_precedence [q]⟩ := by
  rw [scan_operator_open, scan_operator_inert_run a _ _ _ _ (decimal_inert ha),
    scan_operator_arith_nested _ _ _ _ _ hp (by decide),
    scan_operator_inert_run b _ _ _ _ (decimal_inert hb),
    scan_operator_close _ _ _ _ (by decide)]
  have e : (0 : Int) + 1 - 1 = 0 := by decide
  rw [e, scan_operator_arith _ _ _ _ hq]
  have := fun i m => scan_operator_inert_run c [] i 0 m (decimal_inert hc)
  simp only [List.append_nil] at this
  rw [this]
  have e2 : 0 + 1 + a.length + 1 + b.length + 1 = a.length + b.length + 3 := by omega
  simp only [scan_operator, true_or, if_true, e2]

/-- Brackets override precedence: `(a p b) q c`. -/
theorem parse_fuel_bracket_chain (fuel : Nat) (a b c : List Char) (p q : Char) (ha : literal a)
    (hb : literal b) (hc : literal c) (hp : arith_op p) (hq : arith_op q) :
    parse_fuel (fuel + 4) ('(' :: (a ++ p :: (b ++ ')' :: q :: c))) =
      .ok (.function [q] [.function [p] [.prim (.integer (digits_value a)),
        .prim (.integer (digits_value b))], .prim (.integer (digits_value c))]) := by
  have htrim : trim_copy ('(' :: (a ++ p :: (b ++ ')' :: q :: c))) =
      '(' :: (a ++ p :: (b ++ ')' :: q :: c)) := by
    obtain ⟨l, hl, hldig⟩ := decimal_getLast hc.1 ('(' :: (a ++ p :: (b ++ [')', q])))
    apply trim_copy_eq_self
    · intro x hx
      simp only [List.head?_cons, Option.some.injEq] at hx
      subst hx; decide
    · intro x hx
      have e : '(' :: (a ++ p :: (b ++ ')' :: q :: c)) = '(' :: (a ++ p :: (b ++ [')', q])) ++ c := by
        simp
      rw [e, hl] at hx
      cases hx; exact digit_not_space hldig
  have hbr : parse_bracket (parse_fuel (fuel + 3)) ('(' :: (a ++ p :: (b ++ ')' :: q :: c))) = none := by
    obtain ⟨l, hl, hldig⟩ := decimal_getLast hc.1 ('(' :: (a ++ p :: (b ++ [')', q])))
    have e : '(' :: (a ++ p :: (b ++ ')' :: q :: c)) = '(' :: (a ++ p :: (b ++ [')', q])) ++ c := by
      simp
    unfold parse_bracket
    rw [e, hl]
    have : l ≠ ')' := by
      intro h; subst h; revert hldig; decide
    simp [this]
  have hscan := scan_operator_bracket_chain a b c p q ha.1 hb.1 hc.1 hp hq
  have hprec : get_precedence [q] ≠ -1 := by
    rcases arith_op_precedence hq with h | h <;> rw [h] <;> decide
  have hl : trim_copy ('(' :: (a ++ p :: b ++ [')'])) ≠ [] := by
    rw [trim_copy_eq_self]
    · simp
    · intro x hx
      simp only [List.head?_cons, Option.some.injEq] at hx
      subst hx; decide
    · intro x hx
      rw [← List.cons_append, List.getLast?_append_of_ne_nil _ (by simp)] at hx
      simp only [List.getLast?_singleton, Option.some.injEq] at hx
      subst hx; decide
  have e : ('(' :: (a ++ p :: b ++ [')'])) ++ q :: c = '(' :: (a ++ p :: (b ++ ')' :: q :: c)) := by
    simp
  have hop := parse_operator_binary (parse_fuel (fuel + 3)) ('(' :: (a ++ p :: (b ++ ')' :: q :: c)))
    ('(' :: (a ++ p :: b ++ [')'])) c q (get_precedence [q])
    (by
      rw [e, hscan]
      simp only [List.length_append, List.length_cons, List.length_nil]
      have : a.length + (b.length + 1) + (0 + 1) + 1 = a.length + b.length + 3 := by omega
      rw [this]) hprec hl
  rw [e] at hop
  rw [parse_fuel_head_operator (fuel + 3) _ '(' _ htrim (by decide) (by decide) hbr
    (parse_integer_open _), hop]
  have hin := parse_fuel_binary fuel a b p ha hb hp
  have := parse_fuel_bracket (fuel + 2) (a ++ p :: b) _ hin
  rw [this, parse_fuel_literal (fuel + 2) _ hc]

/-! ## Unary minus -/

theorem space_inert : inert ' ' := by
  unfold inert; decide

theorem trim_copy_spaces_decimal (k : Nat) (n : List Char) (hn : decimal n) :
    trim_copy (List.replicate k ' ' ++ n) = n := by
  have h1 : (List.replicate k ' ' ++ n).dropWhile isspace = n.dropWhile isspace := by
    apply List.dropWhile_append_of_pos
    intro a ha
    rw [List.eq_of_mem_replicate ha]; decide
  have h2 := trim_copy_literal n hn
  unfold trim_copy at h2 ⊢
  rw [h1, h2]

theorem strto_minus_decimal (lo hi : Int) (n : List Char) (hn : decimal n) :
    strto lo hi ('-' :: n) =
      if -(digits_value n : Int) < lo ∨ hi < -(digits_value n : Int) then none
      else some (-(digits_value n : Int), 1 + n.length) := by
  have htw : List.takeWhile is_digit n = n := by
    rw [List.takeWhile_eq_self_iff]; exact hn.2
  have hs : isspace '-' = false := by decide
  simp only [strto, List.takeWhile_cons_of_neg, hs, Bool.false_eq_true, not_false_eq_true,
    List.dropWhile_cons_of_neg, List.head?_cons, true_or, if_true, List.drop_one, List.tail_cons,
    htw, hn.1, if_false, decide_True, List.length_nil, Nat.zero_add]

theorem parse_integer_minus_literal (n : List Char) (hn : literal n) :
    parse_integer ('-' :: n) = some (.prim (.integer (-(digits_value n : Int)))) := by
  unfold parse_integer stoll
  rw [strto_minus_decimal _ _ n hn.1]
  have h2 : (digits_value n : Int) < 2 ^ 63 := by exact_mod_cast hn.2
  rw [if_neg (by omega)]
  simp only [List.length_cons]
  rw [if_neg (by omega)]

theorem parse_integer_minus_space (t : List Char) : parse_integer ('-' :: ' ' :: t) = none := by
  simp [parse_integer, stoll, strto, isspace, is_digit]

/-- The sign directly followed by a literal is read by the integer rule. -/
theorem parse_fuel_minus_literal (fuel : Nat) (n : List Char) (hn : literal n) :
    parse_fuel (fuel + 1) ('-' :: n) = .ok (.prim (.integer (-(digits_value n : Int)))) := by
  obtain ⟨l, hl, hldig⟩ := decimal_getLast hn.1 ['-']
  have htrim : trim_copy ('-' :: n) = '-' :: n := by
    apply trim_copy_eq_self
    · intro x hx
      simp only [List.head?_cons, Option.some.injEq] at hx
      subst hx; decide
    · intro x hx
      rw [List.singleton_append] at hl
      rw [hl] at hx
      cases hx; exact digit_not_space hldig
  have h1 := parse_boolean_head '-' n (by decide) (by decide) (by decide)
  have h2 := parse_text_head '-' n (by decide)
  have h3 := parse_integer_minus_literal n hn
  simp [parse_fuel, htrim, h1, h2, h3]

/-- The sign separated from the literal by spaces is a unary call. -/
theorem parse_fuel_minus_spaces (fuel k : Nat) (n : List Char) (hn : literal n) :
    parse_fuel (fuel + 2) ('-' :: (List.replicate (k + 1) ' ' ++ n)) =
      .ok (.function ['-'] [.prim (.integer (digits_value n))]) := by
  obtain ⟨l, hl, hldig⟩ := decimal_getLast hn.1 ('-' :: List.replicate (k + 1) ' ')
  rw [List.cons_append] at hl
  have htrim : trim_copy ('-' :: (List.replicate (k + 1) ' ' ++ n)) =
      '-' :: (List.replicate (k + 1) ' ' ++ n) := by
    apply trim_copy_eq_self
    · intro x hx
      simp only [List.head?_cons, Option.some.injEq] at hx
      subst hx; decide
    · intro x hx
      rw [hl] at hx
      cases hx; exact digit_not_space hldig
  have hint : parse_integer ('-' :: (List.replicate (k + 1) ' ' ++ n)) = none := by
    rw [List.replicate_succ, List.cons_append]
    exact parse_integer_minus_space _
  rw [parse_fuel_head_operator (fuel + 1) _ '-' _ htrim (by decide) (by decide)
    (parse_bracket_head _ _ _ (by decide)) hint]
  have hinert : ∀ ch ∈ List.replicate (k + 1) ' ' ++ n, inert ch := by
    intro ch hch
    rcases List.mem_append.mp hch with h | h
    · rw [List.eq_of_mem_replicate h]; exact space_inert
    · exact decimal_inert hn.1 ch h
  have hscan : scan_operator ('-' :: (List.replicate (k + 1) ' ' ++ n)) 0 false 0 false
      ⟨-1, -1, -1⟩ = some ⟨0, 1, 2⟩ := by
    rw [scan_operator_arith _ _ _ _ (Or.inr (Or.inl rfl))]
    have := fun m => scan_operator_inert_run (List.replicate (k + 1) ' ' ++ n) [] (0 + 1) 0 m hinert
    simp only [List.append_nil] at this
    rw [this]
    rfl
  unfold parse_operator
  rw [hscan]
  have ht : trim_copy ([] : List Char) = [] := rfl
  have hu : is_unary ['-'] = true := by decide
  simp only [ne_eq, Int.reduceNeg, reduceCtorEq, not_false_eq_true, if_true, Int.toNat_zero,
    List.drop_zero, Int.sub_zero, Int.toNat_one, List.take_succ_cons, List.take_zero, hu, ht,
    and_self, not_true_eq_false, if_false, List.drop_one, List.tail_cons]
  rw [parse_fuel_literal_trim fuel _ n (trim_copy_spaces_decimal (k + 1) n hn.1) hn]

theorem wrap64_eq_self (x : Int) (h1 : -(2 : Int) ^ 63 ≤ x) (h2 : x < 2 ^ 63) : wrap64 x = x := by
  unfold wrap64
  omega

theorem evaluate_prim (fuel : Nat) (g : grid) (p : primitive) :
    evaluate fuel g (.prim p) = (.ok p, g) := by
  cases fuel <;> rfl

set_option maxRecDepth 100000

theorem expression_parse_fuel (s : List Char) (k : Nat) (hk : k ≤ s.length + 1) :
    ∃ n, expression.parse s = parse_fuel (n + k) s :=
  ⟨s.length + 1 - k, by unfold expression.parse; congr 1; omega⟩

theorem literal_ne_nil {a : List Char} (ha : literal a) : 1 ≤ a.length := by
  have := ha.1.1
  cases a with
  | nil => exact absurd rfl this
  | cons _ _ => simp

/-- C3. Precedence: for decimal literals `a`, `b`, `c` the text `a+b*c` parses
to `+` applied to `a` and the product `b*c`, and `(a+b)*c` parses to `*`
applied to the sum `a+b` and `c`; the formula bodies `1+2*3` and `(1+2)*3`
evaluate to the integers 7 and 9. -/
theorem precedence_of_product_over_sum (a b c : List Char) (ha : literal a) (hb : literal b)
    (hc : literal c) (fuel : Nat) (g : grid) :
    expression.parse (a ++ "+".toList ++ b ++ "*".toList ++ c) =
        .ok (.function "+".toList [.prim (.integer (digits_value a)),
          .function "*".toList [.prim (.integer (digits_value b)),
            .prim (.integer (digits_value c))]]) ∧
      expression.parse ("(".toList ++ a ++ "+".toList ++ b ++ ")".toList ++ "*".toList ++ c) =
        .ok (.function "*".toList [.function "+".toList [.prim (.integer (digits_value a)),
          .prim (.integer (digits_value b))], .prim (.integer (digits_value c))]) ∧
      parse_evaluate (fuel + 3) g "1+2*3".toList = (.ok (.integer 7), g) ∧
      parse_evaluate (fuel + 3) g "(1+2)*3".toList = (.ok (.integer 9), g) := by
  have la := literal_ne_nil ha
  have lb := literal_ne_nil hb
  have lc := literal_ne_nil hc
  refine ⟨?_, ?_, by rfl, by rfl⟩
  · have e : a ++ "+".toList ++ b ++ "*".toList ++ c = a ++ '+' :: (b ++ '*' :: c) := by
      simp [String.toList]
    rw [e]
    obtain ⟨n, hn⟩ := expression_parse_fuel (a ++ '+' :: (b ++ '*' :: c)) 3
      (by simp only [List.length_append, List.length_cons]; omega)
    rw [hn]
    exact parse_fuel_chain_right n a b c '+' '*' ha hb hc (Or.inl rfl)
      (Or.inr (Or.inr (Or.inl rfl))) (by decide)
  · have e : "(".toList ++ a ++ "+".toList ++ b ++ ")".toList ++ "*".toList ++ c =
        '(' :: (a ++ '+' :: (b ++ ')' :: '*' :: c)) := by
      simp [String.toList]
    rw [e]
    obtain ⟨n, hn⟩ := expression_parse_fuel ('(' :: (a ++ '+' :: (b ++ ')' :: '*' :: c))) 4
      (by simp only [List.length_append, List.length_cons]; omega)
    rw [hn]
    exact parse_fuel_bracket_chain n a b c '+' '*' ha hb hc (Or.inl rfl)
      (Or.inr (Or.inr (Or.inl rfl)))

theorem precedence_of_product_over_sum_witness :
    literal "1".toList ∧ literal "2".toList ∧ literal "3".toList ∧
      expression.parse ("1".toList ++ "+".toList ++ "2".toList ++ "*".toList ++ "3".toList) =
        .ok (.function "+".toList [.prim (.integer (digits_value "1".toList)),
          .function "*".toList [.prim (.integer (digits_value "2".toList)),
            .prim (.integer (digits_value "3".toList))]]) :=
  have h1 : literal "1".toList := by decide
  have h2 : literal "2".toList := by decide
  have h3 : literal "3".toList := by decide
  ⟨h1, h2, h3,
    (precedence_of_product_over_sum "1".toList "2".toList "3".toList h1 h2 h3 0
      (fun _ _ => ⟨[], .pending, false, .prim (.text []), .text []⟩)).1⟩

/-- C4. Left-associativity: for decimal literals `a`, `b`, `c` and operators
`p`, `q` of equal precedence (both from `+`, `-` or both from `*`, `/`) the
scan of `a p b q c` selects the rightmost operator `q` as the split point
and the text parses to `q` applied to `(a p b)` and `c`; the formula body
`10-3-2` evaluates to the integer 5. -/
theorem left_associativity (a b c : List Char) (p q : Char) (ha : literal a) (hb : literal b)
    (hc : literal c)
    (hpq : (p ∈ ['+', '-'] ∧ q ∈ ['+', '-']) ∨ (p ∈ ['*', '/'] ∧ q ∈ ['*', '/']))
    (fuel : Nat) (g : grid) :
    scan_operator (a ++ [p] ++ b ++ [q] ++ c) 0 false 0 false ⟨-1, -1, -1⟩ =
        some ⟨(a.length + 1 + b.length : Nat), (a.length + 1 + b.length : Nat) + 1,
          get_precedence [q]⟩ ∧
      expression.parse (a ++ [p] ++ b ++ [q] ++ c) =
        .ok (.function [q] [.function [p] [.prim (.integer (digits_value a)),
          .prim (.integer (digits_value b))], .prim (.integer (digits_value c))]) ∧
      parse_evaluate (fuel + 3) g "10-3-2".toList = (.ok (.integer 5), g) := by
  have la := literal_ne_nil ha
  have lb := literal_ne_nil hb
  have lc := literal_ne_nil hc
  have hp : arith_op p := by
    unfold arith_op
    rcases hpq with ⟨h, _⟩ | ⟨h, _⟩ <;> simp at h <;> tauto
  have hq : arith_op q := by
    unfold arith_op
    rcases hpq with ⟨_, h⟩ | ⟨_, h⟩ <;> simp at h <;> tauto
  have hprec : get_precedence [q] ≤ get_precedence [p] := by
    rcases hpq with ⟨h1, h2⟩ | ⟨h1, h2⟩ <;> simp at h1 h2 <;>
      rcases h1 with h1 | h1 <;> rcases h2 with h2 | h2 <;> subst h1 <;> subst h2 <;> decide
  have e : a ++ [p] ++ b ++ [q] ++ c = a ++ p :: (b ++ q :: c) := by simp
  rw [e]
  refine ⟨?_, ?_, by rfl⟩
  · rw [scan_operator_chain a b c p q ha.1 hb.1 hc.1 hp hq, if_pos hprec]
  · obtain ⟨n, hn⟩ := expression_parse_fuel (a ++ p :: (b ++ q :: c)) 3
      (by simp only [List.length_append, List.length_cons]; omega)
    rw [hn]
    exact parse_fuel_chain_left n a b c p q ha hb hc hp hq hprec

theorem left_associativity_witness :
    literal "10".toList ∧ literal "3".toList ∧ literal "2".toList ∧
      expression.parse ("10".toList ++ ['-'] ++ "3".toList ++ ['-'] ++ "2".toList) =
        .ok (.function ['-'] [.function ['-'] [.prim (.integer (digits_value "10".toList)),
          .prim (.integer (digits_value "3".toList))],
          .prim (.integer (digits_value "2".toList))]) :=
  have h1 : literal "10".toList := by decide
  have h2 : literal "3".toList := by decide
  have h3 : literal "2".toList := by decide
  ⟨h1, h2, h3,
    (left_associativity "10".toList "3".toList "2".toList '-' '-' h1 h2 h3
      (Or.inl ⟨by decide, by decide⟩) 0
      (fun _ _ => ⟨[], .pending, false, .prim (.text []), .text []⟩)).2.1⟩

/-- C5. Unary and binary minus: for a decimal literal `n` the formula body
`-n`, with any number of spaces between the sign and `n`, evaluates to the
integer `-n`; for decimal literals `a`, `b` the body `a-b` evaluates to the
integer `a-b`; `-5` gives -5 and `3-2` gives 1. -/
theorem unary_and_binary_minus (n a b : List Char) (k : Nat) (hn : literal n) (ha : literal a)
    (hb : literal b) (fuel : Nat) (g : grid) :
    parse_evaluate (fuel + 2) g ("-".toList ++ List.replicate k ' ' ++ n) =
        (.ok (.integer (-(digits_value n : Int))), g) ∧
      parse_evaluate (fuel + 2) g (a ++ "-".toList ++ b) =
        (.ok (.integer ((digits_value a : Int) - (digits_value b : Int))), g) ∧
      parse_evaluate (fuel + 2) g "-5".toList = (.ok (.integer (-5)), g) ∧
      parse_evaluate (fuel + 2) g "3-2".toList = (.ok (.integer 1), g) := by
  have ln := literal_ne_nil hn
  have la := literal_ne_nil ha
  have lb := literal_ne_nil hb
  have vn : (digits_value n : Int) < 2 ^ 63 := by exact_mod_cast hn.2
  have va : (digits_value a : Int) < 2 ^ 63 := by exact_mod_cast ha.2
  have vb : (digits_value b : Int) < 2 ^ 63 := by exact_mod_cast hb.2
  refine ⟨?_, ?_, by rfl, by rfl⟩
  · cases k with
    | zero =>
      have e : "-".toList ++ List.replicate 0 ' ' ++ n = '-' :: n := by simp [String.toList]
      obtain ⟨m, hm⟩ := expression_parse_fuel ('-' :: n) 1 (by simp)
      rw [e]
      unfold parse_evaluate
      rw [hm, parse_fuel_minus_literal m n hn]
      rfl
    | succ k =>
      have e : "-".toList ++ List.replicate (k + 1) ' ' ++ n =
          '-' :: (List.replicate (k + 1) ' ' ++ n) := by simp [String.toList]
      obtain ⟨m, hm⟩ := expression_parse_fuel ('-' :: (List.replicate (k + 1) ' ' ++ n)) 2
        (by simp only [List.length_append, List.length_cons, List.length_replicate]; omega)
      rw [e]
      unfold parse_evaluate
      rw [hm, parse_fuel_minus_spaces m k n hn]
      have : evaluate (fuel + 2) g (.function ['-'] [.prim (.integer (digits_value n))]) =
          (.ok (.integer (wrap64 (-(digits_value n : Int)))), g) := rfl
      simp only [this]
      rw [wrap64_eq_self _ (by omega) (by omega)]
  · have e : a ++ "-".toList ++ b = a ++ '-' :: b := by simp [String.toList]
    obtain ⟨m, hm⟩ := expression_parse_fuel (a ++ '-' :: b) 2
      (by simp only [List.length_append, List.length_cons]; omega)
    rw [e]
    unfold parse_evaluate
    rw [hm, parse_fuel_binary m a b '-' ha hb (Or.inr (Or.inl rfl))]
    have : evaluate (fuel + 2) g (.function ['-'] [.prim (.integer (digits_value a)),
        .prim (.integer (digits_value b))]) =
          (.ok (.integer (wrap64 ((digits_value a : Int) - (digits_value b : Int)))), g) := rfl
    simp only [this]
    rw [wrap64_eq_self _ (by omega) (by omega)]

theorem unary_and_binary_minus_witness :
    literal "5".toList ∧ literal "3".toList ∧ literal "2".toList ∧
      parse_evaluate 2 empty_grid ("-".toList ++ List.replicate 1 ' ' ++ "5".toList) =
        (.ok (.integer (-(digits_value "5".toList : Int))), empty_grid) :=
  have h1 : literal "5".toList := by decide
  have h2 : literal "3".toList := by decide
  have h3 : literal "2".toList := by decide
  ⟨h1, h2, h3,
    (unary_and_binary_minus "5".toList "3".toList "2".toList 1 h1 h2 h3 0 empty_grid).1⟩

/-- C6. String literal isolation: for every text `s` without a double quote,
the text formed by `s` between two double quotes parses to the single node
`text s`, whatever operators, commas, brackets or spaces `s` contains; in
particular the quoted `a+b` is the text `a+b` and not an operator call. -/
theorem string_literal_isolation (s : List Char) (hs : dquote ∉ s) :
    expression.parse (dquote :: s ++ [dquote]) = .ok (.prim (.text s)) ∧
      expression.parse (dquote :: "a+b".toList ++ [dquote]) =
        .ok (.prim (.text "a+b".toList)) := by
  refine ⟨?_, by rfl⟩
  have hq : isspace dquote = false := by decide
  have e : dquote :: s ++ [dquote] = dquote :: (s ++ [dquote]) := rfl
  rw [e]
  have hlast : (dquote :: (s ++ [dquote])).getLast? = some dquote := by
    rw [← e, List.getLast?_append_of_ne_nil _ (by simp)]; rfl
  have htrim : trim_copy (dquote :: (s ++ [dquote])) = dquote :: (s ++ [dquote]) := by
    apply trim_copy_eq_self
    · intro c hc
      simp only [List.head?_cons, Option.some.injEq] at hc
      subst hc; exact hq
    · intro c hc
      rw [hlast] at hc
      cases hc; exact hq
  have h1 : parse_boolean (dquote :: (s ++ [dquote])) = none :=
    parse_boolean_head dquote (s ++ [dquote]) (by decide) (by decide) (by decide)
  have hcount : List.count dquote (dquote :: (s ++ [dquote])) = 2 := by
    simp [List.count_eq_zero_of_not_mem hs]
  have h2 : parse_text (dquote :: (s ++ [dquote])) = some (.prim (.text s)) := by
    unfold parse_text
    rw [hlast, hcount]
    simp
  obtain ⟨m, hm⟩ := expression_parse_fuel (dquote :: (s ++ [dquote])) 1 (by simp)
  rw [hm]
  simp [parse_fuel, htrim, h1, h2]

theorem string_literal_isolation_witness :
    dquote ∉ "a+b, (c)".toList ∧
      expression.parse (dquote :: "a+b, (c)".toList ++ [dquote]) =
        .ok (.prim (.text "a+b, (c)".toList)) :=
  ⟨by decide, (string_literal_isolation "a+b, (c)".toList (by decide)).1⟩

/-- C8. `IF` short-circuit: when the condition `c` evaluates to the boolean
`b`, a call of `IF` on `[c, t, e]` is exactly the evaluation of `t` (for
`b = true`) or of `e` (for `b = false`) in the grid left by the condition;
the other branch is not evaluated, so its errors do not matter. The body
`IF(TRUE,1,UNDEFINEDFUNC())` evaluates to the integer 1 although its third
argument alone fails with `Name`. -/
theorem if_short_circuit (fuel : Nat) (g g1 : grid) (c t e : expression) (b : Bool)
    (hc : evaluate fuel g c = (.ok (.boolean b), g1)) :
    evaluate (fuel + 1) g (.function "IF".toList [c, t, e]) =
        evaluate fuel g1 (if b then t else e) ∧
      parse_evaluate (fuel + 2) g "IF(TRUE,1,UNDEFINEDFUNC())".toList = (.ok (.integer 1), g) ∧
      parse_evaluate (fuel + 2) g "UNDEFINEDFUNC()".toList = (.error (.thrown .name), g) := by
  refine ⟨?_, by rfl, by rfl⟩
  have hl : function.lookup "IF".toList = some .if_func := by decide
  rw [evaluate, hl]
  simp only [builtin.call, function.if_func, hc]
  cases b <;> rfl

theorem if_short_circuit_witness :
    evaluate 1 empty_grid (.prim (.boolean true)) = (.ok (.boolean true), empty_grid) ∧
      evaluate 2 empty_grid (.function "IF".toList
          [.prim (.boolean true), .prim (.integer 1), .function "UNDEFINEDFUNC".toList []]) =
        evaluate 1 empty_grid (if true then .prim (.integer 1)
          else .function "UNDEFINEDFUNC".toList []) :=
  ⟨rfl, (if_short_circuit 1 empty_grid empty_grid (.prim (.boolean true)) (.prim (.integer 1))
    (.function "UNDEFINEDFUNC".toList []) true rfl).1⟩

/-- C9. Division by zero in the code: `op_divide` divides without a test of
the divisor, so the formula body `10/0` ends in the fault of the machine
division and not in the error value `Div0`. -/
theorem divide_by_zero_is_fault (fuel : Nat) (g : grid) :
    parse_evaluate (fuel + 2) g "10/0".toList = (.error .fault, g) ∧
      (parse_evaluate (fuel + 2) g "10/0".toList).1 ≠ .error (.thrown .div0) ∧
      (parse_evaluate (fuel + 2) g "10/0".toList).1 ≠ .ok (.error .div0) := by
  have h : parse_evaluate (fuel + 2) g "10/0".toList = (.error .fault, g) := by rfl
  rw [h]
  exact ⟨rfl, by simp, by simp⟩

/-- C10. Operator between two function calls in the code: `SUM(1)` and
`SUM(2)` parse as function calls, but on `SUM(1)+SUM(2)` the function call
rule meets the first closing bracket at depth 0 and throws `bracket
unmatched` out of `parse`; the operator rule is never reached. -/
theorem operator_between_calls_throws :
    expression.parse "SUM(1)".toList = .ok (.function "SUM".toList [.prim (.integer 1)]) ∧
      expression.parse "SUM(2)".toList = .ok (.function "SUM".toList [.prim (.integer 2)]) ∧
      expression.parse "SUM(1)+SUM(2)".toList =
        .parse_exception "SUM(1)+SUM(2)".toList "bracket unmatched" ∧
      expression.parse "(1)+(2)".toList =
        .ok (.function "+".toList [.prim (.integer 1), .prim (.integer 2)]) :=
  ⟨by rfl, by rfl, by rfl, by rfl⟩

/-! ## Argument splitting of the function call rule -/

theorem depth_after_concat (pre : List Char) (c : Char) :
    depth_after (pre ++ [c]) = depth_step (depth_after pre) c := by
  simp [depth_after, List.foldl_append]

/-- The state kept by `split_args` is the depth and quote flag of the text
read so far, and its cuts are the cuts at top-level commas. -/
theorem split_args_cut (rest : List Char) :
    ∀ (pre : List Char) (lvl : Int) (txt : Bool) (args : List (List Char)) (cur : List Char)
      (lvl1 : Int) (txt1 : Bool) (args1 : List (List Char)) (cur1 : List Char),
      depth_after pre = (lvl, txt) →
      split_args rest lvl txt args cur = some (lvl1, txt1, args1, cur1) →
      args1 ++ [cur1] = args ++ cut_top_level pre rest cur ∧
        depth_after (pre ++ rest) = (lvl1, txt1) := by
  induction rest with
  | nil =>
    intro pre lvl txt args cur lvl1 txt1 args1 cur1 hst h
    simp only [split_args, Option.some.injEq, Prod.mk.injEq] at h
    obtain ⟨rfl, rfl, rfl, rfl⟩ := h
    simp [cut_top_level, hst]
  | cons c rest ih =>
    intro pre lvl txt args cur lvl1 txt1 args1 cur1 hst h
    have hstep := depth_after_concat pre c
    rw [hst] at hstep
    have happ : pre ++ c :: rest = (pre ++ [c]) ++ rest := by simp
    rw [happ]
    have hcomma : (',' : Char) ≠ dquote := by decide
    have hco : (',' : Char) ≠ '(' := by decide
    have hcc : (',' : Char) ≠ ')' := by decide
    rw [split_args] at h
    by_cases hq : c = dquote
    · -- a quote toggles the flag
      have hnc : c ≠ ',' := by rw [hq]; decide
      have hno : c ≠ '(' := by rw [hq]; decide
      have hncl : c ≠ ')' := by rw [hq]; decide
      cases txt with
      | false =>
        simp only [hq, if_true, Bool.not_false] at h
        simp only [depth_step, hq, if_true, Bool.not_false] at hstep
        rw [← hq] at h hstep
        have := ih (pre ++ [c]) lvl true args (cur ++ [c]) lvl1 txt1 args1 cur1 hstep h
        rw [cut_top_level, if_neg (fun hh => hnc hh.1)]
        exact this
      | true =>
        simp only [hq, if_true, Bool.not_true, Bool.false_eq_true, if_false] at h
        simp only [depth_step, hq, if_true, Bool.not_true, Bool.false_eq_true, if_false] at hstep
        rw [← hq] at h hstep
        simp only [hnc, hno, hncl, and_false, if_false] at h hstep
        have := ih (pre ++ [c]) lvl false args (cur ++ [c]) lvl1 txt1 args1 cur1 hstep h
        rw [cut_top_level, if_neg (fun hh => hnc hh.1)]
        exact this
    · cases txt with
      | true =>
        simp only [hq, if_false, if_true] at h
        simp only [depth_step, hq, if_false, if_true] at hstep
        have := ih (pre ++ [c]) lvl true args (cur ++ [c]) lvl1 txt1 args1 cur1 hstep h
        rw [cut_top_level, if_neg (fun hh => by rw [hst] at hh; simp at hh)]
        exact this
      | false =>
        simp only [hq, if_false, Bool.false_eq_true] at h
        simp only [depth_step, hq, if_false, Bool.false_eq_true] at hstep
        by_cases hsep : lvl = 0 ∧ c = ','
        · obtain ⟨rfl, rfl⟩ := hsep
          simp only [hco, hcc, and_self, if_true, if_false] at h hstep
          have := ih (pre ++ [',']) 0 false (args ++ [cur]) [] lvl1 txt1 args1 cur1 hstep h
          rw [cut_top_level, if_pos ⟨rfl, hst⟩]
          simpa using this
        · have hcut : ¬ (c = ',' ∧ depth_after pre = (0, false)) := by
            intro hh
            rw [hst] at hh
            simp only [Prod.mk.injEq, and_true] at hh
            exact hsep ⟨hh.2, hh.1⟩
          rw [cut_top_level, if_neg hcut]
          simp only [hsep, if_false] at h
          by_cases ho : c = '('
          · simp only [ho, if_true] at h hstep
            rw [ho]
            exact ih (pre ++ ['(']) (lvl + 1) false args (cur ++ ['(']) lvl1 txt1 args1 cur1 hstep h
          · by_cases hc : c = ')'
            · have hoc : (')' : Char) ≠ '(' := by decide
              simp only [hc, hoc, if_true, if_false] at h hstep
              by_cases hneg : lvl - 1 < 0
              · simp [hneg] at h
              · simp only [hneg, if_false] at h
                rw [hc]
                exact ih (pre ++ [')']) (lvl - 1) false args (cur ++ [')']) lvl1 txt1 args1 cur1
                  hstep h
            · simp only [ho, hc, if_false] at h hstep
              exact ih (pre ++ [c]) lvl false args (cur ++ [c]) lvl1 txt1 args1 cur1 hstep h

/-- C7. Nested function calls: the argument texts produced by the splitting
loop of the function call rule are the interior cut at exactly the commas
that stand at bracket depth 0 outside quotes; `SUM(1,SUM(2,3))` parses to
`SUM` applied to 1 and to `SUM` applied to 2 and 3, and evaluates to the
integer 6. -/
theorem nested_function_calls (s : List Char) (lvl : Int) (txt : Bool)
    (args : List (List Char)) (cur : List Char)
    (h : split_args s 0 false [] [] = some (lvl, txt, args, cur)) (fuel : Nat) (g : grid) :
    args ++ [cur] = cut_top_level [] s [] ∧
      expression.parse "SUM(1,SUM(2,3))".toList =
        .ok (.function "SUM".toList [.prim (.integer 1),
          .function "SUM".toList [.prim (.integer 2), .prim (.integer 3)]]) ∧
      parse_evaluate (fuel + 3) g "SUM(1,SUM(2,3))".toList = (.ok (.integer 6), g) := by
  refine ⟨?_, by rfl, by rfl⟩
  have := (split_args_cut s [] 0 false [] [] lvl txt args cur rfl h).1
  simpa using this

theorem nested_function_calls_witness :
    split_args "1,SUM(2,3)".toList 0 false [] [] =
        some (0, false, ["1".toList], "SUM(2,3)".toList) ∧
      ["1".toList] ++ ["SUM(2,3)".toList] = cut_top_level [] "1,SUM(2,3)".toList [] :=
  ⟨by rfl, (nested_function_calls "1,SUM(2,3)".toList 0 false ["1".toList] "SUM(2,3)".toList
    (by rfl) 0 empty_grid).1⟩

set_option maxRecDepth 1000000

/-! ## The grid and the sweep -/

theorem grid_set_same (g : grid) (r c : Nat) (x : cell) : (g.set r c x) r c = x := by
  simp [grid.set]

theorem grid_set_other (g : grid) (r c r1 c1 : Nat) (x : cell) (h : ¬ (r1 = r ∧ c1 = c)) :
    (g.set r c x) r1 c1 = g r1 c1 := by
  simp [grid.set, h]

theorem calculate_finished (ev : evaluator) (g : grid) (r c : Nat)
    (h : (g r c).calculation_state = .finished) :
    cell.calculate ev g r c = (.ok (g r c).value, g) := by
  simp [cell.calculate, h]

theorem calculate_in_progress (ev : evaluator) (g : grid) (r c : Nat)
    (h : (g r c).calculation_state = .in_progress) :
    cell.calculate ev g r c = (.error (.thrown .recur), g) := by
  simp [cell.calculate, h]

theorem calculate_literal (ev : evaluator) (g : grid) (r c : Nat) (res : primitive)
    (hs : (g r c).calculation_state = .pending) (hl : cell.literal (g r c).raw = some res) :
    cell.calculate ev g r c =
      (.ok res, (g.set r c { g r c with calculation_state := .in_progress }).set r c
        { g r c with expr := .prim res, needs_redraw := true, value := res,
                     calculation_state := .finished }) := by
  simp [cell.calculate, hs, hl]

theorem calculate_formula_thrown (ev : evaluator) (g g3 : grid) (r c : Nat) (e : expression)
    (k : values) (hs : (g r c).calculation_state = .pending)
    (hl : cell.literal (g r c).raw = none)
    (hp : expression.parse ((g r c).raw.drop 1) = .ok e)
    (hev : ev ((g.set r c { g r c with calculation_state := .in_progress }).set r c
      { g r c with calculation_state := .in_progress, expr := e }) e = (.error (.thrown k), g3)) :
    cell.calculate ev g r c =
      (.error (.thrown k),
        g3.set r c { g3 r c with needs_redraw := decide ((g3 r c).value ≠ .error k),
                                 value := .error k, calculation_state := .finished }) := by
  simp only [cell.calculate, hs, hl, hp, grid_set_same, hev]

theorem calculate_formula_ok (ev : evaluator) (g g3 : grid) (r c : Nat) (e : expression)
    (res : primitive) (hs : (g r c).calculation_state = .pending)
    (hl : cell.literal (g r c).raw = none)
    (hp : expression.parse ((g r c).raw.drop 1) = .ok e)
    (hev : ev ((g.set r c { g r c with calculation_state := .in_progress }).set r c
      { g r c with calculation_state := .in_progress, expr := e }) e = (.ok res, g3)) :
    cell.calculate ev g r c =
      (.ok res,
        g3.set r c { g3 r c with needs_redraw := decide ((g3 r c).value ≠ res),
                                 value := res, calculation_state := .finished }) := by
  simp only [cell.calculate, hs, hl, hp, grid_set_same, hev]

/-- A sweep over cells that are finished, or pending with a literal raw
text, runs to its end and leaves the finished cells as they are. -/
theorem sweep_settled (fuel : Nat) (l : List (Nat × Nat)) :
    ∀ g : grid,
      (∀ p ∈ l, (g p.1 p.2).calculation_state = .finished ∨
        ((g p.1 p.2).calculation_state = .pending ∧
          ∃ res, cell.literal (g p.1 p.2).raw = some res)) →
      (sweep fuel l g).1 = .ok () ∧
        ∀ r c, (g r c).calculation_state = .finished → (sweep fuel l g).2 r c = g r c := by
  induction l with
  | nil => intro g _; exact ⟨rfl, fun _ _ _ => rfl⟩
  | cons p rest ih =>
    intro g h
    obtain ⟨r, c⟩ := p
    rcases h (r, c) (List.mem_cons_self _ _) with hf | ⟨hp, res, hres⟩
    · have hcalc := calculate_finished (evaluate fuel) g r c hf
      have hsw : sweep fuel ((r, c) :: rest) g = sweep fuel rest g := by
        simp only [sweep, hcalc]
      rw [hsw]
      exact ih g (fun q hq => h q (List.mem_cons_of_mem _ hq))
    · have hcalc := calculate_literal (evaluate fuel) g r c res hp hres
      generalize hg1 : (g.set r c { g r c with calculation_state := .in_progress }).set r c
            { g r c with expr := .prim res, needs_redraw := true, value := res,
                         calculation_state := .finished } = g1 at hcalc
      have hsw : sweep fuel ((r, c) :: rest) g = sweep fuel rest g1 := by
        simp only [sweep, hcalc]
      rw [hsw]
      have hother : ∀ r1 c1, ¬ (r1 = r ∧ c1 = c) → g1 r1 c1 = g r1 c1 := by
        intro r1 c1 hne
        rw [← hg1, grid_set_other _ _ _ _ _ _ hne, grid_set_other _ _ _ _ _ _ hne]
      have hsame : (g1 r c).calculation_state = .finished := by
        rw [← hg1, grid_set_same]
      have := ih g1 (fun q hq => by
        by_cases hq2 : q.1 = r ∧ q.2 = c
        · left; rw [hq2.1, hq2.2]; exact hsame
        · rw [hother _ _ hq2]; exact h q (List.mem_cons_of_mem _ hq))
      refine ⟨this.1, fun r1 c1 hfin => ?_⟩
      have hne : ¬ (r1 = r ∧ c1 = c) := by
        rintro ⟨rfl, rfl⟩
        rw [hp] at hfin
        cases hfin
      rw [← hother r1 c1 hne]
      apply this.2
      rw [hother r1 c1 hne]
      exact hfin

theorem sweep_order_head : sweep_order = (0, 0) :: (0, 1) :: sweep_order.drop 2 := by
  rfl

theorem sweep_order_bounds : ∀ p ∈ sweep_order, p.1 < MAX_ROW ∧ p.2 < MAX_COL := by
  intro p hp
  simp only [sweep_order, List.mem_flatMap, List.mem_range, List.mem_map] at hp
  obtain ⟨r, hr, c, hc, rfl⟩ := hp
  exact ⟨hr, hc⟩

theorem evaluate_reference (fuel : Nat) (g : grid) (r c : Nat) (hr : r < MAX_ROW)
    (hc : c < MAX_COL) :
    evaluate (fuel + 1) g (.reference ⟨r, c⟩) = cell.calculate (evaluate fuel) g r c := by
  have h : (0 : Int) ≤ r ∧ (r : Int) < MAX_ROW ∧ (0 : Int) ≤ c ∧ (c : Int) < MAX_COL := by
    refine ⟨by omega, by exact_mod_cast hr, by omega, by exact_mod_cast hc⟩
  simp only [evaluate, h, and_self, if_true, Int.toNat_ofNat]

theorem evaluate_add_thrown (fuel : Nat) (g g1 : grid) (x y : expression) (f : failure)
    (h : evaluate fuel g x = (.error f, g1)) :
    evaluate (fuel + 1) g (.function "+".toList [x, y]) = (.error f, g1) := by
  have hl : function.lookup "+".toList = some .op_add := by decide
  simp only [evaluate, hl, builtin.call, function.op_add, arg_evaluate, h]

theorem evaluate_add_integers (fuel : Nat) (g g1 : grid) (x : expression) (a b : Int)
    (h : evaluate (fuel + 1) g x = (.ok (.integer a), g1)) :
    evaluate (fuel + 2) g (.function "+".toList [x, .prim (.integer b)]) =
      (.ok (.integer (wrap64 (a + b))), g1) := by
  have hl : function.lookup "+".toList = some .op_add := by decide
  simp only [evaluate, hl, builtin.call, function.op_add, arg_evaluate, h, cast_integer]

theorem literal_nil : cell.literal [] = some (.text []) := by rfl

theorem reset_apply (g : grid) (r c : Nat) (hr : r < MAX_ROW) (hc : c < MAX_COL) :
    reset g r c = { g r c with calculation_state := .pending, needs_redraw := false } := by
  simp [reset, hr, hc]

theorem evaluate_reference_A1 (fuel : Nat) (g : grid) :
    evaluate (fuel + 1) g (.reference ⟨0, 0⟩) = cell.calculate (evaluate fuel) g 0 0 := by
  rfl

theorem evaluate_reference_B1 (fuel : Nat) (g : grid) :
    evaluate (fuel + 1) g (.reference ⟨0, 1⟩) = cell.calculate (evaluate fuel) g 0 1 := by
  rfl

theorem parse_B1_plus_1 : expression.parse ("=B1+1".toList.drop 1) =
    .ok (.function "+".toList [.reference ⟨0, 1⟩, .prim (.integer 1)]) := by
  rfl

theorem parse_A1_plus_1 : expression.parse ("=A1+1".toList.drop 1) =
    .ok (.function "+".toList [.reference ⟨0, 0⟩, .prim (.integer 1)]) := by
  rfl

theorem literal_B1_plus_1 : cell.literal "=B1+1".toList = none := by rfl

theorem literal_A1_plus_1 : cell.literal "=A1+1".toList = none := by rfl

/-- The calculation of A1 in a grid where A1 is `=B1+1` and B1 is `=A1+1`,
both pending: both cells end finished with the error `recur`, the other
cells are untouched and the call throws `recur`. -/
theorem calculate_two_cycle (fuel : Nat) (g : grid)
    (hA : (g 0 0).raw = "=B1+1".toList) (hB : (g 0 1).raw = "=A1+1".toList)
    (hsA : (g 0 0).calculation_state = .pending) (hsB : (g 0 1).calculation_state = .pending) :
    ∃ g6 : grid, cell.calculate (evaluate (fuel + 4)) g 0 0 = (.error (.thrown .recur), g6) ∧
      (g6 0 0).value = .error .recur ∧ (g6 0 0).calculation_state = .finished ∧
      (g6 0 1).value = .error .recur ∧ (g6 0 1).calculation_state = .finished ∧
      ∀ r c, ¬ (r = 0 ∧ c = 0) → ¬ (r = 0 ∧ c = 1) → g6 r c = g r c := by
  -- the grid in which A1 is in progress
  generalize hg2 : (g.set 0 0 { g 0 0 with calculation_state := .in_progress }).set 0 0
      { g 0 0 with calculation_state := .in_progress,
                   expr := .function "+".toList [.reference ⟨0, 1⟩, .prim (.integer 1)] } = g2
  have h2A : (g2 0 0).calculation_state = .in_progress := by rw [← hg2, grid_set_same]
  have h2o : ∀ r c, ¬ (r = 0 ∧ c = 0) → g2 r c = g r c := by
    intro r c h
    rw [← hg2, grid_set_other _ _ _ _ _ _ h, grid_set_other _ _ _ _ _ _ h]
  have h2B : g2 0 1 = g 0 1 := h2o 0 1 (by decide)
  -- the grid in which B1 is in progress as well
  generalize hg4 : (g2.set 0 1 { g2 0 1 with calculation_state := .in_progress }).set 0 1
      { g2 0 1 with calculation_state := .in_progress,
                    expr := .function "+".toList [.reference ⟨0, 0⟩, .prim (.integer 1)] } = g4
  have h4o : ∀ r c, ¬ (r = 0 ∧ c = 1) → g4 r c = g2 r c := by
    intro r c h
    rw [← hg4, grid_set_other _ _ _ _ _ _ h, grid_set_other _ _ _ _ _ _ h]
  have h4A : (g4 0 0).calculation_state = .in_progress := by
    rw [h4o 0 0 (by decide)]; exact h2A
  -- B1 reads A1, which is in progress
  have hrefA : evaluate (fuel + 1) g4 (.reference ⟨0, 0⟩) = (.error (.thrown .recur), g4) := by
    rw [evaluate_reference_A1, calculate_in_progress _ _ _ _ h4A]
  have hevB := evaluate_add_thrown (fuel + 1) g4 g4 (.reference ⟨0, 0⟩) (.prim (.integer 1)) _
    hrefA
  have hcalcB := calculate_formula_thrown (evaluate (fuel + 2)) g2 g4 0 1 _ .recur
    (by rw [h2B]; exact hsB) (by rw [h2B, hB]; exact literal_A1_plus_1)
    (by rw [h2B, hB]; exact parse_A1_plus_1) (by rw [hg4]; exact hevB)
  generalize hg5 : g4.set 0 1 { g4 0 1 with
      needs_redraw := decide ((g4 0 1).value ≠ .error .recur),
      value := .error .recur, calculation_state := .finished } = g5 at hcalcB
  have h5o : ∀ r c, ¬ (r = 0 ∧ c = 1) → g5 r c = g4 r c := by
    intro r c h
    rw [← hg5, grid_set_other _ _ _ _ _ _ h]
  have hrefB : evaluate (fuel + 3) g2 (.reference ⟨0, 1⟩) = (.error (.thrown .recur), g5) := by
    rw [evaluate_reference_B1, hcalcB]
  have hevA := evaluate_add_thrown (fuel + 3) g2 g5 (.reference ⟨0, 1⟩) (.prim (.integer 1)) _
    hrefB
  have hcalcA := calculate_formula_thrown (evaluate (fuel + 4)) g g5 0 0 _ .recur
    hsA (by rw [hA]; exact literal_B1_plus_1)
    (by rw [hA]; exact parse_B1_plus_1) (by rw [hg2]; exact hevA)
  refine ⟨_, hcalcA, ?_, ?_, ?_, ?_, ?_⟩
  · rw [grid_set_same]
  · rw [grid_set_same]
  · rw [grid_set_other _ _ _ _ _ _ (by decide), ← hg5, grid_set_same]
  · rw [grid_set_other _ _ _ _ _ _ (by decide), ← hg5, grid_set_same]
  · intro r c h0 h1
    rw [grid_set_other _ _ _ _ _ _ h0, h5o r c h1, h4o r c h1, h2o r c h0]

theorem centered_recur (width : Nat) (h : 7 ≤ width) :
    primitive.cell_value (.error .recur) width =
      List.replicate ((width - 7) / 2) ' ' ++ "#RECUR!".toList ++
        List.replicate (width - (width - 7) / 2 - 7) ' ' := by
  have hlen : (error.to_string .recur).length = 7 := by rfl
  simp only [primitive.cell_value, error.cell_value, centered, hlen]
  rw [if_neg (by omega)]
  rfl

/-- C1. Cycle detection: in a grid where A1 has raw text `=B1+1`, B1 has raw
text `=A1+1` and every other cell is empty, `recalculate` runs to its end
and leaves A1 and B1 finished with the value `Error(Recur)`, which is shown
as `#RECUR!` centred in any width of at least 7. -/
theorem cycle_detection (fuel : Nat) (g : grid)
    (hA : (g 0 0).raw = "=B1+1".toList) (hB : (g 0 1).raw = "=A1+1".toList)
    (hrest : ∀ r c, r < MAX_ROW → c < MAX_COL → ¬ (r = 0 ∧ c = 0) → ¬ (r = 0 ∧ c = 1) →
      (g r c).raw = []) :
    (recalculate (fuel + 4) g).1 = .ok () ∧
      ((recalculate (fuel + 4) g).2 0 0).value = .error .recur ∧
      ((recalculate (fuel + 4) g).2 0 0).calculation_state = .finished ∧
      ((recalculate (fuel + 4) g).2 0 1).value = .error .recur ∧
      ((recalculate (fuel + 4) g).2 0 1).calculation_state = .finished ∧
      ∀ width, 7 ≤ width →
        ((recalculate (fuel + 4) g).2 0 0).value.cell_value width =
          List.replicate ((width - 7) / 2) ' ' ++ "#RECUR!".toList ++
            List.replicate (width - (width - 7) / 2 - 7) ' ' ∧
        ((recalculate (fuel + 4) g).2 0 1).value.cell_value width =
          List.replicate ((width - 7) / 2) ' ' ++ "#RECUR!".toList ++
            List.replicate (width - (width - 7) / 2 - 7) ' ' := by
  have h00 := reset_apply g 0 0 (by decide) (by decide)
  have h01 := reset_apply g 0 1 (by decide) (by decide)
  obtain ⟨g6, hcalc, hvA, hsA, hvB, hsB, hframe⟩ := calculate_two_cycle fuel (reset g)
    (by rw [h00]; exact hA) (by rw [h01]; exact hB) (by rw [h00]) (by rw [h01])
  obtain ⟨tl, htl⟩ : ∃ tl, sweep_order = (0, 0) :: (0, 1) :: tl := ⟨_, sweep_order_head⟩
  have hsw : recalculate (fuel + 4) g = sweep (fuel + 4) ((0, 1) :: tl) g6 := by
    unfold recalculate
    rw [htl, sweep, hcalc]
  have hset := sweep_settled (fuel + 4) ((0, 1) :: tl) g6 (by
    intro p hp
    have hmem : p ∈ sweep_order := by
      rw [htl]
      exact List.mem_cons_of_mem _ hp
    obtain ⟨hr, hc⟩ := sweep_order_bounds p hmem
    by_cases h0 : p.1 = 0 ∧ p.2 = 0
    · left; rw [h0.1, h0.2]; exact hsA
    · by_cases h1 : p.1 = 0 ∧ p.2 = 1
      · left; rw [h1.1, h1.2]; exact hsB
      · right
        rw [hframe _ _ h0 h1, reset_apply g _ _ hr hc]
        refine ⟨rfl, .text [], ?_⟩
        show cell.literal (g p.1 p.2).raw = _
        rw [hrest _ _ hr hc h0 h1]
        exact literal_nil)
  rw [hsw]
  have eA := hset.2 0 0 hsA
  have eB := hset.2 0 1 hsB
  rw [eA, eB, hvA, hvB]
  refine ⟨hset.1, rfl, hsA, rfl, hsB, fun width hw => ?_⟩
  exact ⟨centered_recur width hw, centered_recur width hw⟩

theorem two_cell_grid_rest (a1 b1 : List Char) (r c : Nat) (h0 : ¬ (r = 0 ∧ c = 0))
    (h1 : ¬ (r = 0 ∧ c = 1)) : (two_cell_grid a1 b1 r c).raw = [] := by
  unfold two_cell_grid
  rw [grid_set_other _ _ _ _ _ _ h1, grid_set_other _ _ _ _ _ _ h0]
  rfl

theorem cycle_detection_witness :
    (two_cell_grid "=B1+1".toList "=A1+1".toList 0 0).raw = "=B1+1".toList ∧
      (two_cell_grid "=B1+1".toList "=A1+1".toList 0 1).raw = "=A1+1".toList ∧
      ((recalculate (0 + 4) (two_cell_grid "=B1+1".toList "=A1+1".toList)).2 0 0).value =
        .error .recur ∧
      ((recalculate (0 + 4) (two_cell_grid "=B1+1".toList "=A1+1".toList)).2 0 1).value =
        .error .recur :=
  have h := cycle_detection 0 (two_cell_grid "=B1+1".toList "=A1+1".toList) rfl rfl
    (fun r c _ _ h0 h1 => two_cell_grid_rest _ _ r c h0 h1)
  ⟨rfl, rfl, h.2.1, h.2.2.2.1⟩

/-! ## Decimal text of an integer -/

theorem digitChar_digit (k : Nat) (hk : k < 10) :
    is_digit (Nat.digitChar k) = true ∧ digit_value (Nat.digitChar k) = k := by
  interval_cases k <;> exact ⟨by decide, by decide⟩

theorem digits_value_concat (l : List Char) (d : Char) :
    digits_value (l ++ [d]) = digits_value l * 10 + digit_value d := by
  simp [digits_value, List.foldl_append]

theorem toDigitsCore_decimal (fuel : Nat) :
    ∀ (n : Nat) (ds : List Char), n < fuel →
      ∃ l, Nat.toDigitsCore 10 fuel n ds = l ++ ds ∧ decimal l ∧ digits_value l = n := by
  induction fuel with
  | zero => intro n ds h; omega
  | succ fuel ih =>
    intro n ds h
    obtain ⟨hd, hv⟩ := digitChar_digit (n % 10) (Nat.mod_lt _ (by decide))
    by_cases h0 : n / 10 = 0
    · refine ⟨[Nat.digitChar (n % 10)], ?_, ⟨by simp, ?_⟩, ?_⟩
      · simp [Nat.toDigitsCore, h0]
      · intro ch hch
        rw [List.mem_singleton] at hch
        rw [hch]; exact hd
      · have : digits_value [Nat.digitChar (n % 10)] = digit_value (Nat.digitChar (n % 10)) := by
          simp [digits_value]
        rw [this, hv]
        omega
    · obtain ⟨l, hl, hdec, hval⟩ := ih (n / 10) (Nat.digitChar (n % 10) :: ds) (by omega)
      refine ⟨l ++ [Nat.digitChar (n % 10)], ?_, ⟨by simp, ?_⟩, ?_⟩
      · simp [Nat.toDigitsCore, h0, hl]
      · intro ch hch
        rcases List.mem_append.mp hch with h1 | h1
        · exact hdec.2 ch h1
        · rw [List.mem_singleton] at h1
          rw [h1]; exact hd
      · rw [digits_value_concat, hval, hv]
        omega

theorem toDigits_decimal (n : Nat) :
    decimal (Nat.toDigits 10 n) ∧ digits_value (Nat.toDigits 10 n) = n := by
  obtain ⟨l, hl, hdec, hval⟩ := toDigitsCore_decimal (n + 1) n [] (by omega)
  rw [List.append_nil] at hl
  unfold Nat.toDigits
  rw [hl]
  exact ⟨hdec, hval⟩

/-- The decimal text of an `int64_t` is read back by `std::stoll` completely. -/
theorem stoll_to_string (n : Int) (hlo : -(2 : Int) ^ 63 ≤ n) (hhi : n < 2 ^ 63) :
    stoll (to_string n) = some (n, (to_string n).length) := by
  unfold to_string stoll
  by_cases hneg : n < 0
  · rw [if_pos hneg]
    obtain ⟨hdec, hval⟩ := toDigits_decimal n.natAbs
    rw [strto_minus_decimal _ _ _ hdec, hval]
    have : -((n.natAbs : Nat) : Int) = n := by omega
    rw [this, if_neg (by omega)]
    simp only [List.length_cons]
    congr 2
    omega
  · rw [if_neg hneg]
    obtain ⟨hdec, hval⟩ := toDigits_decimal n.toNat
    have := strto_decimal (-(2 : Int) ^ 63) (2 ^ 63 - 1) _ [] hdec (by simp)
    rw [List.append_nil] at this
    rw [this, hval]
    have : ((n.toNat : Nat) : Int) = n := by omega
    rw [this, if_neg (by omega)]

theorem literal_to_string (n : Int) (hlo : -(2 : Int) ^ 63 ≤ n) (hhi : n < 2 ^ 63) :
    cell.literal (to_string n) = some (.integer n) := by
  unfold cell.literal
  rw [stoll_to_string n hlo hhi]
  simp

/-- The calculation of B1 = `=A1+1` when A1 is finished with an integer. -/
theorem calculate_successor (fuel : Nat) (g : grid) (n : Int)
    (hA : (g 0 0).calculation_state = .finished) (hvA : (g 0 0).value = .integer n)
    (hB : (g 0 1).raw = "=A1+1".toList) (hsB : (g 0 1).calculation_state = .pending) :
    ∃ g4 : grid, cell.calculate (evaluate (fuel + 2)) g 0 1 =
        (.ok (.integer (wrap64 (n + 1))), g4) ∧
      (g4 0 1).value = .integer (wrap64 (n + 1)) ∧ (g4 0 1).calculation_state = .finished ∧
      ∀ r c, ¬ (r = 0 ∧ c = 1) → g4 r c = g r c := by
  generalize hg3 : (g.set 0 1 { g 0 1 with calculation_state := .in_progress }).set 0 1
      { g 0 1 with calculation_state := .in_progress,
                   expr := .function "+".toList [.reference ⟨0, 0⟩, .prim (.integer 1)] } = g3
  have h3o : ∀ r c, ¬ (r = 0 ∧ c = 1) → g3 r c = g r c := by
    intro r c h
    rw [← hg3, grid_set_other _ _ _ _ _ _ h, grid_set_other _ _ _ _ _ _ h]
  have h3A : g3 0 0 = g 0 0 := h3o 0 0 (by decide)
  have hrefA : evaluate (fuel + 1) g3 (.reference ⟨0, 0⟩) = (.ok (.integer n), g3) := by
    rw [evaluate_reference_A1, calculate_finished _ _ _ _ (by rw [h3A]; exact hA), h3A, hvA]
  have hev := evaluate_add_integers fuel g3 g3 (.reference ⟨0, 0⟩) n 1 hrefA
  have hcalc := calculate_formula_ok (evaluate (fuel + 2)) g g3 0 1 _ _ hsB
    (by rw [hB]; exact literal_A1_plus_1) (by rw [hB]; exact parse_A1_plus_1)
    (by rw [hg3]; exact hev)
  refine ⟨_, hcalc, ?_, ?_, ?_⟩
  · rw [grid_set_same]
  · rw [grid_set_same]
  · intro r c h
    rw [grid_set_other _ _ _ _ _ _ h, h3o r c h]

/-- C2. Reference chaining: when A1 holds the decimal text of an integer `n`
(with `n` and `n+1` in the 64-bit range), B1 holds `=A1+1` and every other
cell is empty, `recalculate` runs to its end and leaves B1 with the cached
value `Integer(n+1)`; for `n = 5` that value is displayed in width 10 as
nine spaces followed by `6`. -/
theorem reference_chaining (fuel : Nat) (g : grid) (n : Int)
    (hlo : -(2 : Int) ^ 63 ≤ n) (hhi : n + 1 < 2 ^ 63)
    (hA : (g 0 0).raw = to_string n) (hB : (g 0 1).raw = "=A1+1".toList)
    (hrest : ∀ r c, r < MAX_ROW → c < MAX_COL → ¬ (r = 0 ∧ c = 0) → ¬ (r = 0 ∧ c = 1) →
      (g r c).raw = []) :
    (recalculate (fuel + 2) g).1 = .ok () ∧
      ((recalculate (fuel + 2) g).2 0 0).value = .integer n ∧
      ((recalculate (fuel + 2) g).2 0 1).value = .integer (n + 1) ∧
      ((recalculate (fuel + 2) g).2 0 1).calculation_state = .finished ∧
      (n = 5 → ((recalculate (fuel + 2) g).2 0 1).value.cell_value 10 =
        List.replicate 9 ' ' ++ "6".toList) := by
  have h00 := reset_apply g 0 0 (by decide) (by decide)
  have h01 := reset_apply g 0 1 (by decide) (by decide)
  -- A1 is a literal number
  have hlit : cell.literal (reset g 0 0).raw = some (.integer n) := by
    rw [h00]
    show cell.literal (g 0 0).raw = _
    rw [hA]
    exact literal_to_string n hlo (by omega)
  have hcalcA := calculate_literal (evaluate (fuel + 2)) (reset g) 0 0 _ (by rw [h00]) hlit
  generalize hg1 : ((reset g).set 0 0 { reset g 0 0 with calculation_state := .in_progress }).set
      0 0 { reset g 0 0 with expr := .prim (.integer n), needs_redraw := true,
                             value := .integer n, calculation_state := .finished } = g1
    at hcalcA
  have h1o : ∀ r c, ¬ (r = 0 ∧ c = 0) → g1 r c = reset g r c := by
    intro r c h
    rw [← hg1, grid_set_other _ _ _ _ _ _ h, grid_set_other _ _ _ _ _ _ h]
  have h1s : (g1 0 0).calculation_state = .finished := by rw [← hg1, grid_set_same]
  have h1v : (g1 0 0).value = .integer n := by rw [← hg1, grid_set_same]
  -- B1 adds one to it
  obtain ⟨g4, hcalcB, hvB, hsB, hframe⟩ := calculate_successor fuel g1 n h1s h1v
    (by rw [h1o 0 1 (by decide), h01]; exact hB) (by rw [h1o 0 1 (by decide), h01])
  have h4s : (g4 0 0).calculation_state = .finished := by
    rw [hframe 0 0 (by decide)]; exact h1s
  have h4v : (g4 0 0).value = .integer n := by
    rw [hframe 0 0 (by decide)]; exact h1v
  obtain ⟨tl, htl⟩ : ∃ tl, sweep_order = (0, 0) :: (0, 1) :: tl := ⟨_, sweep_order_head⟩
  have hsw : recalculate (fuel + 2) g = sweep (fuel + 2) tl g4 := by
    unfold recalculate
    rw [htl, sweep, hcalcA]
    simp only []
    rw [sweep, hcalcB]
  have hset := sweep_settled (fuel + 2) tl g4 (by
    intro p hp
    have hmem : p ∈ sweep_order := by
      rw [htl]
      exact List.mem_cons_of_mem _ (List.mem_cons_of_mem _ hp)
    obtain ⟨hr, hc⟩ := sweep_order_bounds p hmem
    by_cases h0 : p.1 = 0 ∧ p.2 = 0
    · left; rw [h0.1, h0.2]; exact h4s
    · by_cases h1 : p.1 = 0 ∧ p.2 = 1
      · left; rw [h1.1, h1.2]; exact hsB
      · right
        rw [hframe _ _ h1, h1o _ _ h0, reset_apply g _ _ hr hc]
        refine ⟨rfl, .text [], ?_⟩
        show cell.literal (g p.1 p.2).raw = _
        rw [hrest _ _ hr hc h0 h1]
        exact literal_nil)
  rw [hsw, hset.2 0 0 h4s, hset.2 0 1 hsB, h4v, hvB, wrap64_eq_self _ (by omega) (by omega)]
  refine ⟨hset.1, rfl, rfl, hsB, fun h5 => ?_⟩
  rw [h5]
  rfl

theorem reference_chaining_witness :
    -(2 : Int) ^ 63 ≤ 5 ∧ (5 : Int) + 1 < 2 ^ 63 ∧
      (two_cell_grid (to_string 5) "=A1+1".toList 0 0).raw = to_string 5 ∧
      ((recalculate (0 + 2) (two_cell_grid (to_string 5) "=A1+1".toList)).2 0 1).value =
        .integer (5 + 1) :=
  have h := reference_chaining 0 (two_cell_grid (to_string 5) "=A1+1".toList) 5
    (by decide) (by decide) rfl rfl (fun r c _ _ h0 h1 => two_cell_grid_rest _ _ r c h0 h1)
  ⟨by decide, by decide, rfl, h.2.2.1⟩

/-! ## Display, comparisons and the address codec -/

set_option maxRecDepth 100000

/-- C17. Text display: for every text `t` and width `w`, `text::cell_value`
is the first `w` characters of `t` when `t` has more than `w` characters and
otherwise `t` followed by `w - |t|` spaces; the result has exactly `w`
characters, and `HelloWorld` in width 5 is `Hello`. -/
theorem text_display (t : List Char) (w : Nat) :
    text.cell_value t w =
        (if w < t.length then t.take w else t ++ List.replicate (w - t.length) ' ') ∧
      (text.cell_value t w).length = w ∧
      text.cell_value "HelloWorld".toList 5 = "Hello".toList := by
  have h : text.cell_value t w =
      (if w < t.length then t.take w else t ++ List.replicate (w - t.length) ' ') := by
    unfold text.cell_value
    by_cases hlt : w < t.length
    · have hmin : min w t.length = w := by omega
      simp only [hmin, hlt, if_true, List.length_take]
      rw [if_neg (by omega)]
    · have hmin : min w t.length = t.length := by omega
      simp only [hmin, hlt, if_false, List.take_length]
      by_cases heq : t.length < w
      · rw [if_pos heq]
      · have : w - t.length = 0 := by omega
        rw [if_neg heq, this]
        simp
  refine ⟨h, ?_, by rfl⟩
  rw [h]
  by_cases hlt : w < t.length
  · rw [if_pos hlt, List.length_take]; omega
  · rw [if_neg hlt, List.length_append, List.length_replicate]; omega

/-- C18. Boolean and Error display: for a Boolean or Error value with word
`k` and every width `w`, `cell_value` is `w` characters `#` when `k` is
longer than `w`, and otherwise `(w-|k|)/2` spaces, `k`, and the remaining
`w - |k| - (w-|k|)/2` spaces; then the result has `w` characters and the
right padding is the left padding or one more. -/
theorem boolean_error_display (v : primitive) (k : List Char) (w : Nat)
    (hk : display_token v = some k) :
    (w < k.length → v.cell_value w = List.replicate w '#') ∧
      (k.length ≤ w →
        v.cell_value w = List.replicate ((w - k.length) / 2) ' ' ++ k ++
            List.replicate (w - k.length - (w - k.length) / 2) ' ' ∧
          (v.cell_value w).length = w ∧
          (w - k.length) / 2 ≤ w - k.length - (w - k.length) / 2 ∧
          w - k.length - (w - k.length) / 2 ≤ (w - k.length) / 2 + 1) := by
  have hcv : v.cell_value w = centered k w := by
    cases v with
    | integer n => simp [display_token] at hk
    | text t => simp [display_token] at hk
    | boolean b =>
      cases b <;> simp only [display_token, Option.some.injEq] at hk <;> subst hk <;> rfl
    | error e =>
      cases e <;> simp only [display_token, Option.some.injEq] at hk <;> subst hk <;> rfl
  rw [hcv]
  unfold centered
  refine ⟨fun h => by rw [if_pos h], fun h => ?_⟩
  rw [if_neg (by omega)]
  have e : w - (w - k.length) / 2 - k.length = w - k.length - (w - k.length) / 2 := by omega
  rw [e]
  refine ⟨rfl, ?_, by omega, by omega⟩
  simp only [List.length_append, List.length_replicate]
  omega

theorem boolean_error_display_witness :
    display_token (.error .div0) = some "#DIV/0!".toList ∧
      (primitive.error .div0).cell_value 10 =
        List.replicate ((10 - "#DIV/0!".toList.length) / 2) ' ' ++ "#DIV/0!".toList ++
          List.replicate (10 - "#DIV/0!".toList.length - (10 - "#DIV/0!".toList.length) / 2) ' ' :=
  ⟨rfl, ((boolean_error_display (.error .div0) "#DIV/0!".toList 10 rfl).2 (by decide)).1⟩

theorem char_lt_iff (a b : Char) : a < b ↔ a.toNat < b.toNat := by
  rw [Char.lt_def]; exact Iff.rfl

theorem lex_less_iff (s : List Char) : ∀ t : List Char, lex_less s t = true ↔ s < t := by
  induction s with
  | nil =>
    intro t
    cases t with
    | nil =>
      simp only [lex_less, Bool.false_eq_true, false_iff]
      intro h; cases h
    | cons b t =>
      simp only [lex_less, true_iff]
      exact List.Lex.nil
  | cons a s ih =>
    intro t
    cases t with
    | nil =>
      simp only [lex_less, Bool.false_eq_true, false_iff]
      intro h; cases h
    | cons b t =>
      rw [lex_less]
      by_cases h1 : a.toNat < b.toNat
      · rw [if_pos h1]
        simp only [true_iff]
        exact List.Lex.rel ((char_lt_iff a b).mpr h1)
      · rw [if_neg h1]
        have n1 : ¬ a < b := fun h => h1 ((char_lt_iff a b).mp h)
        by_cases h2 : b.toNat < a.toNat
        · rw [if_pos h2]
          simp only [Bool.false_eq_true, false_iff]
          intro h
          cases h with
          | rel h => exact n1 h
          | cons _ => omega
        · rw [if_neg h2]
          have hab : a = b := (char_eq_iff a b).mpr (by omega)
          subst hab
          rw [ih t]
          constructor
          · intro h; exact List.Lex.cons h
          · intro h
            cases h with
            | rel h => exact absurd h n1
            | cons h => exact h

theorem lex_less_eq_decide (s t : List Char) : decide (s < t) = lex_less s t := by
  by_cases h : s < t
  · rw [decide_eq_true h, (lex_less_iff s t).mpr h]
  · rw [decide_eq_false h]
    cases hl : lex_less s t with
    | false => rfl
    | true => exact absurd ((lex_less_iff s t).mp hl) h

theorem lex_less_total (s t : List Char) (h1 : lex_less s t = false) (h2 : lex_less t s = false) :
    s = t := by
  induction s generalizing t with
  | nil =>
    cases t with
    | nil => rfl
    | cons b t => simp [lex_less] at h1
  | cons a s ih =>
    cases t with
    | nil => simp [lex_less] at h2
    | cons b t =>
      rw [lex_less] at h1 h2
      by_cases c1 : a.toNat < b.toNat
      · rw [if_pos c1] at h1; cases h1
      · by_cases c2 : b.toNat < a.toNat
        · rw [if_pos c2] at h2; cases h2
        · rw [if_neg c1, if_neg c2] at h1
          rw [if_neg c2, if_neg c1] at h2
          have hab : a = b := (char_eq_iff a b).mpr (by omega)
          rw [hab, ih t h1 h2]

theorem lex_less_irrefl (s : List Char) : lex_less s s = false := by
  induction s with
  | nil => rfl
  | cons a s ih => simp [lex_less, ih]

theorem lex_less_asymm (s : List Char) : ∀ t, lex_less s t = true → lex_less t s = false := by
  induction s with
  | nil =>
    intro t h
    cases t with
    | nil => rfl
    | cons b t => rfl
  | cons a s ih =>
    intro t h
    cases t with
    | nil => simp [lex_less] at h
    | cons b t =>
      rw [lex_less] at h ⊢
      by_cases c1 : a.toNat < b.toNat
      · rw [if_neg (by omega), if_pos c1]
      · rw [if_neg c1] at h
        by_cases c2 : b.toNat < a.toNat
        · rw [if_pos c2] at h; cases h
        · rw [if_neg c2] at h
          rw [if_neg c2, if_neg c1]
          exact ih t h

/-- The six comparison functions of the model on two texts agree with the
lexicographic character order. -/
theorem text_comparisons (s t : List Char) :
    (s == t) = decide (s = t) ∧ (s != t) = !decide (s = t) ∧
      decide (s < t) = lex_less s t ∧
      decide (s ≤ t) = (lex_less s t || decide (s = t)) ∧
      decide (s > t) = !(lex_less s t || decide (s = t)) ∧
      decide (s ≥ t) = !lex_less s t := by
  have hlt := lex_less_eq_decide s t
  have hgt := lex_less_eq_decide t s
  have hle : decide (s ≤ t) = !lex_less t s := by
    rw [← hgt]
    by_cases h : t < s
    · simp [h, not_le.mpr h]
    · simp [h, not_lt.mp h]
  have hge : decide (s ≥ t) = !lex_less s t := by
    rw [← hlt]
    by_cases h : s < t
    · simp [h, not_le.mpr h]
    · simp [h, not_lt.mp h]
  have hgt2 : decide (s > t) = lex_less t s := hgt
  have heq : (s == t) = decide (s = t) := by
    by_cases h : s = t <;> simp [h]
  have hne : (s != t) = !decide (s = t) := by
    by_cases h : s = t <;> simp [h]
  refine ⟨heq, hne, hlt, ?_, ?_, hge⟩
  · rw [hle]
    by_cases heq : s = t
    · subst heq; simp [lex_less_irrefl]
    · cases h1 : lex_less s t with
      | true => simp [lex_less_asymm s t h1]
      | false =>
        cases h2 : lex_less t s with
        | true => simp [heq]
        | false => exact absurd (lex_less_total s t h1 h2) heq
  · rw [hgt2]
    by_cases heq : s = t
    · subst heq; simp [lex_less_irrefl]
    · cases h1 : lex_less s t with
      | true => simp [lex_less_asymm s t h1]
      | false =>
        cases h2 : lex_less t s with
        | true => simp [heq]
        | false => exact absurd (lex_less_total s t h1 h2) heq

/-- The body of the comparison functions on two evaluated operands. -/
theorem equality_operator_two (ci : Int → Int → Bool) (ct : List Char → List Char → Bool)
    (cb : Bool → Bool → Bool) (ev : evaluator) (g g1 g2 : grid) (x y : expression)
    (v1 v2 : primitive) (hx : ev g x = (.ok v1, g1)) (hy : ev g1 y = (.ok v2, g2)) :
    function.equality_operator ci ct cb ev g [x, y] =
      match v1, v2 with
      | .error _, _ => (.error (.thrown .value), g2)
      | .integer a, .integer b => (.ok (.boolean (ci a b)), g2)
      | .text s, .text t => (.ok (.boolean (ct s t)), g2)
      | .boolean p, .boolean q => (.ok (.boolean (cb p q)), g2)
      | _, _ => (.ok (.boolean false), g2) := by
  simp only [function.equality_operator, arg_evaluate, hx, hy]
  cases v1 <;> cases v2 <;> rfl

theorem int_comparisons (a b : Int) :
    (a == b) = decide (a = b) ∧ (a != b) = !decide (a = b) ∧
      decide (a ≤ b) = (decide (a < b) || decide (a = b)) ∧
      decide (a > b) = !(decide (a < b) || decide (a = b)) ∧
      decide (a ≥ b) = !decide (a < b) := by
  refine ⟨?_, ?_, ?_, ?_, ?_⟩
  · by_cases h : a = b <;> simp [h]
  · by_cases h : a = b <;> simp [h]
  · by_cases h : a < b
    · simp [h, le_of_lt h]
    · by_cases h2 : a = b
      · simp [h2]
      · have : ¬ a ≤ b := by omega
        simp [h, h2, this]
  · by_cases h : a < b
    · have : ¬ b < a := by omega
      simp [h, this]
    · by_cases h2 : a = b
      · simp [h2]
      · have : b < a := by omega
        simp [h, h2, this]
  · by_cases h : a < b
    · have : ¬ b ≤ a := by omega
      simp [h, this]
    · have : b ≤ a := by omega
      simp [h, this]

theorem bool_comparisons (p q : Bool) :
    (p == q) = decide (p = q) ∧ (p != q) = !decide (p = q) ∧
      decide (p < q) = (!p && q) ∧
      decide (p ≤ q) = ((!p && q) || decide (p = q)) ∧
      decide (p > q) = !((!p && q) || decide (p = q)) ∧
      decide (p ≥ q) = !(!p && q) := by
  cases p <;> cases q <;> decide

/-- Evaluation of a comparison call on two operands of the same kind. -/
theorem evaluate_comparison (fuel : Nat) (g g1 g2 : grid) (x y : expression)
    (v1 v2 : primitive) (op : List Char) (b : Bool)
    (hx : evaluate fuel g x = (.ok v1, g1)) (hy : evaluate fuel g1 y = (.ok v2, g2))
    (hb : comparison_result op v1 v2 = some b) :
    evaluate (fuel + 1) g (.function op [x, y]) = (.ok (.boolean b), g2) := by
  have l1 : function.lookup "=".toList = some .op_eq := by decide
  have l2 : function.lookup "<>".toList = some .op_neq := by decide
  have l3 : function.lookup "<".toList = some .op_less := by decide
  have l4 : function.lookup "<=".toList = some .op_leq := by decide
  have l5 : function.lookup ">".toList = some .op_greater := by decide
  have l6 : function.lookup ">=".toList = some .op_geq := by decide
  cases v1 with
  | error e => cases v2 <;> simp [comparison_result] at hb
  | integer a =>
    cases v2 with
    | integer c =>
      obtain ⟨e1, e2, e3, e4, e5⟩ := int_comparisons a c
      simp only [comparison_result, order_result] at hb
      split_ifs at hb with h1 h2 h3 h4 h5 h6 <;>
        simp only [Option.some.injEq] at hb <;> subst hb
      · rw [h1, evaluate, l1]
        simp only [builtin.call, equality_operator_two _ _ _ _ _ _ _ _ _ _ _ hx hy, e1]
      · rw [h2, evaluate, l2]
        simp only [builtin.call, equality_operator_two _ _ _ _ _ _ _ _ _ _ _ hx hy, e2]
      · rw [h3, evaluate, l3]
        simp only [builtin.call, equality_operator_two _ _ _ _ _ _ _ _ _ _ _ hx hy]
      · rw [h4, evaluate, l4]
        simp only [builtin.call, equality_operator_two _ _ _ _ _ _ _ _ _ _ _ hx hy, e3]
      · rw [h5, evaluate, l5]
        simp only [builtin.call, equality_operator_two _ _ _ _ _ _ _ _ _ _ _ hx hy, e4]
      · rw [h6, evaluate, l6]
        simp only [builtin.call, equality_operator_two _ _ _ _ _ _ _ _ _ _ _ hx hy, e5]
    | text t => simp [comparison_result] at hb
    | boolean q => simp [comparison_result] at hb
    | error e => simp [comparison_result] at hb
  | text s =>
    cases v2 with
    | text t =>
      obtain ⟨e1, e2, e3, e4, e5, e6⟩ := text_comparisons s t
      simp only [comparison_result, order_result] at hb
      split_ifs at hb with h1 h2 h3 h4 h5 h6 <;>
        simp only [Option.some.injEq] at hb <;> subst hb
      · rw [h1, evaluate, l1]
        simp only [builtin.call, equality_operator_two _ _ _ _ _ _ _ _ _ _ _ hx hy, e1]
      · rw [h2, evaluate, l2]
        simp only [builtin.call, equality_operator_two _ _ _ _ _ _ _ _ _ _ _ hx hy, e2]
      · rw [h3, evaluate, l3]
        simp only [builtin.call, equality_operator_two _ _ _ _ _ _ _ _ _ _ _ hx hy, e3]
      · rw [h4, evaluate, l4]
        simp only [builtin.call, equality_operator_two _ _ _ _ _ _ _ _ _ _ _ hx hy, e4]
      · rw [h5, evaluate, l5]
        simp only [builtin.call, equality_operator_two _ _ _ _ _ _ _ _ _ _ _ hx hy, e5]
      · rw [h6, evaluate, l6]
        simp only [builtin.call, equality_operator_two _ _ _ _ _ _ _ _ _ _ _ hx hy, e6]
    | integer c => simp [comparison_result] at hb
    | boolean q => simp [comparison_result] at hb
    | error e => simp [comparison_result] at hb
  | boolean p =>
    cases v2 with
    | boolean q =>
      obtain ⟨e1, e2, e3, e4, e5, e6⟩ := bool_comparisons p q
      simp only [comparison_result, order_result] at hb
      split_ifs at hb with h1 h2 h3 h4 h5 h6 <;>
        simp only [Option.some.injEq] at hb <;> subst hb
      · rw [h1, evaluate, l1]
        simp only [builtin.call, equality_operator_two _ _ _ _ _ _ _ _ _ _ _ hx hy, e1]
      · rw [h2, evaluate, l2]
        simp only [builtin.call, equality_operator_two _ _ _ _ _ _ _ _ _ _ _ hx hy, e2]
      · rw [h3, evaluate, l3]
        simp only [builtin.call, equality_operator_two _ _ _ _ _ _ _ _ _ _ _ hx hy, e3]
      · rw [h4, evaluate, l4]
        simp only [builtin.call, equality_operator_two _ _ _ _ _ _ _ _ _ _ _ hx hy, e4]
      · rw [h5, evaluate, l5]
        simp only [builtin.call, equality_operator_two _ _ _ _ _ _ _ _ _ _ _ hx hy, e5]
      · rw [h6, evaluate, l6]
        simp only [builtin.call, equality_operator_two _ _ _ _ _ _ _ _ _ _ _ hx hy, e6]
    | integer c => simp [comparison_result] at hb
    | text t => simp [comparison_result] at hb
    | error e => simp [comparison_result] at hb

/-- C20. Mixed-kind equality: when the two operands evaluate to values of
two different kinds among Integer, Text and Boolean, both the call of `=`
and the call of `<>` evaluate to `Boolean(false)`. -/
theorem mixed_kind_equality (fuel : Nat) (g g1 g2 : grid) (x y : expression)
    (v1 v2 : primitive) (hx : evaluate fuel g x = (.ok v1, g1))
    (hy : evaluate fuel g1 y = (.ok v2, g2)) (h1 : comparable v1) (h2 : comparable v2)
    (hne : v1.get_type ≠ v2.get_type) :
    evaluate (fuel + 1) g (.function "=".toList [x, y]) = (.ok (.boolean false), g2) ∧
      evaluate (fuel + 1) g (.function "<>".toList [x, y]) = (.ok (.boolean false), g2) := by
  have l1 : function.lookup "=".toList = some .op_eq := by decide
  have l2 : function.lookup "<>".toList = some .op_neq := by decide
  constructor
  · rw [evaluate, l1]
    simp only [builtin.call, equality_operator_two _ _ _ _ _ _ _ _ _ _ _ hx hy]
    cases v1 <;> cases v2 <;>
      simp [comparable, primitive.get_type] at h1 h2 hne ⊢
  · rw [evaluate, l2]
    simp only [builtin.call, equality_operator_two _ _ _ _ _ _ _ _ _ _ _ hx hy]
    cases v1 <;> cases v2 <;>
      simp [comparable, primitive.get_type] at h1 h2 hne ⊢

theorem mixed_kind_equality_witness :
    evaluate 1 empty_grid (.prim (.integer 1)) = (.ok (.integer 1), empty_grid) ∧
      evaluate 1 empty_grid (.prim (.text "1".toList)) = (.ok (.text "1".toList), empty_grid) ∧
      comparable (.integer 1) ∧ comparable (.text "1".toList) ∧
      evaluate (1 + 1) empty_grid
          (.function "<>".toList [.prim (.integer 1), .prim (.text "1".toList)]) =
        (.ok (.boolean false), empty_grid) :=
  ⟨rfl, rfl, by decide, by decide,
    (mixed_kind_equality 1 empty_grid empty_grid empty_grid (.prim (.integer 1))
      (.prim (.text "1".toList)) (.integer 1) (.text "1".toList) rfl rfl (by decide) (by decide)
      (by decide)).2⟩

/-- The operator rule on `l op r` once the scan has chosen the operator
text `op`, for a left operand that is not blank. -/
theorem parse_operator_split (p : List Char → parse_result) (str l r op : List Char)
    (prec : Int)
    (hscan : scan_operator (l ++ (op ++ r)) 0 false 0 false ⟨-1, -1, -1⟩ =
      some ⟨l.length, (l.length + op.length : Nat), prec⟩)
    (hprec : prec ≠ -1) (hl : trim_copy l ≠ []) :
    parse_operator p str (l ++ (op ++ r)) =
      match p l with
      | .ok x =>
        match p r with
        | .ok y => .ok (.function op [x, y])
        | e => e
      | e => e := by
  unfold parse_operator
  rw [hscan]
  have h1 : (((l.length + op.length : Nat) : Int) - (l.length : Int)).toNat = op.length := by
    push_cast; simp
  have h3 : List.drop (l.length + op.length) (l ++ (op ++ r)) = r := by
    rw [← List.drop_drop, List.drop_left, List.drop_left]
  simp only [hprec, ne_eq, not_false_eq_true, if_true, Int.toNat_ofNat, h1,
    List.take_left, List.drop_left, hl, and_false, h3]

theorem comparison_first_not_digit {op : List Char} (h : comparison_op op) (rest : List Char) :
    op ++ rest ≠ [] ∧ ∀ c, (op ++ rest).head? = some c → is_digit c = false := by
  rcases h with h | h | h | h | h | h <;> subst h <;>
    exact ⟨by simp [String.toList], fun c hc => by
      simp only [String.toList, List.cons_append, List.head?_cons, Option.some.injEq] at hc
      subst hc; decide⟩

theorem scan_operator_single_comparison (c : Char) (b : List Char) (i : Nat)
    (hc : c = '=' ∨ c = '<' ∨ c = '>') (hb : decimal b) :
    scan_operator (c :: b) i false 0 false ⟨-1, -1, -1⟩ =
      scan_operator b (i + 1) false 0 false ⟨i, (i + 1 : Nat), 0⟩ := by
  obtain ⟨d, t, rfl, hd⟩ := decimal_cons hb
  rw [is_digit_iff] at hd
  have hq : c ≠ dquote := by rcases hc with h | h | h <;> subst h <;> decide
  have hl : c ≠ '(' := by rcases hc with h | h | h <;> subst h <;> decide
  have hr : c ≠ ')' := by rcases hc with h | h | h <;> subst h <;> decide
  have hp1 : get_precedence [c] = 0 := by rcases hc with h | h | h <;> subst h <;> decide
  have hd1 : d ≠ '>' := by rw [Ne, char_eq_iff]; simp; omega
  have hd2 : d ≠ '=' := by rw [Ne, char_eq_iff]; simp; omega
  have hp2 : get_precedence (c :: List.take 1 (d :: t)) = -1 := by
    rcases hc with h | h | h <;> subst h <;> simp [get_precedence, hd1, hd2]
  rw [scan_operator.eq_2]
  simp only [hq, hl, hr, hp1, hp2, if_false, Bool.false_eq_true, ne_eq, not_true_eq_false,
    and_false, false_and, not_false_eq_true, true_and, and_true, true_or, if_true]
  push_cast
  rfl

theorem scan_operator_double_comparison (c1 c2 : Char) (b : List Char) (i : Nat)
    (hc : (c1 = '<' ∧ c2 = '>') ∨ (c1 = '<' ∧ c2 = '=') ∨ (c1 = '>' ∧ c2 = '=')) :
    scan_operator (c1 :: c2 :: b) i false 0 false ⟨-1, -1, -1⟩ =
      scan_operator b (i + 2) false 0 false ⟨i, (i + 2 : Nat), 0⟩ := by
  have hq : c1 ≠ dquote := by rcases hc with ⟨h, _⟩ | ⟨h, _⟩ | ⟨h, _⟩ <;> subst h <;> decide
  have hp2 : get_precedence (c1 :: List.take 1 (c2 :: b)) = 0 := by
    rcases hc with ⟨h, h2⟩ | ⟨h, h2⟩ | ⟨h, h2⟩ <;> subst h <;> subst h2 <;> rfl
  rw [scan_operator.eq_2]
  simp only [hq, hp2, if_false, Bool.false_eq_true, ne_eq, not_true_eq_false,
    and_false, false_and, not_false_eq_true, true_and, and_true, true_or, if_true,
    List.cons_ne_nil]
  rw [scan_operator.eq_2]
  simp only [if_true]
  push_cast
  rfl

/-- The scan of `a op b` for a comparison operator: a two-character
operator is taken as one operator. -/
theorem scan_operator_comparison (a b op : List Char) (ha : decimal a) (hb : decimal b)
    (hop : comparison_op op) :
    scan_operator (a ++ (op ++ b)) 0 false 0 false ⟨-1, -1, -1⟩ =
      some ⟨a.length, (a.length + op.length : Nat), 0⟩ := by
  rw [scan_operator_inert_run a _ 0 0 _ (decimal_inert ha)]
  have hrun := fun i m => scan_operator_inert_run b [] i 0 m (decimal_inert hb)
  simp only [List.append_nil] at hrun
  rcases hop with h | h | h | h | h | h <;> subst h
  · rw [show "=".toList ++ b = '=' :: b from rfl,
      scan_operator_single_comparison _ b _ (Or.inl rfl) hb, hrun]
    simp [scan_operator]
  · rw [show "<>".toList ++ b = '<' :: '>' :: b from rfl,
      scan_operator_double_comparison _ _ b _ (Or.inl ⟨rfl, rfl⟩), hrun]
    simp [scan_operator]
  · rw [show "<".toList ++ b = '<' :: b from rfl,
      scan_operator_single_comparison _ b _ (Or.inr (Or.inl rfl)) hb, hrun]
    simp [scan_operator]
  · rw [show "<=".toList ++ b = '<' :: '=' :: b from rfl,
      scan_operator_double_comparison _ _ b _ (Or.inr (Or.inl ⟨rfl, rfl⟩)), hrun]
    simp [scan_operator]
  · rw [show ">".toList ++ b = '>' :: b from rfl,
      scan_operator_single_comparison _ b _ (Or.inr (Or.inr rfl)) hb, hrun]
    simp [scan_operator]
  · rw [show ">=".toList ++ b = '>' :: '=' :: b from rfl,
      scan_operator_double_comparison _ _ b _ (Or.inr (Or.inr ⟨rfl, rfl⟩)), hrun]
    simp [scan_operator]

/-- A comparison of two literals. -/
theorem parse_fuel_comparison (fuel : Nat) (a b op : List Char) (ha : literal a)
    (hb : literal b) (hop : comparison_op op) :
    parse_fuel (fuel + 2) (a ++ (op ++ b)) =
      .ok (.function op [.prim (.integer (digits_value a)), .prim (.integer (digits_value b))]) := by
  have htrim : trim_copy (a ++ (op ++ b)) = a ++ (op ++ b) := by
    have := trim_copy_decimal_ends a op b ha.1 hb.1
    simpa using this
  obtain ⟨hne, hnd⟩ := comparison_first_not_digit hop b
  have hint := parse_integer_decimal_rest a (op ++ b) ha.1 hne hnd
  have hop2 := parse_operator_split (parse_fuel (fuel + 1)) (a ++ (op ++ b)) a b op 0
    (scan_operator_comparison a b op ha.1 hb.1 hop) (by decide) (trim_copy_decimal_ne_nil ha.1)
  obtain ⟨d, t, rfl, hd⟩ := decimal_cons ha.1
  have hd' := hd
  rw [is_digit_iff] at hd'
  have hlu : is_letter_or_underscore d = false := by
    rw [← Bool.not_eq_true, is_letter_or_underscore_iff]; omega
  simp only [List.cons_append] at htrim hint hop2 ⊢
  rw [parse_fuel_head_operator (fuel + 1) _ d _ htrim hlu (by omega)
    (parse_bracket_head _ _ _ (by omega)) hint, hop2]
  rw [parse_fuel_literal fuel _ ha, parse_fuel_literal fuel _ hb]

/-- C19. Same-kind comparison: for each of the six comparison operators and
operands that evaluate to two Integers, two Texts or two Booleans, the call
evaluates to the Boolean `x op y` (integer order, lexicographic character
order, `false < true`); for decimal literals `a`, `b` the text `a op b`
parses to the call of `op`, a two-character operator being one operator,
and evaluates to the comparison of the two numbers; `1<=2` and `1<>2`
evaluate to `Boolean(true)`. -/
theorem same_kind_comparison (fuel : Nat) (g g1 g2 : grid) (x y : expression)
    (v1 v2 : primitive) (op : List Char) (r : Bool)
    (hx : evaluate fuel g x = (.ok v1, g1)) (hy : evaluate fuel g1 y = (.ok v2, g2))
    (hr : comparison_result op v1 v2 = some r)
    (a b op2 : List Char) (c : Bool) (ha : literal a) (hb : literal b)
    (hop : comparison_op op2)
    (hc : comparison_result op2 (.integer (digits_value a)) (.integer (digits_value b)) = some c) :
    evaluate (fuel + 1) g (.function op [x, y]) = (.ok (.boolean r), g2) ∧
      expression.parse (a ++ op2 ++ b) =
        .ok (.function op2 [.prim (.integer (digits_value a)),
          .prim (.integer (digits_value b))]) ∧
      parse_evaluate (fuel + 2) g (a ++ op2 ++ b) = (.ok (.boolean c), g) ∧
      parse_evaluate (fuel + 2) g "1<=2".toList = (.ok (.boolean true), g) ∧
      parse_evaluate (fuel + 2) g "1<>2".toList = (.ok (.boolean true), g) := by
  have la := literal_ne_nil ha
  have lb := literal_ne_nil hb
  have e : a ++ op2 ++ b = a ++ (op2 ++ b) := by simp
  have hparse : expression.parse (a ++ (op2 ++ b)) =
      .ok (.function op2 [.prim (.integer (digits_value a)),
        .prim (.integer (digits_value b))]) := by
    obtain ⟨n, hn⟩ := expression_parse_fuel (a ++ (op2 ++ b)) 2
      (by simp only [List.length_append]; omega)
    rw [hn]
    exact parse_fuel_comparison n a b op2 ha hb hop
  refine ⟨evaluate_comparison fuel g g1 g2 x y v1 v2 op r hx hy hr, ?_, ?_, by rfl, by rfl⟩
  · rw [e]; exact hparse
  · rw [e]
    unfold parse_evaluate
    rw [hparse]
    exact evaluate_comparison (fuel + 1) g g g _ _ _ _ op2 c rfl rfl hc

theorem same_kind_comparison_witness :
    evaluate 1 empty_grid (.prim (.text "ab".toList)) = (.ok (.text "ab".toList), empty_grid) ∧
      evaluate 1 empty_grid (.prim (.text "b".toList)) = (.ok (.text "b".toList), empty_grid) ∧
      comparison_result "<".toList (.text "ab".toList) (.text "b".toList) = some true ∧
      literal "10".toList ∧ literal "9".toList ∧ comparison_op ">=".toList ∧
      evaluate (1 + 1) empty_grid
          (.function "<".toList [.prim (.text "ab".toList), .prim (.text "b".toList)]) =
        (.ok (.boolean true), empty_grid) ∧
      parse_evaluate (1 + 2) empty_grid ("10".toList ++ ">=".toList ++ "9".toList) =
        (.ok (.boolean true), empty_grid) :=
  have h := same_kind_comparison 1 empty_grid empty_grid empty_grid (.prim (.text "ab".toList))
    (.prim (.text "b".toList)) (.text "ab".toList) (.text "b".toList) "<".toList true rfl rfl
    (by decide) "10".toList "9".toList ">=".toList true (by decide) (by decide) (by decide)
    (by decide)
  ⟨rfl, rfl, by decide, by decide, by decide, by decide, h.1, h.2.2.1⟩

theorem to_string_nonneg (n : Int) (h : 0 ≤ n) : to_string n = Nat.toDigits 10 n.toNat := by
  unfold to_string
  rw [if_neg (by omega)]

theorem to_string_length_le (n : Int) (h0 : 0 ≤ n) (h : n < 2 ^ 63) :
    (to_string n).length ≤ 19 := by
  rw [to_string_nonneg n h0]
  unfold Nat.toDigits
  apply Nat.toDigitsCore_length 10 (by decide) _ _ 19 _ (by decide)
  have : (n.toNat : Int) < 2 ^ 63 := by omega
  have h2 : n.toNat < 2 ^ 63 := by exact_mod_cast this
  calc n.toNat < 2 ^ 63 := h2
    _ ≤ 10 ^ 19 := by decide

theorem to_size_t_small (w : Nat) (h : w < 2 ^ 64) : to_size_t (w : Int) = w := by
  unfold to_size_t
  have : (w : Int) % 2 ^ 64 = w := by omega
  rw [this, Int.toNat_ofNat]

/-- C15. Integer display of a value `n >= 0` with decimal text of `d`
digits in width `w`: the text padded on the left when `d <= w`; otherwise,
with `e` the decimal text of `d-1`: `w` characters `#` when `w < 3+|e|`;
the first digit, `E+` and `e`, padded on the left, when `3+|e| <= w <
5+|e|`; and the first digit, a point, the next `w-4-|e|` digits, `E+` and
`e` when `w >= 5+|e|`. 123456789 in width 5 is ` 1E+8`. -/
theorem integer_display_nonnegative (n : Int) (w : Nat) (h0 : 0 ≤ n) (hn : n < 2 ^ 63) :
    ((to_string n).length ≤ w →
        integer.cell_value n w =
          List.replicate (w - (to_string n).length) ' ' ++ to_string n) ∧
      (w < (to_string n).length →
        w < 3 + (to_string (((to_string n).length : Int) - 1)).length →
        integer.cell_value n w = List.replicate w '#') ∧
      (w < (to_string n).length →
        3 + (to_string (((to_string n).length : Int) - 1)).length ≤ w →
        w < 5 + (to_string (((to_string n).length : Int) - 1)).length →
        integer.cell_value n w =
          List.replicate (w - (3 + (to_string (((to_string n).length : Int) - 1)).length)) ' ' ++
            ((to_string n).take 1 ++ "E+".toList ++
              to_string (((to_string n).length : Int) - 1))) ∧
      (w < (to_string n).length →
        5 + (to_string (((to_string n).length : Int) - 1)).length ≤ w →
        integer.cell_value n w =
          (to_string n).take 1 ++ ".".toList ++
            ((to_string n).drop 1).take
              (w - 4 - (to_string (((to_string n).length : Int) - 1)).length) ++
            "E+".toList ++ to_string (((to_string n).length : Int) - 1)) ∧
      integer.cell_value 123456789 5 = " 1E+8".toList := by
  have hlen := to_string_length_le n h0 hn
  generalize hfull : to_string n = full at hlen ⊢
  generalize he : to_string ((full.length : Int) - 1) = e
  have hsign : (if n ≥ 0 then ([] : List Char) else ['-']) = [] := by
    rw [if_pos (by omega)]
  have huw : (w : Int) - (if n ≥ 0 then 0 else 1) = (w : Int) := by
    rw [if_pos (by omega)]; omega
  have hcv : integer.cell_value n w =
      if full.length ≤ w then List.replicate (w - full.length) ' ' ++ full
      else if to_size_t (w : Int) < 3 + e.length then List.replicate w '#'
      else if to_size_t (w : Int) < 5 + e.length then
        (if (full.take 1 ++ "E+".toList ++ e).length < w then
          List.replicate (w - (full.take 1 ++ "E+".toList ++ e).length) ' ' ++
            (full.take 1 ++ "E+".toList ++ e)
        else full.take 1 ++ "E+".toList ++ e)
      else
        (if (full.take 1 ++ ".".toList ++
              (full.drop 1).take (to_size_t ((w : Int) - 4 - (e.length : Int))) ++
              "E+".toList ++ e).length < w then
          List.replicate (w - (full.take 1 ++ ".".toList ++
              (full.drop 1).take (to_size_t ((w : Int) - 4 - (e.length : Int))) ++
              "E+".toList ++ e).length) ' ' ++
            (full.take 1 ++ ".".toList ++
              (full.drop 1).take (to_size_t ((w : Int) - 4 - (e.length : Int))) ++
              "E+".toList ++ e)
        else full.take 1 ++ ".".toList ++
              (full.drop 1).take (to_size_t ((w : Int) - 4 - (e.length : Int))) ++
              "E+".toList ++ e) := by
    unfold integer.cell_value
    simp only [hfull, he, hsign, huw, List.nil_append]
  refine ⟨fun h => ?_, fun h1 h2 => ?_, fun h1 h2 h3 => ?_, fun h1 h2 => ?_, by rfl⟩
  · rw [hcv, if_pos h]
  · have hw := to_size_t_small w (by omega)
    rw [hcv, if_neg (by omega), hw, if_pos h2]
  · have hw := to_size_t_small w (by omega)
    have h1len : (full.take 1).length = 1 := by
      rw [List.length_take]; omega
    have hl : (full.take 1 ++ "E+".toList ++ e).length = 3 + e.length := by
      simp only [List.length_append, h1len]
      have : "E+".toList.length = 2 := rfl
      omega
    rw [hcv, if_neg (by omega), hw, if_neg (by omega), if_pos h3, hl]
    by_cases hlt : 3 + e.length < w
    · rw [if_pos hlt]
    · have : w - (3 + e.length) = 0 := by omega
      rw [if_neg hlt, this]
      rfl
  · have hw := to_size_t_small w (by omega)
    have hcount : to_size_t ((w : Int) - 4 - (e.length : Int)) = w - 4 - e.length := by
      have : (w : Int) - 4 - (e.length : Int) = ((w - 4 - e.length : Nat) : Int) := by omega
      rw [this]
      exact to_size_t_small _ (by omega)
    have h1len : (full.take 1).length = 1 := by
      rw [List.length_take]; omega
    have hl : (full.take 1 ++ ".".toList ++ (full.drop 1).take (w - 4 - e.length) ++
        "E+".toList ++ e).length = w := by
      simp only [List.length_append, h1len, List.length_take, List.length_drop]
      have e1 : "E+".toList.length = 2 := rfl
      have e2 : ".".toList.length = 1 := rfl
      omega
    rw [hcv, if_neg (by omega), hw, if_neg (by omega), if_neg (by omega), hcount, hl,
      if_neg (by omega)]

theorem integer_display_nonnegative_witness :
    (0 : Int) ≤ 123456789 ∧ (123456789 : Int) < 2 ^ 63 ∧
      integer.cell_value 123456789 8 =
        (to_string 123456789).take 1 ++ ".".toList ++
          ((to_string 123456789).drop 1).take
            (8 - 4 - (to_string (((to_string 123456789).length : Int) - 1)).length) ++
          "E+".toList ++ to_string (((to_string 123456789).length : Int) - 1) :=
  ⟨by decide, by decide,
    (integer_display_nonnegative 123456789 8 (by decide) (by decide)).2.2.2.1 (by decide)
      (by decide)⟩

/-- C16. Integer display of negative values in the code: the sign stays in
the text from which the leading digit and the exponent are taken, so
-123456789 in width 6 is ` --E+9` (two signs, no digit, exponent 9) and not
` -1E+8`; -12345 in width 5 is `--E+5`; and -1234567890 in width 5 is all
`#` although `-1E+9` would fit. -/
theorem integer_display_negative_in_code :
    integer.cell_value (-123456789) 6 = " --E+9".toList ∧
      integer.cell_value (-12345) 5 = "--E+5".toList ∧
      integer.cell_value (-123456789) 9 = "--.123E+9".toList ∧
      integer.cell_value (-1234567890) 5 = "#####".toList :=
  ⟨by rfl, by rfl, by rfl, by rfl⟩

theorem char_ofNat_toNat (n : Nat) (h : n < 55296) : (Char.ofNat n).toNat = n := by
  have hv : n.isValidChar := Or.inl h
  simp only [Char.ofNat, hv, dif_pos, Char.toNat, Char.ofNatAux]
  show (UInt32.ofNat' n _).toNat = n
  rfl

theorem toupper_letter (ch : Char) (h : is_letter ch = true) :
    65 ≤ (toupper ch).toNat ∧ (toupper ch).toNat ≤ 90 := by
  rw [is_letter_iff] at h
  unfold toupper
  by_cases hl : 'a' ≤ ch ∧ ch ≤ 'z'
  · rw [if_pos hl]
    simp only [char_le_iff] at hl
    have e1 : 'a'.toNat = 97 := rfl
    have e2 : 'z'.toNat = 122 := rfl
    rw [e1, e2] at hl
    rw [char_ofNat_toNat _ (by omega)]
    omega
  · rw [if_neg hl]
    simp only [char_le_iff] at hl
    have e1 : 'a'.toNat = 97 := rfl
    have e2 : 'z'.toNat = 122 := rfl
    rw [e1, e2] at hl
    omega

theorem letter_index_pos (ch : Char) (h : is_letter ch = true) :
    1 ≤ letter_index ch ∧ letter_index ch ≤ 26 := by
  have := toupper_letter ch h
  unfold letter_index
  omega

theorem capital_is_letter {ch : Char} (h : 'A' ≤ ch ∧ ch ≤ 'Z') : is_letter ch = true := by
  rw [is_letter_iff]
  simp only [char_le_iff] at h
  have e1 : 'A'.toNat = 65 := rfl
  have e2 : 'Z'.toNat = 90 := rfl
  rw [e1, e2] at h
  omega

theorem capital_run_letter_run {l : List Char} (h : capital_run l) : letter_run l :=
  ⟨h.1, fun ch hch => capital_is_letter (h.2 ch hch)⟩

theorem wrap32_mul_add (a k : Int) : wrap32 (wrap32 a * 26 + k) = wrap32 (a * 26 + k) := by
  unfold wrap32
  omega

/-- The loop of `col_reference::from_code` on letters: the accumulated
value, reduced to 32 bits. -/
theorem from_code_loop_letters (l : List Char) (hl : ∀ ch ∈ l, is_letter ch = true) :
    ∀ a : Nat, col_reference.from_code_loop l (wrap32 a) =
      some (wrap32 ((l.foldl (fun acc ch => acc * 26 + letter_index ch) a : Nat) : Int)) := by
  induction l with
  | nil => intro a; rfl
  | cons ch rest ih =>
    intro a
    have hch := hl ch (List.mem_cons_self _ _)
    obtain ⟨h1, h2⟩ := toupper_letter ch hch
    have hup : (if 'a' ≤ ch ∧ ch ≤ 'z' then Char.ofNat (ch.toNat - 32) else ch) = toupper ch :=
      rfl
    have hcap : 'A' ≤ toupper ch ∧ toupper ch ≤ 'Z' := by
      simp only [char_le_iff]
      have e1 : 'A'.toNat = 65 := rfl
      have e2 : 'Z'.toNat = 90 := rfl
      rw [e1, e2]
      exact ⟨h1, h2⟩
    rw [col_reference.from_code_loop]
    simp only [hup, hcap, and_self, not_true_eq_false, if_false]
    rw [wrap32_mul_add]
    have e : (a : Int) * 26 + (((toupper ch).toNat : Int) - 65 + 1) =
        ((a * 26 + letter_index ch : Nat) : Int) := by
      unfold letter_index
      omega
    rw [e, ih (fun c hc => hl c (List.mem_cons_of_mem _ hc)) (a * 26 + letter_index ch)]
    rfl

theorem letters_value_concat (l : List Char) (ch : Char) :
    letters_value (l ++ [ch]) = letters_value l * 26 + letter_index ch := by
  simp [letters_value, List.foldl_append]

theorem letters_value_pos (l : List Char) (h : letter_run l) : 1 ≤ letters_value l := by
  obtain ⟨hne, hall⟩ := h
  have key : ∀ (l : List Char) (a : Nat), (∀ ch ∈ l, is_letter ch = true) → 1 ≤ a →
      1 ≤ l.foldl (fun acc ch => acc * 26 + letter_index ch) a := by
    intro l
    induction l with
    | nil => intro a _ ha; exact ha
    | cons c t ih =>
      intro a hl ha
      exact ih _ (fun x hx => hl x (List.mem_cons_of_mem _ hx))
        (by show 1 ≤ a * 26 + letter_index c; omega)
  cases l with
  | nil => exact absurd rfl hne
  | cons c t =>
    have hc := letter_index_pos c (hall c (List.mem_cons_self _ _))
    exact key t _ (fun x hx => hall x (List.mem_cons_of_mem _ hx))
      (by show 1 ≤ 0 * 26 + letter_index c; omega)

/-- `col_reference::from_code` on a run of letters whose value is an `int`. -/
theorem col_from_code_letters (l : List Char) (h : letter_run l)
    (hv : letters_value l < 2 ^ 31) :
    col_reference.from_code l = some ((letters_value l : Int) - 1) := by
  have hlen : l.length ≠ 0 := by
    intro h0; exact h.1 (List.length_eq_zero.mp h0)
  have hpos := letters_value_pos l h
  have hloop := from_code_loop_letters l h.2 0
  have e0 : wrap32 ((0 : Nat) : Int) = 0 := by unfold wrap32; omega
  rw [e0] at hloop
  have hfold : (List.foldl (fun acc ch => acc * 26 + letter_index ch) 0 l : Nat) =
      letters_value l := rfl
  rw [hfold] at hloop
  have hvi : (letters_value l : Int) < 2 ^ 31 := by exact_mod_cast hv
  have hpi : (1 : Int) ≤ letters_value l := by exact_mod_cast hpos
  have hw : wrap32 (wrap32 (letters_value l : Int) - 1) = (letters_value l : Int) - 1 := by
    unfold wrap32
    omega
  unfold col_reference.from_code
  rw [if_neg hlen, hloop, Option.map_some', hw]

/-- `row_reference::from_code` on a run of digits whose value is an `int`. -/
theorem row_from_code_decimal (d : List Char) (h : decimal d) (hv : digits_value d < 2 ^ 31) :
    row_reference.from_code d =
      if 1 ≤ digits_value d then some ((digits_value d : Int) - 1) else none := by
  have hlen : d.length ≠ 0 := by
    intro h0; exact h.1 (List.length_eq_zero.mp h0)
  have hs := strto_decimal (-(2 : Int) ^ 31) (2 ^ 31 - 1) d [] h (by simp)
  rw [List.append_nil] at hs
  have hvi : (digits_value d : Int) < 2 ^ 31 := by exact_mod_cast hv
  rw [if_neg (by omega)] at hs
  unfold row_reference.from_code stoi
  rw [if_neg hlen, hs]
  simp only [ne_eq, not_true_eq_false, if_false]
  by_cases h1 : 1 ≤ digits_value d
  · have h1i : (1 : Int) ≤ digits_value d := by exact_mod_cast h1
    have hw : wrap32 ((digits_value d : Int) - 1) = (digits_value d : Int) - 1 := by
      unfold wrap32; omega
    rw [hw, if_neg (by omega), if_pos h1]
  · have h0 : (digits_value d : Int) = 0 := by omega
    have hw : wrap32 ((digits_value d : Int) - 1) = -1 := by
      rw [h0]; unfold wrap32; omega
    rw [hw, if_pos (by omega), if_neg h1]

theorem digit_not_letter {d : Char} (h : is_digit d = true) : is_letter d = false := by
  rw [is_digit_iff] at h
  rw [← Bool.not_eq_true, is_letter_iff]
  omega

/-- `cell_reference::from_code` on letters followed by digits. -/
theorem cell_from_code_well_formed (l d : List Char) (hl : letter_run l) (hd : decimal d)
    (hlv : letters_value l < 2 ^ 31) (hdv : digits_value d < 2 ^ 31) :
    cell_reference.from_code (l ++ d) =
      if 1 ≤ digits_value d then
        some ⟨(digits_value d : Int) - 1, (letters_value l : Int) - 1⟩
      else none := by
  obtain ⟨c0, t, rfl, hc0⟩ : ∃ c0 t, l = c0 :: t ∧ is_letter c0 = true := by
    cases l with
    | nil => exact absurd rfl hl.1
    | cons c0 t => exact ⟨c0, t, rfl, hl.2 c0 (List.mem_cons_self _ _)⟩
  obtain ⟨x, hx, hxd⟩ := decimal_head hd []
  rw [List.append_nil] at hx
  have hdrop0 : d.dropWhile is_letter = d := by
    cases d with
    | nil => rfl
    | cons y r =>
      simp only [List.head?_cons, Option.some.injEq] at hx
      subst hx
      simp [digit_not_letter hxd]
  have htake0 : d.takeWhile is_letter = [] := by
    cases d with
    | nil => rfl
    | cons y r =>
      simp only [List.head?_cons, Option.some.injEq] at hx
      subst hx
      simp [digit_not_letter hxd]
  have hdrop : (c0 :: t ++ d).dropWhile is_letter = d := by
    rw [List.dropWhile_append_of_pos hl.2, hdrop0]
  have htake : (c0 :: t ++ d).takeWhile is_letter = c0 :: t := by
    rw [List.takeWhile_append_of_pos hl.2, htake0, List.append_nil]
  simp only [List.cons_append] at hdrop htake
  unfold cell_reference.from_code
  simp only [hdrop, htake, row_from_code_decimal d hd hdv, col_from_code_letters _ hl hlv,
    List.cons_append, List.head?_cons, hc0, not_true_eq_false, if_false, hd.1]
  by_cases h1 : 1 ≤ digits_value d
  · simp only [h1, if_true]
  · simp only [h1, if_false]

theorem capital_of_index (k : Nat) (hk : k < 26) :
    ('A' ≤ Char.ofNat (k + 65) ∧ Char.ofNat (k + 65) ≤ 'Z') ∧
      letter_index (Char.ofNat (k + 65)) = k + 1 := by
  have ht := char_ofNat_toNat (k + 65) (by omega)
  have e1 : 'A'.toNat = 65 := rfl
  have e2 : 'Z'.toNat = 90 := rfl
  have hcap : 'A' ≤ Char.ofNat (k + 65) ∧ Char.ofNat (k + 65) ≤ 'Z' := by
    simp only [char_le_iff, ht, e1, e2]
    omega
  refine ⟨hcap, ?_⟩
  unfold letter_index
  rw [toupper_of_not_lower _ (by rw [ht]; omega), ht]
  omega

/-- The loop of `col_reference::to_code` on a positive value: a run of
capital letters whose bijective base-26 value is that value, put in front
of the text built so far. -/
theorem to_code_loop_spec (fuel : Nat) :
    ∀ (n : Nat) (res : List Char), 1 ≤ n → n < 2 ^ fuel →
      ∃ l, col_reference.to_code_loop fuel (n : Int) res = l ++ res ∧ capital_run l ∧
        letters_value l = n := by
  induction fuel with
  | zero => intro n res h1 h2; simp at h2; omega
  | succ fuel ih =>
    intro n res h1 h2
    have hp : 2 ^ (fuel + 1) = 2 * 2 ^ fuel := by rw [pow_succ]; omega
    have hc : Int.tmod ((n : Int) - 1) 26 = (((n - 1) % 26 : Nat) : Int) := by
      rw [Int.tmod_eq_emod (by omega) (by omega)]
      omega
    have hq : Int.tdiv ((n : Int) - (((n - 1) % 26 : Nat) : Int)) 26 =
        (((n - 1) / 26 : Nat) : Int) := by
      rw [Int.tdiv_eq_ediv (by omega) (by omega)]
      omega
    have hch : (((((n - 1) % 26 : Nat) : Int) + 65).toNat) = (n - 1) % 26 + 65 := by omega
    obtain ⟨hcap, hidx⟩ := capital_of_index ((n - 1) % 26) (Nat.mod_lt _ (by decide))
    rw [col_reference.to_code_loop]
    simp only [hc, hq, hch]
    by_cases h0 : (n - 1) / 26 = 0
    · have hno : ¬ ((((n - 1) / 26 : Nat) : Int) > 0) := by omega
      rw [if_neg hno]
      refine ⟨[Char.ofNat ((n - 1) % 26 + 65)], rfl, ⟨by simp, ?_⟩, ?_⟩
      · intro ch hch'
        rw [List.mem_singleton] at hch'
        rw [hch']; exact hcap
      · have : letters_value [Char.ofNat ((n - 1) % 26 + 65)] =
            letter_index (Char.ofNat ((n - 1) % 26 + 65)) := by
          simp [letters_value]
        rw [this, hidx]
        omega
    · have hyes : (((n - 1) / 26 : Nat) : Int) > 0 := by omega
      rw [if_pos hyes]
      obtain ⟨l, hl, hrun, hval⟩ := ih ((n - 1) / 26) (Char.ofNat ((n - 1) % 26 + 65) :: res)
        (by omega) (by omega)
      refine ⟨l ++ [Char.ofNat ((n - 1) % 26 + 65)], ?_, ⟨by simp, ?_⟩, ?_⟩
      · rw [hl]; simp
      · intro ch hch'
        rcases List.mem_append.mp hch' with h | h
        · exact hrun.2 ch h
        · rw [List.mem_singleton] at h
          rw [h]; exact hcap
      · rw [letters_value_concat, hval, hidx]
        omega

/-- `col_reference::to_code` on a column whose successor is an `int`. -/
theorem col_to_code_spec (col : Int) (h0 : 0 ≤ col) (h1 : col + 1 < 2 ^ 31) :
    capital_run (col_reference.to_code col) ∧
      (letters_value (col_reference.to_code col) : Int) = col + 1 := by
  have hw : wrap32 (col + 1) = (((col + 1).toNat : Nat) : Int) := by
    unfold wrap32; omega
  have hlt : (col + 1).toNat < 2 ^ 32 := by
    have : ((col + 1).toNat : Int) < 2 ^ 32 := by omega
    exact_mod_cast this
  obtain ⟨l, hl, hrun, hval⟩ := to_code_loop_spec 32 (col + 1).toNat [] (by omega) hlt
  rw [List.append_nil] at hl
  unfold col_reference.to_code
  rw [hw, hl]
  refine ⟨hrun, ?_⟩
  rw [hval]
  omega

/-- `row_reference::to_code` on a row whose successor is an `int`. -/
theorem row_to_code_spec (row : Int) (h0 : 0 ≤ row) (h1 : row + 1 < 2 ^ 31) :
    row_reference.to_code row = to_string (row + 1) ∧
      decimal (row_reference.to_code row) ∧
      (digits_value (row_reference.to_code row) : Int) = row + 1 := by
  have hw : wrap32 (row + 1) = row + 1 := by unfold wrap32; omega
  unfold row_reference.to_code
  rw [hw, to_string_nonneg _ (by omega)]
  obtain ⟨hd, hv⟩ := toDigits_decimal (row + 1).toNat
  refine ⟨rfl, hd, ?_⟩
  rw [hv]
  omega

theorem capital_index_inj {c d : Char} (hc : 'A' ≤ c ∧ c ≤ 'Z') (hd : 'A' ≤ d ∧ d ≤ 'Z')
    (h : letter_index c = letter_index d) : c = d := by
  simp only [char_le_iff] at hc hd
  have e1 : 'A'.toNat = 65 := rfl
  have e2 : 'Z'.toNat = 90 := rfl
  rw [e1, e2] at hc hd
  unfold letter_index at h
  rw [toupper_of_not_lower c (by omega), toupper_of_not_lower d (by omega)] at h
  rw [char_eq_iff]
  omega

theorem letters_value_nil_iff (l : List Char) (hl : ∀ ch ∈ l, 'A' ≤ ch ∧ ch ≤ 'Z') :
    letters_value l = 0 ↔ l = [] := by
  constructor
  · intro h
    by_contra hne
    have := letters_value_pos l ⟨hne, fun ch hch => capital_is_letter (hl ch hch)⟩
    omega
  · intro h; rw [h]; rfl

/-- A bijective base-26 numeral is determined by its value. -/
theorem letters_value_injective (l : List Char) :
    ∀ m : List Char, (∀ ch ∈ l, 'A' ≤ ch ∧ ch ≤ 'Z') → (∀ ch ∈ m, 'A' ≤ ch ∧ ch ≤ 'Z') →
      letters_value l = letters_value m → l = m := by
  induction l using List.reverseRecOn with
  | nil =>
    intro m _ hm h
    have : letters_value m = 0 := by rw [← h]; rfl
    exact ((letters_value_nil_iff m hm).mp this).symm
  | append_singleton l c ih =>
    intro m hl hm h
    induction m using List.reverseRecOn with
    | nil =>
      have : letters_value (l ++ [c]) = 0 := by rw [h]; rfl
      exact (letters_value_nil_iff _ hl).mp this
    | append_singleton m d _ =>
      rw [letters_value_concat, letters_value_concat] at h
      have hc := hl c (by simp)
      have hd := hm d (by simp)
      have ic := letter_index_pos c (capital_is_letter hc)
      have id := letter_index_pos d (capital_is_letter hd)
      have hidx : letter_index c = letter_index d := by omega
      have hval : letters_value l = letters_value m := by omega
      rw [ih m (fun ch hch => hl ch (by simp [hch])) (fun ch hch => hm ch (by simp [hch])) hval,
        capital_index_inj hc hd hidx]

/-- C11. Address round-trip: for every address with `row >= 0` and
`col >= 0` whose one-based numbers `row+1` and `col+1` are in the `int`
range, decoding the code of the address succeeds and gives the address. -/
theorem address_round_trip (row col : Int) (hr0 : 0 ≤ row) (hr1 : row + 1 < 2 ^ 31)
    (hc0 : 0 ≤ col) (hc1 : col + 1 < 2 ^ 31) :
    cell_reference.from_code (cell_reference.to_code ⟨row, col⟩) = some ⟨row, col⟩ := by
  obtain ⟨hrun, hval⟩ := col_to_code_spec col hc0 hc1
  obtain ⟨_, hdec, hdv⟩ := row_to_code_spec row hr0 hr1
  have hlv : letters_value (col_reference.to_code col) < 2 ^ 31 := by
    have : (letters_value (col_reference.to_code col) : Int) < 2 ^ 31 := by omega
    exact_mod_cast this
  have hdv2 : digits_value (row_reference.to_code row) < 2 ^ 31 := by
    have : (digits_value (row_reference.to_code row) : Int) < 2 ^ 31 := by omega
    exact_mod_cast this
  have h1 : 1 ≤ digits_value (row_reference.to_code row) := by
    have : (1 : Int) ≤ digits_value (row_reference.to_code row) := by omega
    exact_mod_cast this
  unfold cell_reference.to_code
  rw [cell_from_code_well_formed _ _ (capital_run_letter_run hrun) hdec hlv hdv2, if_pos h1,
    hval, hdv]
  congr 2 <;> omega

theorem address_round_trip_witness :
    (0 : Int) ≤ 9 ∧ (9 : Int) + 1 < 2 ^ 31 ∧ (0 : Int) ≤ 26 ∧ (26 : Int) + 1 < 2 ^ 31 ∧
      cell_reference.to_code ⟨9, 26⟩ = "AA10".toList ∧
      cell_reference.from_code (cell_reference.to_code ⟨9, 26⟩) = some ⟨9, 26⟩ :=
  ⟨by decide, by decide, by decide, by decide, by rfl,
    address_round_trip 9 26 (by decide) (by decide) (by decide) (by decide)⟩

/-- C12. Address decode of malformed text in the code: the empty text, `A`,
`1`, `1A` and `A1B` are rejected, but the row part is read by `std::stoi`,
which skips white space and accepts a sign, so `A+1` and `A 1` (and `A +1`)
decode to the address of `A1` instead of failing. -/
theorem address_decode_accepts_sign_and_space :
    cell_reference.from_code "A+1".toList = some ⟨0, 0⟩ ∧
      cell_reference.from_code "A 1".toList = some ⟨0, 0⟩ ∧
      cell_reference.from_code "A +1".toList = some ⟨0, 0⟩ ∧
      cell_reference.from_code "".toList = none ∧
      cell_reference.from_code "A".toList = none ∧
      cell_reference.from_code "1".toList = none ∧
      cell_reference.from_code "1A".toList = none ∧
      cell_reference.from_code "A1B".toList = none ∧
      expression.parse "A+1".toList = .ok (.reference ⟨0, 0⟩) := by
  refine ⟨by rfl, by rfl, by rfl, by rfl, by rfl, by rfl, by rfl, by rfl, by rfl⟩

/-- C13. Address decode on well-formed text: for a non-empty run of letters
`l` followed by a non-empty run of digits `d`, both with values in the `int`
range, `from_code` gives row `value(d) - 1` and column `value(l) - 1` (the
bijective base-26 value read case-insensitively) when `value(d) >= 1`, and
fails when `value(d) = 0`; `a1` and `A1` decode to (0,0), `AA10` to (9,26),
and `A0` fails. -/
theorem address_decode_well_formed (l d : List Char) (hl : letter_run l) (hd : decimal d)
    (hlv : letters_value l < 2 ^ 31) (hdv : digits_value d < 2 ^ 31) :
    (1 ≤ digits_value d →
        cell_reference.from_code (l ++ d) =
          some ⟨(digits_value d : Int) - 1, (letters_value l : Int) - 1⟩) ∧
      (digits_value d = 0 → cell_reference.from_code (l ++ d) = none) ∧
      cell_reference.from_code "a1".toList = some ⟨0, 0⟩ ∧
      cell_reference.from_code "A1".toList = some ⟨0, 0⟩ ∧
      cell_reference.from_code "AA10".toList = some ⟨9, 26⟩ ∧
      cell_reference.from_code "A0".toList = none := by
  have h := cell_from_code_well_formed l d hl hd hlv hdv
  refine ⟨fun h1 => ?_, fun h0 => ?_, by rfl, by rfl, by rfl, by rfl⟩
  · rw [h, if_pos h1]
  · rw [h, if_neg (by omega)]

theorem address_decode_well_formed_witness :
    letter_run "zz".toList ∧ decimal "0100".toList ∧ letters_value "zz".toList < 2 ^ 31 ∧
      digits_value "0100".toList < 2 ^ 31 ∧
      cell_reference.from_code ("zz".toList ++ "0100".toList) =
        some ⟨(digits_value "0100".toList : Int) - 1, (letters_value "zz".toList : Int) - 1⟩ :=
  ⟨by decide, by decide, by decide, by decide,
    (address_decode_well_formed "zz".toList "0100".toList (by decide) (by decide) (by decide)
      (by decide)).1 (by decide)⟩

/-- C14. Address encode: for `col >= 0` (with `col+1` an `int`) the column
code is the bijective base-26 numeral of `col+1`: the one run of capital
letters with that value (0 gives `A`, 25 `Z`, 26 `AA`, 701 `ZZ`, 702 `AAA`);
for `row >= 0` (with `row+1` an `int`) the row code is the decimal text of
`row+1`; the cell code is the column code followed by the row code. -/
theorem address_encode (row col : Int) (hr0 : 0 ≤ row) (hr1 : row + 1 < 2 ^ 31)
    (hc0 : 0 ≤ col) (hc1 : col + 1 < 2 ^ 31) :
    capital_run (col_reference.to_code col) ∧
      (letters_value (col_reference.to_code col) : Int) = col + 1 ∧
      (∀ l : List Char, capital_run l → (letters_value l : Int) = col + 1 →
        l = col_reference.to_code col) ∧
      col_reference.to_code 0 = "A".toList ∧ col_reference.to_code 25 = "Z".toList ∧
      col_reference.to_code 26 = "AA".toList ∧ col_reference.to_code 701 = "ZZ".toList ∧
      col_reference.to_code 702 = "AAA".toList ∧
      row_reference.to_code row = to_string (row + 1) ∧
      decimal (row_reference.to_code row) ∧
      (digits_value (row_reference.to_code row) : Int) = row + 1 ∧
      cell_reference.to_code ⟨row, col⟩ =
        col_reference.to_code col ++ row_reference.to_code row := by
  obtain ⟨hrun, hval⟩ := col_to_code_spec col hc0 hc1
  obtain ⟨hrow, hdec, hdv⟩ := row_to_code_spec row hr0 hr1
  refine ⟨hrun, hval, fun l hl hv => ?_, by rfl, by rfl, by rfl, by rfl, by rfl, hrow, hdec, hdv,
    rfl⟩
  apply letters_value_injective l _ hl.2 hrun.2
  have : (letters_value l : Int) = letters_value (col_reference.to_code col) := by
    rw [hv, hval]
  exact_mod_cast this

theorem address_encode_witness :
    (0 : Int) ≤ 99 ∧ (99 : Int) + 1 < 2 ^ 31 ∧ (0 : Int) ≤ 701 ∧ (701 : Int) + 1 < 2 ^ 31 ∧
      (letters_value (col_reference.to_code 701) : Int) = 701 + 1 ∧
      row_reference.to_code 99 = to_string (99 + 1) :=
  have h := address_encode 99 701 (by decide) (by decide) (by decide) (by decide)
  ⟨by decide, by decide, by decide, by decide, h.2.1, h.2.2.2.2.2.2.2.2.1⟩

/-! ## Built-in functions, the editor and the sweep -/

/-- Evaluation of an ordering call on two evaluated operands: the result
depends on the kinds only through the body shared by the six comparisons. -/
theorem evaluate_ordering (fuel : Nat) (g g1 g2 : grid) (x y : expression)
    (v1 v2 : primitive) (op : List Char) (hop : ordering_op op)
    (hx : evaluate fuel g x = (.ok v1, g1)) (hy : evaluate fuel g1 y = (.ok v2, g2)) :
    (v1.get_type = 4 →
        evaluate (fuel + 1) g (.function op [x, y]) = (.error (.thrown .value), g2)) ∧
      (v1.get_type ≠ 4 → v1.get_type ≠ v2.get_type →
        evaluate (fuel + 1) g (.function op [x, y]) = (.ok (.boolean false), g2)) := by
  have l3 : function.lookup "<".toList = some .op_less := by decide
  have l4 : function.lookup "<=".toList = some .op_leq := by decide
  have l5 : function.lookup ">".toList = some .op_greater := by decide
  have l6 : function.lookup ">=".toList = some .op_geq := by decide
  rcases hop with h | h | h | h <;> subst h
  · rw [evaluate, l3]
    simp only [builtin.call, equality_operator_two _ _ _ _ _ _ _ _ _ _ _ hx hy]
    cases v1 <;> cases v2 <;> simp [primitive.get_type]
  · rw [evaluate, l4]
    simp only [builtin.call, equality_operator_two _ _ _ _ _ _ _ _ _ _ _ hx hy]
    cases v1 <;> cases v2 <;> simp [primitive.get_type]
  · rw [evaluate, l5]
    simp only [builtin.call, equality_operator_two _ _ _ _ _ _ _ _ _ _ _ hx hy]
    cases v1 <;> cases v2 <;> simp [primitive.get_type]
  · rw [evaluate, l6]
    simp only [builtin.call, equality_operator_two _ _ _ _ _ _ _ _ _ _ _ hx hy]
    cases v1 <;> cases v2 <;> simp [primitive.get_type]

/-- C21, as amended. Mixed-kind ordering: for each ordering operator `<`,
`<=`, `>`, `>=` and operands that evaluate to values of two different kinds,
the call evaluates to `Boolean(false)` when the first operand is an Integer,
a Text or a Boolean; it fails with `Error(Value)` exactly when the first
operand evaluates to an Error value. -/
theorem mixed_kind_ordering (fuel : Nat) (g g1 g2 : grid) (x y : expression)
    (v1 v2 : primitive) (op : List Char) (hop : ordering_op op)
    (hx : evaluate fuel g x = (.ok v1, g1)) (hy : evaluate fuel g1 y = (.ok v2, g2))
    (hne : v1.get_type ≠ v2.get_type) :
    (comparable v1 →
        evaluate (fuel + 1) g (.function op [x, y]) = (.ok (.boolean false), g2)) ∧
      (¬ comparable v1 →
        evaluate (fuel + 1) g (.function op [x, y]) = (.error (.thrown .value), g2)) := by
  obtain ⟨he, hc⟩ := evaluate_ordering fuel g g1 g2 x y v1 v2 op hop hx hy
  constructor
  · intro h1
    apply hc _ hne
    rcases h1 with h | h | h <;> omega
  · intro h1
    apply he
    cases v1 <;> simp [comparable, primitive.get_type] at h1 ⊢

theorem mixed_kind_ordering_witness :
    ordering_op "<=".toList ∧
      evaluate 1 empty_grid (.prim (.integer 1)) = (.ok (.integer 1), empty_grid) ∧
      evaluate 1 empty_grid (.prim (.text "a".toList)) = (.ok (.text "a".toList), empty_grid) ∧
      (primitive.integer 1).get_type ≠ (primitive.text "a".toList).get_type ∧
      comparable (.integer 1) ∧
      evaluate (1 + 1) empty_grid
          (.function "<=".toList [.prim (.integer 1), .prim (.text "a".toList)]) =
        (.ok (.boolean false), empty_grid) :=
  ⟨by decide, rfl, rfl, by decide, by decide,
    (mixed_kind_ordering 1 empty_grid empty_grid empty_grid (.prim (.integer 1))
      (.prim (.text "a".toList)) (.integer 1) (.text "a".toList) "<=".toList (by decide) rfl rfl
      (by decide)).1 (by decide)⟩

/-- C21, counterexample. The operands `1` and `"a"` are an Integer and a
Text, and each of the four ordering calls on them returns `Boolean(false)`
instead of failing with `Error(Value)`. -/
theorem mixed_kind_ordering_returns_false :
    (evaluate 2 empty_grid
        (.function "<".toList [.prim (.integer 1), .prim (.text "a".toList)])).1 =
        .ok (.boolean false) ∧
      (evaluate 2 empty_grid
        (.function "<".toList [.prim (.integer 1), .prim (.text "a".toList)])).1 ≠
        .error (.thrown .value) ∧
      (evaluate 2 empty_grid
        (.function "<=".toList [.prim (.integer 1), .prim (.text "a".toList)])).1 =
        .ok (.boolean false) ∧
      (evaluate 2 empty_grid
        (.function ">".toList [.prim (.text "a".toList), .prim (.integer 1)])).1 =
        .ok (.boolean false) ∧
      (evaluate 2 empty_grid
        (.function ">=".toList [.prim (.boolean true), .prim (.integer 1)])).1 =
        .ok (.boolean false) ∧
      (parse_evaluate 3 empty_grid ("1<".toList ++ [dquote, 'a', dquote])).1 =
        .ok (.boolean false) := by
  refine ⟨by rfl, ?_, by rfl, by rfl, by rfl, by rfl⟩
  intro h
  have h2 : (evaluate 2 empty_grid
        (.function "<".toList [.prim (.integer 1), .prim (.text "a".toList)])).1 =
        .ok (.boolean false) := by rfl
  rw [h2] at h
  cases h

/-- When a list of arguments evaluates to values, its head and tail do. -/
theorem arg_evaluate_cons (ev : evaluator) (g g2 : grid) (e : expression) (es : List expression)
    (vs : List primitive) (h : arg_evaluate ev g (e :: es) = (.ok vs, g2)) :
    ∃ v vt g1, vs = v :: vt ∧ ev g e = (.ok v, g1) ∧ arg_evaluate ev g1 es = (.ok vt, g2) := by
  rw [arg_evaluate] at h
  rcases hev : ev g e with ⟨_ | v, g1⟩
  · simp [hev] at h
  · simp only [hev] at h
    rcases hrest : arg_evaluate ev g1 es with ⟨_ | vt, g3⟩
    · simp [hrest] at h
    · simp only [hrest, Prod.mk.injEq, Except.ok.injEq] at h
      exact ⟨v, vt, g1, h.1.symm, rfl, by rw [hrest, ← h.2]⟩

/-- The loop of `sum` over arguments that evaluate to integers adds them to
the running total, one after the other. -/
theorem sum_loop_integers (ev : evaluator) (args : List expression) :
    ∀ (ns : List Int) (g g1 : grid) (ans : Int) (rest : List expression),
      arg_evaluate ev g args = (.ok (ns.map primitive.integer), g1) →
      function.sum_loop ev g (args ++ rest) ans =
        function.sum_loop ev g1 rest (ns.foldl (fun a n => wrap64 (a + n)) ans) := by
  induction args with
  | nil =>
    intro ns g g1 ans rest h
    simp only [arg_evaluate, Prod.mk.injEq, Except.ok.injEq] at h
    obtain ⟨h1, h2⟩ := h
    have : ns = [] := by
      cases ns with
      | nil => rfl
      | cons _ _ => simp at h1
    subst this
    subst h2
    rfl
  | cons e es ih =>
    intro ns g g1 ans rest h
    obtain ⟨v, vt, g0, hvs, hev, hrest⟩ := arg_evaluate_cons ev g g1 e es _ h
    cases ns with
    | nil => simp at hvs
    | cons n nt =>
      simp only [List.map_cons, List.cons.injEq] at hvs
      obtain ⟨hv, hvt⟩ := hvs
      subst hv
      rw [← hvt] at hrest
      simp only [List.cons_append, function.sum_loop, hev, cast_integer, List.foldl_cons]
      exact ih nt g0 g1 _ rest hrest

/-- Running totals that stay in the 64-bit range are not changed by the
reduction to 64 bits. -/
theorem foldl_wrap64_sum (ns : List Int) :
    ∀ ans : Int,
      (∀ k ≤ ns.length, -(2 : Int) ^ 63 ≤ ans + (ns.take k).sum ∧
        ans + (ns.take k).sum < 2 ^ 63) →
      ns.foldl (fun a n => wrap64 (a + n)) ans = ans + ns.sum := by
  induction ns with
  | nil => intro ans _; simp
  | cons n nt ih =>
    intro ans h
    have h1 := h 1 (by simp)
    simp only [List.take_succ_cons, List.take_zero, List.sum_cons, List.sum_nil,
      add_zero] at h1
    rw [List.foldl_cons, wrap64_eq_self _ h1.1 h1.2, ih (ans + n), List.sum_cons, add_assoc]
    intro k hk
    have h2 := h (k + 1) (by simp; omega)
    simp only [List.take_succ_cons, List.sum_cons] at h2
    constructor <;> omega

theorem lookup_sum : function.lookup "SUM".toList = some .sum := by decide

/-- C22. SUM: when the arguments evaluate, in order, to the integers `ns`
and every running total is within the 64-bit range, the call of `SUM`
evaluates to the integer `ns.sum` (0 for no argument); when they are
followed by an argument that evaluates to a Text, Boolean or Error value,
the call fails with `Error(Value)`. -/
theorem sum_of_arguments (fuel : Nat) (g g1 : grid) (args : List expression) (ns : List Int)
    (hargs : arg_evaluate (evaluate fuel) g args = (.ok (ns.map primitive.integer), g1)) :
    (prefix_sums_fit ns →
        evaluate (fuel + 1) g (.function "SUM".toList args) = (.ok (.integer ns.sum), g1)) ∧
      (∀ (x : expression) (rest : List expression) (v : primitive) (g2 : grid),
        evaluate fuel g1 x = (.ok v, g2) → v.get_type ≠ 1 →
        evaluate (fuel + 1) g (.function "SUM".toList (args ++ x :: rest)) =
          (.error (.thrown .value), g2)) ∧
      evaluate (fuel + 1) g (.function "SUM".toList []) = (.ok (.integer 0), g) := by
  refine ⟨fun hfit => ?_, fun x rest v g2 hx hv => ?_, ?_⟩
  · have h := sum_loop_integers (evaluate fuel) args ns g g1 0 [] hargs
    rw [List.append_nil] at h
    rw [evaluate, lookup_sum]
    simp only [builtin.call, h, function.sum_loop]
    rw [foldl_wrap64_sum ns 0 (by
      intro k hk
      have := hfit k hk
      constructor <;> omega)]
    simp
  · have h := sum_loop_integers (evaluate fuel) args ns g g1 0 (x :: rest) hargs
    rw [evaluate, lookup_sum]
    simp only [builtin.call, h, function.sum_loop, hx]
    cases v <;> simp [cast_integer, primitive.get_type] at hv ⊢
  · rw [evaluate, lookup_sum]
    rfl

theorem sum_of_arguments_witness :
    arg_evaluate (evaluate 1) empty_grid [.prim (.integer 1), .prim (.integer 2),
        .prim (.integer 3)] = (.ok ([1, 2, 3].map primitive.integer), empty_grid) ∧
      prefix_sums_fit [1, 2, 3] ∧
      evaluate (1 + 1) empty_grid (.function "SUM".toList [.prim (.integer 1),
        .prim (.integer 2), .prim (.integer 3)]) = (.ok (.integer [1, 2, 3].sum), empty_grid) ∧
      evaluate (1 + 1) empty_grid (.function "SUM".toList ([.prim (.integer 1),
        .prim (.integer 2), .prim (.integer 3)] ++
          .prim (.boolean true) :: [.prim (.integer 4)])) =
        (.error (.thrown .value), empty_grid) :=
  have h := sum_of_arguments 1 empty_grid empty_grid [.prim (.integer 1), .prim (.integer 2),
    .prim (.integer 3)] [1, 2, 3] rfl
  ⟨rfl, by decide, h.1 (by decide),
    h.2.1 (.prim (.boolean true)) [.prim (.integer 4)] (.boolean true) empty_grid rfl
      (by decide)⟩

/-- Literal arguments evaluate to themselves and leave the grid alone. -/
theorem arg_evaluate_literals (fuel : Nat) (g : grid) (ps : List primitive) :
    arg_evaluate (evaluate fuel) g (ps.map expression.prim) = (.ok ps, g) := by
  induction ps with
  | nil => rfl
  | cons p pt ih => simp only [List.map_cons, arg_evaluate, evaluate_prim, ih]

/-- The built-ins that test their argument count: `*`, `/`, `&` and `IF`
fail with `arg` before any argument is evaluated; `+` and `-` fail with
`arg` after the evaluation of literal arguments. -/
theorem fixed_arity_checked (fuel : Nat) (g : grid) (arg : List expression) :
    (arg.length ≠ 2 →
        evaluate (fuel + 1) g (.function "*".toList arg) = (.error (.thrown .arg), g) ∧
        evaluate (fuel + 1) g (.function "/".toList arg) = (.error (.thrown .arg), g) ∧
        evaluate (fuel + 1) g (.function "&".toList arg) = (.error (.thrown .arg), g)) ∧
      (arg.length ≠ 3 →
        evaluate (fuel + 1) g (.function "IF".toList arg) = (.error (.thrown .arg), g)) ∧
      (∀ ps : List primitive, arg = ps.map expression.prim → ps.length ≠ 1 → ps.length ≠ 2 →
        evaluate (fuel + 1) g (.function "+".toList arg) = (.error (.thrown .arg), g) ∧
        evaluate (fuel + 1) g (.function "-".toList arg) = (.error (.thrown .arg), g)) := by
  have l1 : function.lookup "*".toList = some .op_multiply := by decide
  have l2 : function.lookup "/".toList = some .op_divide := by decide
  have l3 : function.lookup "&".toList = some .op_concat := by decide
  have l4 : function.lookup "IF".toList = some .if_func := by decide
  have l5 : function.lookup "+".toList = some .op_add := by decide
  have l6 : function.lookup "-".toList = some .op_minus := by decide
  refine ⟨fun h => ⟨?_, ?_, ?_⟩, fun h => ?_, fun ps hps h1 h2 => ⟨?_, ?_⟩⟩
  · rw [evaluate, l1]
    simp only [builtin.call, function.op_multiply, h, ne_eq, not_false_eq_true, if_true]
  · rw [evaluate, l2]
    simp only [builtin.call, function.op_divide, h, ne_eq, not_false_eq_true, if_true]
  · rw [evaluate, l3]
    simp only [builtin.call, function.op_concat, h, ne_eq, not_false_eq_true, if_true]
  · rw [evaluate, l4]
    simp only [builtin.call]
    match arg, h with
    | [], _ => rfl
    | [_], _ => rfl
    | [_, _], _ => rfl
    | [_, _, _], h => exact absurd rfl h
    | _ :: _ :: _ :: _ :: _, _ => rfl
  · subst hps
    rw [evaluate, l5]
    simp only [builtin.call, function.op_add, arg_evaluate_literals]
    match ps, h1, h2 with
    | [], _, _ => rfl
    | [_], h1, _ => exact absurd rfl h1
    | [_, _], _, h2 => exact absurd rfl h2
    | _ :: _ :: _ :: _, _, _ => rfl
  · subst hps
    rw [evaluate, l6]
    simp only [builtin.call, function.op_minus, arg_evaluate_literals]
    match ps, h1, h2 with
    | [], _, _ => rfl
    | [_], h1, _ => exact absurd rfl h1
    | [_, _], _, h2 => exact absurd rfl h2
    | _ :: _ :: _ :: _, _, _ => rfl

/-- C23, counterexample. The names `<` and `=` are comparisons and three is
not an allowed argument count for them, yet the call on the three error-free
literals `1`, `2`, `3` does not fail with `Error(Arg)`: the third argument is
ignored and the Boolean of the first two is returned. With one or no
argument the missing operand is read past the end of the vector of evaluated
arguments, which is undefined behaviour (`fault`), not `Error(Arg)` either. -/
theorem comparison_arity_unchecked :
    comparison_op "<".toList ∧ comparison_op "=".toList ∧
      [expression.prim (.integer 1), .prim (.integer 2), .prim (.integer 3)].length ≠ 2 ∧
      (evaluate 2 empty_grid (.function "<".toList
        [.prim (.integer 1), .prim (.integer 2), .prim (.integer 3)])).1 =
        .ok (.boolean true) ∧
      (evaluate 2 empty_grid (.function "<".toList
        [.prim (.integer 1), .prim (.integer 2), .prim (.integer 3)])).1 ≠
        .error (.thrown .arg) ∧
      (evaluate 2 empty_grid (.function "=".toList
        [.prim (.integer 1), .prim (.integer 2), .prim (.integer 3)])).1 =
        .ok (.boolean false) ∧
      (evaluate 2 empty_grid (.function "=".toList
        [.prim (.integer 1), .prim (.integer 2), .prim (.integer 3)])).1 ≠
        .error (.thrown .arg) ∧
      evaluate 2 empty_grid (.function "<>".toList [.prim (.integer 1)]) =
        (.error .fault, empty_grid) ∧
      evaluate 2 empty_grid (.function "<=".toList [.prim (.integer 1)]) =
        (.error .fault, empty_grid) ∧
      evaluate 2 empty_grid (.function ">".toList []) = (.error .fault, empty_grid) ∧
      evaluate 2 empty_grid (.function ">=".toList []) = (.error .fault, empty_grid) := by
  have h1 : (evaluate 2 empty_grid (.function "<".toList
      [.prim (.integer 1), .prim (.integer 2), .prim (.integer 3)])).1 =
      .ok (.boolean true) := by rfl
  have h2 : (evaluate 2 empty_grid (.function "=".toList
      [.prim (.integer 1), .prim (.integer 2), .prim (.integer 3)])).1 =
      .ok (.boolean false) := by rfl
  refine ⟨by decide, by decide, by decide, h1, ?_, h2, ?_, by rfl, by rfl, by rfl, by rfl⟩
  · intro h
    rw [h1] at h
    cases h
  · intro h
    rw [h2] at h
    cases h

theorem lookup_toupper (name name2 : List Char) (h : name.map toupper = name2.map toupper) :
    function.lookup name = function.lookup name2 := by
  unfold function.lookup
  simp only [h]

theorem lookup_unknown (name : List Char) (h : name.map toupper ∉ builtin_names) :
    function.lookup name = none := by
  unfold function.lookup
  simp only [builtin_names, List.mem_cons, List.mem_singleton, List.not_mem_nil, or_false,
    not_or] at h
  obtain ⟨h1, h2, h3, h4, h5, h6, h7, h8, h9, h10, h11, h12, h13⟩ := h
  simp only [h1, h2, h3, h4, h5, h6, h7, h8, h9, h10, h11, h12, h13, if_false]

/-- C24. Name lookup: two names that agree after conversion to upper case
give the same evaluation of a call, for any arguments; every one of the 13
built-in names is found; a name that matches none of them after conversion
to upper case makes the call fail with `Error(Name)` on the unchanged grid,
whatever the arguments are; and `sum(1,2)` gives `Integer(3)`. -/
theorem name_lookup (fuel : Nat) (g : grid) (name name2 : List Char) (arg : List expression) :
    (name.map toupper = name2.map toupper →
        evaluate fuel g (.function name arg) = evaluate fuel g (.function name2 arg)) ∧
      (∀ n ∈ builtin_names, (function.lookup n).isSome = true) ∧
      (name.map toupper ∉ builtin_names →
        evaluate (fuel + 1) g (.function name arg) = (.error (.thrown .name), g)) ∧
      parse_evaluate 3 empty_grid "sum(1,2)".toList = (.ok (.integer 3), empty_grid) ∧
      parse_evaluate 3 empty_grid "Sum(1,2)".toList =
        parse_evaluate 3 empty_grid "SUM(1,2)".toList ∧
      parse_evaluate 3 empty_grid "if(true,1,2)".toList = (.ok (.integer 1), empty_grid) := by
  refine ⟨fun h => ?_, by decide, fun h => ?_, by rfl, by rfl, by rfl⟩
  · cases fuel with
    | zero => rfl
    | succ k => simp only [evaluate, lookup_toupper name name2 h]
  · simp only [evaluate, lookup_unknown name h]

theorem name_lookup_witness :
    "sUm".toList.map toupper = "SUM".toList.map toupper ∧
      "FOO".toList.map toupper ∉ builtin_names ∧
      evaluate 2 empty_grid (.function "sUm".toList [.prim (.integer 1)]) =
        evaluate 2 empty_grid (.function "SUM".toList [.prim (.integer 1)]) ∧
      evaluate (1 + 1) empty_grid (.function "FOO".toList [.reference ⟨500, 500⟩]) =
        (.error (.thrown .name), empty_grid) :=
  ⟨by decide, by decide,
    (name_lookup 2 empty_grid "sUm".toList "SUM".toList [.prim (.integer 1)]).1 (by decide),
    (name_lookup 1 empty_grid "FOO".toList "FOO".toList [.reference ⟨500, 500⟩]).2.2.1
      (by decide)⟩

theorem arg_evaluate_two (ev : evaluator) (g g1 g2 : grid) (x y : expression)
    (v1 v2 : primitive) (hx : ev g x = (.ok v1, g1)) (hy : ev g1 y = (.ok v2, g2)) :
    arg_evaluate ev g [x, y] = (.ok [v1, v2], g2) := by
  simp only [arg_evaluate, hx, hy]

theorem arg_evaluate_one (ev : evaluator) (g g1 : grid) (x : expression) (v1 : primitive)
    (hx : ev g x = (.ok v1, g1)) : arg_evaluate ev g [x] = (.ok [v1], g1) := by
  simp only [arg_evaluate, hx]

/-- C25. Wrong operand kind: with operands that evaluate to the values `v1`
and `v2`, each of `+`, `-`, `*`, `/` on two operands fails with
`Error(Value)` when one of the values is not an Integer, and so do unary `+`
and `-` on a non-Integer; `&` fails with `Error(Value)` when one of the
values is not a Text and gives the concatenated Text otherwise; `IF` with
three arguments fails with `Error(Value)` when its condition is not a
Boolean, without evaluating a branch. -/
theorem wrong_operand_kind (fuel : Nat) (g g1 g2 : grid) (x y : expression)
    (v1 v2 : primitive) (hx : evaluate fuel g x = (.ok v1, g1))
    (hy : evaluate fuel g1 y = (.ok v2, g2)) :
    (∀ c : Char, arith_op c → v1.get_type ≠ 1 ∨ v2.get_type ≠ 1 →
        evaluate (fuel + 1) g (.function [c] [x, y]) = (.error (.thrown .value), g2)) ∧
      (∀ c : Char, c = '+' ∨ c = '-' → v1.get_type ≠ 1 →
        evaluate (fuel + 1) g (.function [c] [x]) = (.error (.thrown .value), g1)) ∧
      (v1.get_type ≠ 2 ∨ v2.get_type ≠ 2 →
        evaluate (fuel + 1) g (.function "&".toList [x, y]) = (.error (.thrown .value), g2)) ∧
      (∀ s t : List Char, v1 = .text s → v2 = .text t →
        evaluate (fuel + 1) g (.function "&".toList [x, y]) = (.ok (.text (s ++ t)), g2)) ∧
      (∀ a b : expression, v1.get_type ≠ 3 →
        evaluate (fuel + 1) g (.function "IF".toList [x, a, b]) =
          (.error (.thrown .value), g1)) := by
  have l1 : function.lookup "*".toList = some .op_multiply := by decide
  have l2 : function.lookup "/".toList = some .op_divide := by decide
  have l3 : function.lookup "&".toList = some .op_concat := by decide
  have l4 : function.lookup "IF".toList = some .if_func := by decide
  have l5 : function.lookup "+".toList = some .op_add := by decide
  have l6 : function.lookup "-".toList = some .op_minus := by decide
  have h2 := arg_evaluate_two (evaluate fuel) g g1 g2 x y v1 v2 hx hy
  have h1 := arg_evaluate_one (evaluate fuel) g g1 x v1 hx
  have hlen : ¬ ([x, y].length ≠ 2) := by simp
  refine ⟨fun c hc hk => ?_, fun c hc hk => ?_, fun hk => ?_, fun s t hs ht => ?_,
    fun a b hk => ?_⟩
  · rcases hc with rfl | rfl | rfl | rfl
    · rw [evaluate, show function.lookup ['+'] = some .op_add from l5]
      simp only [builtin.call, function.op_add, h2]
      cases v1 <;> cases v2 <;> simp [cast_integer, primitive.get_type] at hk ⊢
    · rw [evaluate, show function.lookup ['-'] = some .op_minus from l6]
      simp only [builtin.call, function.op_minus, h2]
      cases v1 <;> cases v2 <;> simp [cast_integer, primitive.get_type] at hk ⊢
    · rw [evaluate, show function.lookup ['*'] = some .op_multiply from l1]
      simp only [builtin.call, function.op_multiply, hlen, if_false, h2]
      cases v1 <;> cases v2 <;> simp [cast_integer, primitive.get_type] at hk ⊢
    · rw [evaluate, show function.lookup ['/'] = some .op_divide from l2]
      simp only [builtin.call, function.op_divide, hlen, if_false, h2]
      cases v1 <;> cases v2 <;> simp [cast_integer, primitive.get_type] at hk ⊢
  · rcases hc with rfl | rfl
    · rw [evaluate, show function.lookup ['+'] = some .op_add from l5]
      simp only [builtin.call, function.op_add, h1]
      cases v1 <;> simp [cast_integer, primitive.get_type] at hk ⊢
    · rw [evaluate, show function.lookup ['-'] = some .op_minus from l6]
      simp only [builtin.call, function.op_minus, h1]
      cases v1 <;> simp [cast_integer, primitive.get_type] at hk ⊢
  · rw [evaluate, l3]
    simp only [builtin.call, function.op_concat, hlen, if_false, h2]
    cases v1 <;> cases v2 <;> simp [cast_text, primitive.get_type] at hk ⊢
  · subst hs ht
    rw [evaluate, l3]
    simp only [builtin.call, function.op_concat, hlen, if_false, h2, cast_text]
  · rw [evaluate, l4]
    simp only [builtin.call, function.if_func, hx]
    cases v1 <;> simp [cast_boolean, primitive.get_type] at hk ⊢

theorem wrong_operand_kind_witness :
    evaluate 1 empty_grid (.prim (.text "a".toList)) = (.ok (.text "a".toList), empty_grid) ∧
      evaluate 1 empty_grid (.prim (.integer 1)) = (.ok (.integer 1), empty_grid) ∧
      evaluate (1 + 1) empty_grid
          (.function [ '/'] [.prim (.text "a".toList), .prim (.integer 1)]) =
        (.error (.thrown .value), empty_grid) ∧
      evaluate (1 + 1) empty_grid
          (.function "&".toList [.prim (.text "a".toList), .prim (.integer 1)]) =
        (.error (.thrown .value), empty_grid) ∧
      evaluate (1 + 1) empty_grid
          (.function "IF".toList [.prim (.text "a".toList), .reference ⟨500, 500⟩,
            .reference ⟨500, 500⟩]) =
        (.error (.thrown .value), empty_grid) :=
  have h := wrong_operand_kind 1 empty_grid empty_grid empty_grid (.prim (.text "a".toList))
    (.prim (.integer 1)) (.text "a".toList) (.integer 1) rfl rfl
  ⟨rfl, rfl, h.1 _ (by decide) (by decide), h.2.2.1 (by decide),
    h.2.2.2.2 _ _ (by decide)⟩

theorem enter_ne_form_feed : ¬ (Char.ofNat 10 = Char.ofNat 12) := by decide

/-- The Enter branch of `action` in insert mode. -/
theorem action_enter (fuel : Nat) (w : workspace) (hm : w.mode = .insert) :
    workspace.action fuel w (Char.ofNat 10) =
      if w.insert_str.length ≠ 0 ∧ w.insert_str.head? = some '=' then
        match expression.parse (w.insert_str.drop 1) with
        | .parse_exception _ _ => (.ok (), { w with insert_parse_error := true })
        | .out_of_fuel => (.error .out_of_fuel, w)
        | .ok _ => workspace.commit fuel w
      else workspace.commit fuel w := by
  have h1 : ¬ (Char.ofNat 10 = Char.ofNat 127 ∨ Char.ofNat 10 = Char.ofNat 8) := by decide
  have h2 : ¬ (Char.ofNat 10 = Char.ofNat 23) := by decide
  unfold workspace.action
  rw [if_neg enter_ne_form_feed, hm]
  simp only [h1, h2, if_false, if_true]

/-- C26. Commit validation: in insert mode, Enter on a buffer `=body` whose
body does not parse returns with the whole state unchanged (grid, active
cell, mode, buffer) except for the parse-error flag, which is set; on a
buffer that does not start with `=`, or whose body parses, the raw text of
the active cell is overwritten, the mode becomes normal, the buffer is
emptied and the grid is recalculated; and the grid is changed by Enter in
no other case. -/
theorem commit_validation (fuel : Nat) (w : workspace) (hm : w.mode = .insert) :
    (∀ (body attempt : List Char) (message : String), w.insert_str = '=' :: body →
        expression.parse body = .parse_exception attempt message →
        workspace.action fuel w (Char.ofNat 10) =
          (.ok (), { w with insert_parse_error := true })) ∧
      (w.insert_str.head? ≠ some '=' ∨ (∃ e, expression.parse (w.insert_str.drop 1) = .ok e) →
        workspace.action fuel w (Char.ofNat 10) = workspace.commit fuel w) ∧
      (0 ≤ w.active_cell.row ∧ w.active_cell.row < MAX_ROW ∧ 0 ≤ w.active_cell.col ∧
          w.active_cell.col < MAX_COL →
        workspace.commit fuel w =
          ((recalculate fuel (w.ws.set w.active_cell.row.toNat w.active_cell.col.toNat
              { w.ws w.active_cell.row.toNat w.active_cell.col.toNat with
                raw := w.insert_str })).1,
            { w with
              ws := (recalculate fuel (w.ws.set w.active_cell.row.toNat w.active_cell.col.toNat
                { w.ws w.active_cell.row.toNat w.active_cell.col.toNat with
                  raw := w.insert_str })).2,
              mode := .normal, insert_str := [] })) ∧
      ((workspace.action fuel w (Char.ofNat 10)).2.ws ≠ w.ws →
        w.insert_str.head? ≠ some '=' ∨
          ∃ e, expression.parse (w.insert_str.drop 1) = .ok e) := by
  have hact := action_enter fuel w hm
  refine ⟨fun body attempt message hb hp => ?_, fun h => ?_, fun h => ?_, fun h => ?_⟩
  · rw [hact, hb]
    simp only [List.length_cons, ne_eq, Nat.add_one_ne_zero, not_false_eq_true,
      List.head?_cons, and_self, if_true, List.drop_succ_cons, List.drop_zero, hp]
  · rw [hact]
    rcases h with h | ⟨e, he⟩
    · rw [if_neg (fun hc => h hc.2)]
    · split_ifs
      · rw [he]
      · rfl
  · unfold workspace.commit
    rw [if_pos h]
  · by_contra hcon
    rw [not_or, not_not, not_exists] at hcon
    obtain ⟨hhead, hnone⟩ := hcon
    have hlen : w.insert_str.length ≠ 0 := by
      cases hs : w.insert_str with
      | nil => rw [hs] at hhead; simp at hhead
      | cons _ _ => simp
    rw [hact, if_pos ⟨hlen, hhead⟩] at h
    cases hp : expression.parse (w.insert_str.drop 1) with
    | ok e => exact hnone e hp
    | parse_exception a m => rw [hp] at h; exact h rfl
    | out_of_fuel => rw [hp] at h; exact h rfl

theorem commit_validation_witness :
    (editing "=1+".toList).mode = .insert ∧
      (editing "=1+".toList).insert_str = '=' :: "1+".toList ∧
      expression.parse "1+".toList = .parse_exception [] "empty expresion" ∧
      workspace.action 0 (editing "=1+".toList) (Char.ofNat 10) =
        (.ok (), { editing "=1+".toList with insert_parse_error := true }) :=
  ⟨rfl, rfl, by rfl,
    (commit_validation 0 (editing "=1+".toList) rfl).1 "1+".toList [] "empty expresion" rfl
      (by rfl)⟩

/-- A sweep over two lists in a row is the sweep over the second list from
the grid left by the first, unless the first one stops on a failure. -/
theorem sweep_append (fuel : Nat) (l1 l2 : List (Nat × Nat)) :
    ∀ g : grid, sweep fuel (l1 ++ l2) g =
      match sweep fuel l1 g with
      | (.ok _, g1) => sweep fuel l2 g1
      | (.error f, g1) => (.error f, g1) := by
  induction l1 with
  | nil => intro g; rfl
  | cons p rest ih =>
    intro g
    obtain ⟨r, c⟩ := p
    simp only [List.cons_append, sweep]
    rcases hc : cell.calculate (evaluate fuel) g r c with ⟨f | _, g1⟩
    · cases f with
      | thrown _ => exact ih g1
      | parse_exception _ _ => rfl
      | fault => rfl
      | out_of_fuel => rfl
    · exact ih g1

/-- The calculation of a pending cell whose formula is a call, without
arguments, of a name that is not a built-in: the cell ends finished with the
error `name`, which is thrown, and no other cell is touched. -/
theorem calculate_unknown_name (fuel : Nat) (g : grid) (r c : Nat) (name : List Char)
    (hs : (g r c).calculation_state = .pending) (hl : cell.literal (g r c).raw = none)
    (hp : expression.parse ((g r c).raw.drop 1) = .ok (.function name []))
    (hn : function.lookup name = none) :
    ∃ g1 : grid, cell.calculate (evaluate (fuel + 1)) g r c = (.error (.thrown .name), g1) ∧
      (g1 r c).value = .error .name ∧ (g1 r c).calculation_state = .finished ∧
      ∀ r1 c1, ¬ (r1 = r ∧ c1 = c) → g1 r1 c1 = g r1 c1 := by
  generalize hg2 : (g.set r c { g r c with calculation_state := .in_progress }).set r c
      { g r c with calculation_state := .in_progress, expr := .function name [] } = g2
  have h2o : ∀ r1 c1, ¬ (r1 = r ∧ c1 = c) → g2 r1 c1 = g r1 c1 := by
    intro r1 c1 h
    rw [← hg2, grid_set_other _ _ _ _ _ _ h, grid_set_other _ _ _ _ _ _ h]
  have hev : evaluate (fuel + 1) g2 (.function name []) = (.error (.thrown .name), g2) := by
    simp only [evaluate, hn]
  have hcalc := calculate_formula_thrown (evaluate (fuel + 1)) g g2 r c _ .name hs hl hp
    (by rw [hg2]; exact hev)
  refine ⟨_, hcalc, ?_, ?_, ?_⟩
  · rw [grid_set_same]
  · rw [grid_set_same]
  · intro r1 c1 h
    rw [grid_set_other _ _ _ _ _ _ h, h2o r1 c1 h]

/-- The calculation of a pending cell `ref + 1` whose operand cell is
pending and calls an unknown name: the error `name` thrown by the operand
cell passes through the sum, and both cells end finished with `name`. -/
theorem calculate_dependent_first (fuel : Nat) (g : grid) (rp cp rq cq : Nat)
    (name : List Char) (hrq : rq < MAX_ROW) (hcq : cq < MAX_COL)
    (hne : ¬ (rq = rp ∧ cq = cp))
    (hsp : (g rp cp).calculation_state = .pending) (hlp : cell.literal (g rp cp).raw = none)
    (hpp : expression.parse ((g rp cp).raw.drop 1) =
      .ok (.function "+".toList [.reference ⟨rq, cq⟩, .prim (.integer 1)]))
    (hsq : (g rq cq).calculation_state = .pending) (hlq : cell.literal (g rq cq).raw = none)
    (hpq : expression.parse ((g rq cq).raw.drop 1) = .ok (.function name []))
    (hn : function.lookup name = none) :
    ∃ g1 : grid, cell.calculate (evaluate (fuel + 3)) g rp cp = (.error (.thrown .name), g1) ∧
      (g1 rp cp).value = .error .name ∧ (g1 rp cp).calculation_state = .finished ∧
      (g1 rq cq).value = .error .name ∧ (g1 rq cq).calculation_state = .finished ∧
      ∀ r1 c1, ¬ (r1 = rp ∧ c1 = cp) → ¬ (r1 = rq ∧ c1 = cq) → g1 r1 c1 = g r1 c1 := by
  generalize hg2 : (g.set rp cp { g rp cp with calculation_state := .in_progress }).set rp cp
      { g rp cp with calculation_state := .in_progress,
                     expr := .function "+".toList [.reference ⟨rq, cq⟩, .prim (.integer 1)] } = g2
  have h2o : ∀ r1 c1, ¬ (r1 = rp ∧ c1 = cp) → g2 r1 c1 = g r1 c1 := by
    intro r1 c1 h
    rw [← hg2, grid_set_other _ _ _ _ _ _ h, grid_set_other _ _ _ _ _ _ h]
  have h2q : g2 rq cq = g rq cq := h2o rq cq hne
  obtain ⟨g3, hcq3, hv3, hs3, h3o⟩ := calculate_unknown_name fuel g2 rq cq name
    (by rw [h2q]; exact hsq) (by rw [h2q]; exact hlq) (by rw [h2q]; exact hpq) hn
  have href : evaluate (fuel + 1 + 1) g2 (.reference ⟨rq, cq⟩) =
      (.error (.thrown .name), g3) := by
    rw [evaluate_reference (fuel + 1) g2 rq cq hrq hcq, hcq3]
  have hev : evaluate (fuel + 3) g2
      (.function "+".toList [.reference ⟨rq, cq⟩, .prim (.integer 1)]) =
      (.error (.thrown .name), g3) :=
    evaluate_add_thrown (fuel + 1 + 1) g2 g3 (.reference ⟨rq, cq⟩) (.prim (.integer 1)) _ href
  have hcalc := calculate_formula_thrown (evaluate (fuel + 3)) g g3 rp cp _ .name hsp hlp hpp
    (by rw [hg2]; exact hev)
  have hne2 : ¬ (rp = rq ∧ cp = cq) := fun h => hne ⟨h.1.symm, h.2.symm⟩
  refine ⟨_, hcalc, ?_, ?_, ?_, ?_, ?_⟩
  · rw [grid_set_same]
  · rw [grid_set_same]
  · rw [grid_set_other _ _ _ _ _ _ hne]; exact hv3
  · rw [grid_set_other _ _ _ _ _ _ hne]; exact hs3
  · intro r1 c1 h1 h2
    rw [grid_set_other _ _ _ _ _ _ h1, h3o r1 c1 h2, h2o r1 c1 h1]

/-- The calculation of a pending cell `ref + 1` whose operand cell is
finished with a cached error: the cached error is returned as a value, the
sum rejects it as a non-integer, and the cell ends finished with `value`. -/
theorem calculate_dependent_second (fuel : Nat) (g : grid) (rp cp rq cq : Nat) (k : values)
    (hrq : rq < MAX_ROW) (hcq : cq < MAX_COL) (hne : ¬ (rq = rp ∧ cq = cp))
    (hsp : (g rp cp).calculation_state = .pending) (hlp : cell.literal (g rp cp).raw = none)
    (hpp : expression.parse ((g rp cp).raw.drop 1) =
      .ok (.function "+".toList [.reference ⟨rq, cq⟩, .prim (.integer 1)]))
    (hsq : (g rq cq).calculation_state = .finished) (hvq : (g rq cq).value = .error k) :
    ∃ g1 : grid, cell.calculate (evaluate (fuel + 2)) g rp cp = (.error (.thrown .value), g1) ∧
      (g1 rp cp).value = .error .value ∧ (g1 rp cp).calculation_state = .finished ∧
      ∀ r1 c1, ¬ (r1 = rp ∧ c1 = cp) → g1 r1 c1 = g r1 c1 := by
  generalize hg2 : (g.set rp cp { g rp cp with calculation_state := .in_progress }).set rp cp
      { g rp cp with calculation_state := .in_progress,
                     expr := .function "+".toList [.reference ⟨rq, cq⟩, .prim (.integer 1)] } = g2
  have h2o : ∀ r1 c1, ¬ (r1 = rp ∧ c1 = cp) → g2 r1 c1 = g r1 c1 := by
    intro r1 c1 h
    rw [← hg2, grid_set_other _ _ _ _ _ _ h, grid_set_other _ _ _ _ _ _ h]
  have h2q : g2 rq cq = g rq cq := h2o rq cq hne
  have href : evaluate (fuel + 1) g2 (.reference ⟨rq, cq⟩) = (.ok (.error k), g2) := by
    rw [evaluate_reference fuel g2 rq cq hrq hcq,
      calculate_finished _ _ _ _ (by rw [h2q]; exact hsq), h2q, hvq]
  have l5 : function.lookup "+".toList = some .op_add := by decide
  have hev : evaluate (fuel + 2) g2
      (.function "+".toList [.reference ⟨rq, cq⟩, .prim (.integer 1)]) =
      (.error (.thrown .value), g2) := by
    rw [evaluate, l5]
    simp only [builtin.call, function.op_add, arg_evaluate, href, evaluate_prim, cast_integer]
  have hcalc := calculate_formula_thrown (evaluate (fuel + 2)) g g2 rp cp _ .value hsp hlp hpp
    (by rw [hg2]; exact hev)
  refine ⟨_, hcalc, ?_, ?_, ?_⟩
  · rw [grid_set_same]
  · rw [grid_set_same]
  · intro r1 c1 h
    rw [grid_set_other _ _ _ _ _ _ h, h2o r1 c1 h]

/-- A sweep that has gone through its first two cells without a failure
goes on through cells that are finished or hold a literal, and leaves the
finished cells as they are. -/
theorem sweep_pair_settled (fuel : Nat) (g g2 : grid) (a b : Nat × Nat)
    (tl : List (Nat × Nat)) (h : sweep fuel [a, b] g = (.ok (), g2))
    (hrest : ∀ p ∈ tl, (g2 p.1 p.2).calculation_state = .finished ∨
      ((g2 p.1 p.2).calculation_state = .pending ∧
        ∃ res, cell.literal (g2 p.1 p.2).raw = some res)) :
    (sweep fuel (a :: b :: tl) g).1 = .ok () ∧
      ∀ r c, (g2 r c).calculation_state = .finished →
        (sweep fuel (a :: b :: tl) g).2 r c = g2 r c := by
  have happ := sweep_append fuel [a, b] tl g
  rw [h] at happ
  simp only [List.cons_append, List.nil_append] at happ
  rw [happ]
  exact sweep_settled fuel tl g2 hrest

/-- The cell with the unknown name is visited first, then the cell that
adds one to it: the second cell ends with the error `value`. -/
theorem sweep_unknown_first (fuel : Nat) (g : grid) (rp cp rq cq : Nat) (name : List Char)
    (hrq : rq < MAX_ROW) (hcq : cq < MAX_COL) (hne : ¬ (rq = rp ∧ cq = cp))
    (hsp : (g rp cp).calculation_state = .pending) (hlp : cell.literal (g rp cp).raw = none)
    (hpp : expression.parse ((g rp cp).raw.drop 1) =
      .ok (.function "+".toList [.reference ⟨rq, cq⟩, .prim (.integer 1)]))
    (hsq : (g rq cq).calculation_state = .pending) (hlq : cell.literal (g rq cq).raw = none)
    (hpq : expression.parse ((g rq cq).raw.drop 1) = .ok (.function name []))
    (hn : function.lookup name = none) :
    ∃ g2 : grid, sweep (fuel + 3) [(rq, cq), (rp, cp)] g = (.ok (), g2) ∧
      (g2 rp cp).value = .error .value ∧ (g2 rp cp).calculation_state = .finished ∧
      (g2 rq cq).value = .error .name ∧ (g2 rq cq).calculation_state = .finished ∧
      ∀ r1 c1, ¬ (r1 = rp ∧ c1 = cp) → ¬ (r1 = rq ∧ c1 = cq) → g2 r1 c1 = g r1 c1 := by
  have hne2 : ¬ (rp = rq ∧ cp = cq) := fun h => hne ⟨h.1.symm, h.2.symm⟩
  obtain ⟨g1, hc1, hv1, hs1, h1o⟩ := calculate_unknown_name (fuel + 2) g rq cq name hsq hlq hpq hn
  have h1p : g1 rp cp = g rp cp := h1o rp cp hne2
  obtain ⟨g2, hc2, hv2, hs2, h2o⟩ := calculate_dependent_second (fuel + 1) g1 rp cp rq cq .name
    hrq hcq hne (by rw [h1p]; exact hsp) (by rw [h1p]; exact hlp) (by rw [h1p]; exact hpp)
    hs1 hv1
  refine ⟨g2, ?_, hv2, hs2, ?_, ?_, ?_⟩
  · rw [sweep, hc1]
    simp only []
    rw [sweep, hc2]
    rfl
  · rw [h2o rq cq hne]; exact hv1
  · rw [h2o rq cq hne]; exact hs1
  · intro r1 c1 h1 h2
    rw [h2o r1 c1 h1, h1o r1 c1 h2]

/-- The cell that adds one is visited first, then the cell with the unknown
name it refers to: both cells end with the error `name`. -/
theorem sweep_dependent_first (fuel : Nat) (g : grid) (rp cp rq cq : Nat) (name : List Char)
    (hrq : rq < MAX_ROW) (hcq : cq < MAX_COL) (hne : ¬ (rq = rp ∧ cq = cp))
    (hsp : (g rp cp).calculation_state = .pending) (hlp : cell.literal (g rp cp).raw = none)
    (hpp : expression.parse ((g rp cp).raw.drop 1) =
      .ok (.function "+".toList [.reference ⟨rq, cq⟩, .prim (.integer 1)]))
    (hsq : (g rq cq).calculation_state = .pending) (hlq : cell.literal (g rq cq).raw = none)
    (hpq : expression.parse ((g rq cq).raw.drop 1) = .ok (.function name []))
    (hn : function.lookup name = none) :
    ∃ g2 : grid, sweep (fuel + 3) [(rp, cp), (rq, cq)] g = (.ok (), g2) ∧
      (g2 rp cp).value = .error .name ∧ (g2 rp cp).calculation_state = .finished ∧
      (g2 rq cq).value = .error .name ∧ (g2 rq cq).calculation_state = .finished ∧
      ∀ r1 c1, ¬ (r1 = rp ∧ c1 = cp) → ¬ (r1 = rq ∧ c1 = cq) → g2 r1 c1 = g r1 c1 := by
  obtain ⟨g1, hc1, hvp, hsp1, hvq, hsq1, h1o⟩ := calculate_dependent_first fuel g rp cp rq cq
    name hrq hcq hne hsp hlp hpp hsq hlq hpq hn
  refine ⟨g1, ?_, hvp, hsp1, hvq, hsq1, h1o⟩
  rw [sweep, hc1]
  simp only []
  rw [sweep, calculate_finished _ _ _ _ hsq1]
  rfl

theorem recalculate_head (fuel : Nat) (g : grid) :
    recalculate fuel g = sweep fuel ((0, 0) :: (0, 1) :: sweep_order.drop 2) (reset g) :=
  congrArg (fun l => sweep fuel l (reset g)) sweep_order_head

/-- A full sweep of a worksheet with only A1 and B1 filled, in an order that
starts with these two cells: once both are finished the rest of the sweep
succeeds and does not change them. -/
theorem sweep_two_cell_grid (fuel : Nat) (a1 b1 : List Char) (a b : Nat × Nat) (g2 : grid)
    (h : sweep fuel [a, b] (reset (two_cell_grid a1 b1)) = (.ok (), g2))
    (hA : (g2 0 0).calculation_state = .finished) (hB : (g2 0 1).calculation_state = .finished)
    (hframe : ∀ r c, ¬ (r = 0 ∧ c = 1) → ¬ (r = 0 ∧ c = 0) →
      g2 r c = reset (two_cell_grid a1 b1) r c) :
    (sweep fuel (a :: b :: sweep_order.drop 2) (reset (two_cell_grid a1 b1))).1 = .ok () ∧
      (sweep fuel (a :: b :: sweep_order.drop 2) (reset (two_cell_grid a1 b1))).2 0 0 =
        g2 0 0 ∧
      (sweep fuel (a :: b :: sweep_order.drop 2) (reset (two_cell_grid a1 b1))).2 0 1 =
        g2 0 1 := by
  have hset := sweep_pair_settled fuel _ g2 a b (sweep_order.drop 2) h (by
    intro p hp
    obtain ⟨hr, hc⟩ := sweep_order_bounds p (List.mem_of_mem_drop hp)
    by_cases h0 : p.1 = 0 ∧ p.2 = 0
    · left; rw [h0.1, h0.2]; exact hA
    · by_cases h1 : p.1 = 0 ∧ p.2 = 1
      · left; rw [h1.1, h1.2]; exact hB
      · right
        rw [hframe _ _ h1 h0, reset_apply _ _ _ hr hc]
        refine ⟨rfl, .text [], ?_⟩
        show cell.literal (two_cell_grid a1 b1 p.1 p.2).raw = _
        rw [two_cell_grid_rest _ _ _ _ h0 h1]
        exact literal_nil)
  exact ⟨hset.1, hset.2 0 0 hA, hset.2 0 1 hB⟩

theorem lookup_FOO : function.lookup "FOO".toList = none := by decide

/-- C27. Sweep completion in the code: `=1/0` parses, but its evaluation
divides by zero, which is undefined behaviour and not a caught error: with
`=1/0` in A1 the sweep stops there and B1, holding `=1+1`, is left pending;
the same happens for the reference `=A101`, which parses and lies outside
the 100 rows. An error that is thrown is caught: with `=FOO()` in A1 and
`=A1+1` in B1 the sweep runs to its end and both cells are finished. -/
theorem division_by_zero_stops_sweep (fuel : Nat) :
    expression.parse "1/0".toList =
        .ok (.function "/".toList [.prim (.integer 1), .prim (.integer 0)]) ∧
      (recalculate (fuel + 3) (two_cell_grid "=1/0".toList "=1+1".toList)).1 = .error .fault ∧
      ((recalculate (fuel + 3) (two_cell_grid "=1/0".toList "=1+1".toList)).2 0
        1).calculation_state = .pending ∧
      expression.parse "A101".toList = .ok (.reference ⟨100, 0⟩) ∧
      (recalculate (fuel + 3) (two_cell_grid "=A101".toList "=1+1".toList)).1 = .error .fault ∧
      (recalculate (fuel + 3) (two_cell_grid "=FOO()".toList "=A1+1".toList)).1 = .ok () ∧
      ((recalculate (fuel + 3) (two_cell_grid "=FOO()".toList "=A1+1".toList)).2 0
        0).calculation_state = .finished ∧
      ((recalculate (fuel + 3) (two_cell_grid "=FOO()".toList "=A1+1".toList)).2 0
        0).value = .error .name ∧
      ((recalculate (fuel + 3) (two_cell_grid "=FOO()".toList "=A1+1".toList)).2 0
        1).calculation_state = .finished := by
  have hdiv : ∃ g1, cell.calculate (evaluate (fuel + 3))
      (reset (two_cell_grid "=1/0".toList "=1+1".toList)) 0 0 = (.error .fault, g1) ∧
      (g1 0 1).calculation_state = .pending := ⟨_, Prod.ext rfl rfl, rfl⟩
  have hout : ∃ g1, cell.calculate (evaluate (fuel + 3))
      (reset (two_cell_grid "=A101".toList "=1+1".toList)) 0 0 = (.error .fault, g1) :=
    ⟨_, Prod.ext rfl rfl⟩
  obtain ⟨g1, hc1, hp1⟩ := hdiv
  obtain ⟨g3, hc3⟩ := hout
  obtain ⟨g2, hsw, hvB, hsB, hvA, hsA, hframe⟩ := sweep_unknown_first fuel
    (reset (two_cell_grid "=FOO()".toList "=A1+1".toList)) 0 1 0 0 "FOO".toList (by decide)
    (by decide) (by decide) rfl (by rfl) (by rfl) rfl (by rfl) (by rfl) lookup_FOO
  obtain ⟨hok, hA, hB⟩ := sweep_two_cell_grid (fuel + 3) _ _ _ _ g2 hsw hsA hsB hframe
  refine ⟨by rfl, ?_, ?_, by rfl, ?_, ?_, ?_, ?_, ?_⟩
  · rw [recalculate_head, sweep, hc1]
  · rw [recalculate_head, sweep, hc1]
    exact hp1
  · rw [recalculate_head, sweep, hc3]
  · rw [recalculate_head]; exact hok
  · rw [recalculate_head, hA]; exact hsA
  · rw [recalculate_head, hA]; exact hvA
  · rw [recalculate_head, hB]; exact hsB

/-- C28. Order dependence in the code: with `=FOO()` in A1 and `=A1+1` in
B1, a sweep that visits A1 first (the order of `recalculate`) leaves B1 with
`Error(Value)`, since the cached error of A1 is returned as a value, while a
sweep of the same cells that visits B1 first leaves B1 with `Error(Name)`,
since the error of A1 is then thrown through B1. The same shows in
`recalculate` itself when the two formulas change places: with `=B1+1` in A1
and `=FOO()` in B1 the dependent cell ends with `Error(Name)`. -/
theorem sweep_order_changes_value (fuel : Nat) :
    List.Perm ((0, 1) :: (0, 0) :: sweep_order.drop 2) sweep_order ∧
      (recalculate (fuel + 3) (two_cell_grid "=FOO()".toList "=A1+1".toList)).1 = .ok () ∧
      ((recalculate (fuel + 3) (two_cell_grid "=FOO()".toList "=A1+1".toList)).2 0 1).value =
        .error .value ∧
      (sweep (fuel + 3) ((0, 1) :: (0, 0) :: sweep_order.drop 2)
        (reset (two_cell_grid "=FOO()".toList "=A1+1".toList))).1 = .ok () ∧
      ((sweep (fuel + 3) ((0, 1) :: (0, 0) :: sweep_order.drop 2)
        (reset (two_cell_grid "=FOO()".toList "=A1+1".toList))).2 0 1).value = .error .name ∧
      (recalculate (fuel + 3) (two_cell_grid "=B1+1".toList "=FOO()".toList)).1 = .ok () ∧
      ((recalculate (fuel + 3) (two_cell_grid "=B1+1".toList "=FOO()".toList)).2 0 0).value =
        .error .name := by
  obtain ⟨g2, hsw2, hvB2, hsB2, hvA2, hsA2, hframe2⟩ := sweep_unknown_first fuel
    (reset (two_cell_grid "=FOO()".toList "=A1+1".toList)) 0 1 0 0 "FOO".toList (by decide)
    (by decide) (by decide) rfl (by rfl) (by rfl) rfl (by rfl) (by rfl) lookup_FOO
  obtain ⟨hok2, _, hB2⟩ := sweep_two_cell_grid (fuel + 3) _ _ _ _ g2 hsw2 hsA2 hsB2 hframe2
  obtain ⟨g3, hsw3, hvB3, hsB3, hvA3, hsA3, hframe3⟩ := sweep_dependent_first fuel
    (reset (two_cell_grid "=FOO()".toList "=A1+1".toList)) 0 1 0 0 "FOO".toList (by decide)
    (by decide) (by decide) rfl (by rfl) (by rfl) rfl (by rfl) (by rfl) lookup_FOO
  obtain ⟨hok3, _, hB3⟩ := sweep_two_cell_grid (fuel + 3) _ _ _ _ g3 hsw3 hsA3 hsB3 hframe3
  obtain ⟨g4, hsw4, hvA4, hsA4, hvB4, hsB4, hframe4⟩ := sweep_dependent_first fuel
    (reset (two_cell_grid "=B1+1".toList "=FOO()".toList)) 0 0 0 1 "FOO".toList (by decide)
    (by decide) (by decide) rfl (by rfl) (by rfl) rfl (by rfl) (by rfl) lookup_FOO
  obtain ⟨hok4, hA4, _⟩ := sweep_two_cell_grid (fuel + 3) _ _ _ _ g4 hsw4 hsA4 hsB4
    (fun r c h1 h0 => hframe4 r c h0 h1)
  refine ⟨?_, ?_, ?_, hok3, ?_, ?_, ?_⟩
  · have h := List.Perm.swap ((0, 0) : Nat × Nat) (0, 1) (sweep_order.drop 2)
    exact h.trans (List.Perm.of_eq sweep_order_head.symm)
  · rw [recalculate_head]; exact hok2
  · rw [recalculate_head, hB2]; exact hvB2
  · rw [hB3]; exact hvB3
  · rw [recalculate_head]; exact hok4
  · rw [recalculate_head, hA4]; exact hvA4

/-- C29. Memoization: `calculate` on a finished cell returns the cached
value of the cell and the grid it was called on, whatever the evaluator
is, so no formula is parsed or evaluated and no cell is modified; the same
holds for the evaluation of a reference to such a cell. -/
theorem memoization (g : grid) (r c : Nat) (h : (g r c).calculation_state = .finished) :
    (∀ ev : evaluator, cell.calculate ev g r c = (.ok (g r c).value, g)) ∧
      (∀ fuel : Nat, r < MAX_ROW → c < MAX_COL →
        evaluate (fuel + 1) g (.reference ⟨r, c⟩) = (.ok (g r c).value, g)) := by
  refine ⟨fun ev => calculate_finished ev g r c h, fun fuel hr hc => ?_⟩
  rw [evaluate_reference fuel g r c hr hc]
  exact calculate_finished _ g r c h

theorem memoization_witness :
    (grid_with_A1 ⟨"=1/0".toList, .finished, false, .prim (.integer 7), .integer 7⟩ 0
        0).calculation_state = .finished ∧
      cell.calculate (evaluate 5)
          (grid_with_A1 ⟨"=1/0".toList, .finished, false, .prim (.integer 7), .integer 7⟩) 0 0 =
        (.ok (grid_with_A1 ⟨"=1/0".toList, .finished, false, .prim (.integer 7), .integer 7⟩ 0
            0).value,
          grid_with_A1 ⟨"=1/0".toList, .finished, false, .prim (.integer 7), .integer 7⟩) ∧
      (grid_with_A1 ⟨"=1/0".toList, .finished, false, .prim (.integer 7), .integer 7⟩ 0
        0).value = .integer 7 :=
  ⟨rfl, (memoization _ 0 0 rfl).1 (evaluate 5), rfl⟩

/-- C30. Re-entry detection: `calculate` on a cell that is in progress
throws `Error(Recur)` and returns the grid it was called on, whatever the
evaluator is: the cell stays in progress and its cached value is not
overwritten by this call; the same holds for the evaluation of a reference
to such a cell. -/
theorem reentry_detection (g : grid) (r c : Nat)
    (h : (g r c).calculation_state = .in_progress) :
    (∀ ev : evaluator, cell.calculate ev g r c = (.error (.thrown .recur), g)) ∧
      (∀ ev : evaluator, ((cell.calculate ev g r c).2 r c).calculation_state = .in_progress ∧
        ((cell.calculate ev g r c).2 r c).value = (g r c).value) ∧
      (∀ fuel : Nat, r < MAX_ROW → c < MAX_COL →
        evaluate (fuel + 1) g (.reference ⟨r, c⟩) = (.error (.thrown .recur), g)) := by
  refine ⟨fun ev => calculate_in_progress ev g r c h, fun ev => ?_, fun fuel hr hc => ?_⟩
  · rw [calculate_in_progress ev g r c h]
    exact ⟨h, rfl⟩
  · rw [evaluate_reference fuel g r c hr hc]
    exact calculate_in_progress _ g r c h

theorem reentry_detection_witness :
    (grid_with_A1 ⟨"=A1".toList, .in_progress, false, .reference ⟨0, 0⟩, .integer 7⟩ 0
        0).calculation_state = .in_progress ∧
      evaluate (0 + 1)
          (grid_with_A1 ⟨"=A1".toList, .in_progress, false, .reference ⟨0, 0⟩, .integer 7⟩)
          (.reference ⟨(0 : Nat), (0 : Nat)⟩) =
        (.error (.thrown .recur),
          grid_with_A1 ⟨"=A1".toList, .in_progress, false, .reference ⟨0, 0⟩, .integer 7⟩) :=
  ⟨rfl, (reentry_detection _ 0 0 rfl).2.2 0 (by decide) (by decide)⟩

/-! ## Cells, display width, parser invariants and termination -/

/-- A raw text that starts with `=` is not read as a number by `std::stoll`
and is not a text either: it is a formula. -/
theorem literal_formula (body : List Char) : cell.literal ('=' :: body) = none := by
  have h1 : isspace '=' = false := by decide
  have h2 : is_digit '=' = false := by decide
  have hs : stoll ('=' :: body) = none := by
    simp [stoll, strto, List.takeWhile, List.dropWhile, h1, h2]
  simp [cell.literal, hs]

/-- The literal branches of `calculate` in terms of `std::stoll`. -/
theorem literal_cases (raw : List Char) :
    (∀ n, stoll raw = some (n, raw.length) → cell.literal raw = some (.integer n)) ∧
      ((∀ n, stoll raw ≠ some (n, raw.length)) → (raw = [] ∨ raw.head? ≠ some '=') →
        cell.literal raw = some (.text raw)) ∧
      ((∀ n, stoll raw ≠ some (n, raw.length)) → raw.head? = some '=' →
        cell.literal raw = none) := by
  refine ⟨fun n h => ?_, fun h hd => ?_, fun h hd => ?_⟩
  · simp [cell.literal, h]
  · unfold cell.literal
    rcases hst : stoll raw with _ | ⟨v, size⟩
    · rcases hd with hd | hd
      · simp [hd]
      · simp [hd]
    · by_cases hsz : size = raw.length
      · exact absurd (hsz ▸ hst) (h v)
      · rcases hd with hd | hd
        · subst hd
          simp only [List.length_nil] at hsz
          simp [hsz]
        · simp [hsz, hd]
  · cases raw with
    | nil => simp at hd
    | cons c body =>
      simp only [List.head?_cons, Option.some.injEq] at hd
      rw [hd]
      exact literal_formula body

/-- C31. Raw-text classification: for a pending cell with raw text `raw`,
`calculate` returns `Integer(n)` when `std::stoll` reads the whole of `raw`
as `n` (so for the decimal text of every 64-bit integer); otherwise
`Text(raw)` when `raw` is empty or does not start with `=`; in both cases
the cell ends finished with that value cached. Otherwise, for a body that
parses to `e`, the outcome is the outcome of evaluating `e`. The raw texts
`TRUE` and `A1` are texts. -/
theorem raw_text_classification (ev : evaluator) (g : grid) (r c : Nat)
    (hs : (g r c).calculation_state = .pending) :
    (∀ n, stoll (g r c).raw = some (n, (g r c).raw.length) →
        (cell.calculate ev g r c).1 = .ok (.integer n) ∧
        ((cell.calculate ev g r c).2 r c).value = .integer n ∧
        ((cell.calculate ev g r c).2 r c).calculation_state = .finished) ∧
      (∀ n, -(2 : Int) ^ 63 ≤ n → n < 2 ^ 63 → (g r c).raw = to_string n →
        (cell.calculate ev g r c).1 = .ok (.integer n)) ∧
      ((∀ n, stoll (g r c).raw ≠ some (n, (g r c).raw.length)) →
        ((g r c).raw = [] ∨ (g r c).raw.head? ≠ some '=') →
        (cell.calculate ev g r c).1 = .ok (.text (g r c).raw) ∧
        ((cell.calculate ev g r c).2 r c).value = .text (g r c).raw ∧
        ((cell.calculate ev g r c).2 r c).calculation_state = .finished) ∧
      ((∀ n, stoll (g r c).raw ≠ some (n, (g r c).raw.length)) →
        (g r c).raw.head? = some '=' → ∀ e, expression.parse ((g r c).raw.drop 1) = .ok e →
        (cell.calculate ev g r c).1 =
          (ev ((g.set r c { g r c with calculation_state := .in_progress }).set r c
            { g r c with calculation_state := .in_progress, expr := e }) e).1) ∧
      cell.literal "TRUE".toList = some (.text "TRUE".toList) ∧
      cell.literal "A1".toList = some (.text "A1".toList) ∧
      cell.literal " 12".toList = some (.integer 12) ∧
      cell.literal "12 ".toList = some (.text "12 ".toList) := by
  obtain ⟨hint, htext, hform⟩ := literal_cases (g r c).raw
  refine ⟨fun n h => ?_, fun n hlo hhi h => ?_, fun h hd => ?_, fun h hd e hp => ?_,
    by rfl, by rfl, by rfl, by rfl⟩
  · rw [calculate_literal ev g r c _ hs (hint n h)]
    simp only [grid_set_same, and_self]
  · rw [calculate_literal ev g r c _ hs (by rw [h]; exact literal_to_string n hlo hhi)]
  · rw [calculate_literal ev g r c _ hs (htext h hd)]
    simp only [grid_set_same, and_self]
  · simp only [cell.calculate, hs, hform h hd, hp, grid_set_same]
    rcases hev : ev ((g.set r c { g r c with calculation_state := .in_progress }).set r c
        { g r c with calculation_state := .in_progress, expr := e }) e with ⟨f | v, g3⟩
    · cases f <;> rfl
    · rfl

theorem raw_text_classification_witness :
    (grid_with_A1 ⟨"-42".toList, .pending, false, .prim (.text []), .text []⟩ 0
        0).calculation_state = .pending ∧
      stoll (grid_with_A1 ⟨"-42".toList, .pending, false, .prim (.text []), .text []⟩ 0 0).raw =
        some (-42, (grid_with_A1 ⟨"-42".toList, .pending, false, .prim (.text []), .text []⟩ 0
          0).raw.length) ∧
      (cell.calculate (evaluate 1)
        (grid_with_A1 ⟨"-42".toList, .pending, false, .prim (.text []), .text []⟩) 0 0).1 =
        .ok (.integer (-42)) :=
  ⟨rfl, by rfl,
    ((raw_text_classification (evaluate 1)
      (grid_with_A1 ⟨"-42".toList, .pending, false, .prim (.text []), .text []⟩) 0 0 rfl).1
      (-42) (by rfl)).1⟩

/-- C32. Error caching and propagation: when `calculate` runs on a pending
cell whose raw text is `=` followed by a body that parses to `e`, and the
evaluation of `e` throws the error `k`, then the call throws the same `k`
and the cell ends finished with the cached value `Error(k)`. -/
theorem error_caching (ev : evaluator) (g g3 : grid) (r c : Nat) (body : List Char)
    (e : expression) (k : values) (hs : (g r c).calculation_state = .pending)
    (hraw : (g r c).raw = '=' :: body) (hp : expression.parse body = .ok e)
    (hev : ev ((g.set r c { g r c with calculation_state := .in_progress }).set r c
      { g r c with calculation_state := .in_progress, expr := e }) e = (.error (.thrown k), g3)) :
    (cell.calculate ev g r c).1 = .error (.thrown k) ∧
      ((cell.calculate ev g r c).2 r c).value = .error k ∧
      ((cell.calculate ev g r c).2 r c).calculation_state = .finished := by
  rw [calculate_formula_thrown ev g g3 r c e k hs (by rw [hraw]; exact literal_formula body)
    (by rw [hraw]; exact hp) hev]
  simp only [grid_set_same, and_self]

theorem error_caching_witness :
    (grid_with_A1 ⟨"=FOO()".toList, .pending, false, .prim (.text []), .text []⟩ 0
        0).calculation_state = .pending ∧
      expression.parse "FOO()".toList = .ok (.function "FOO".toList []) ∧
      (cell.calculate (evaluate 1)
        (grid_with_A1 ⟨"=FOO()".toList, .pending, false, .prim (.text []), .text []⟩) 0 0).1 =
        .error (.thrown .name) ∧
      ((cell.calculate (evaluate 1)
        (grid_with_A1 ⟨"=FOO()".toList, .pending, false, .prim (.text []), .text []⟩) 0 0).2 0
        0).value = .error .name :=
  have h := error_caching (evaluate 1)
    (grid_with_A1 ⟨"=FOO()".toList, .pending, false, .prim (.text []), .text []⟩) _ 0 0
    "FOO()".toList (.function "FOO".toList []) .name rfl rfl (by rfl) (by rfl)
  ⟨rfl, by rfl, h.1, h.2.1⟩

/-- A recalculation of the worksheet whose only filled cell is A1, holding a
literal: A1 ends finished with the literal as value and with the dirty flag
set, and the sweep runs to its end. -/
theorem recalculate_A1_literal (fuel : Nat) (x : cell) (res : primitive)
    (hl : cell.literal x.raw = some res) :
    (recalculate fuel (grid_with_A1 x)).1 = .ok () ∧
      (recalculate fuel (grid_with_A1 x)).2 0 0 =
        { x with expr := .prim res, needs_redraw := true, value := res,
                 calculation_state := .finished } := by
  have h00 : reset (grid_with_A1 x) 0 0 =
      { x with calculation_state := .pending, needs_redraw := false } := by
    rw [reset_apply _ 0 0 (by decide) (by decide)]
    rfl
  have hcalc := calculate_literal (evaluate fuel) (reset (grid_with_A1 x)) 0 0 res
    (by rw [h00]) (by rw [h00]; exact hl)
  generalize hg1 : ((reset (grid_with_A1 x)).set 0 0
      { reset (grid_with_A1 x) 0 0 with calculation_state := .in_progress }).set 0 0
      { reset (grid_with_A1 x) 0 0 with expr := .prim res, needs_redraw := true, value := res,
                                        calculation_state := .finished } = g1 at hcalc
  have h1o : ∀ r c, ¬ (r = 0 ∧ c = 0) → g1 r c = reset (grid_with_A1 x) r c := by
    intro r c h
    rw [← hg1, grid_set_other _ _ _ _ _ _ h, grid_set_other _ _ _ _ _ _ h]
  have h1s : (g1 0 0).calculation_state = .finished := by rw [← hg1, grid_set_same]
  have h1v : g1 0 0 = { x with expr := .prim res, needs_redraw := true, value := res,
                               calculation_state := .finished } := by
    rw [← hg1, grid_set_same, h00]
  have hsw : recalculate fuel (grid_with_A1 x) =
      sweep fuel ((0, 1) :: sweep_order.drop 2) g1 := by
    rw [recalculate_head, sweep, hcalc]
  have hset := sweep_settled fuel ((0, 1) :: sweep_order.drop 2) g1 (by
    intro p hp
    have hmem : p ∈ sweep_order := by
      rw [sweep_order_head]
      exact List.mem_cons_of_mem _ hp
    obtain ⟨hr, hc⟩ := sweep_order_bounds p hmem
    by_cases h0 : p.1 = 0 ∧ p.2 = 0
    · left; rw [h0.1, h0.2]; exact h1s
    · right
      rw [h1o _ _ h0, reset_apply _ _ _ hr hc]
      refine ⟨rfl, .text [], ?_⟩
      show cell.literal (grid_with_A1 x p.1 p.2).raw = _
      have : grid_with_A1 x p.1 p.2 = empty_grid p.1 p.2 := grid_set_other _ _ _ _ _ _ h0
      rw [this]
      exact literal_nil)
  rw [hsw]
  exact ⟨hset.1, by rw [hset.2 0 0 h1s, h1v]⟩

/-- C33. Dirty flag in the code: in the two literal branches of `calculate`
the new value is held in a `shared_ptr<primitive>` and the cached one in a
`shared_ptr<const primitive>`, so `value != res` compares the pointers and
is always true. A cell whose raw text `5` (or `abc`) is recalculated to the
value it already had is marked dirty, by `calculate` and by `recalculate`
of an unchanged worksheet; only the formula branch compares the values: `=5`
over a cached `Integer(5)` is not dirty, over a cached `Integer(4)` it is. -/
theorem literal_always_dirty (fuel : Nat) :
    ((cell.calculate (evaluate fuel)
        (grid_with_A1 ⟨"5".toList, .pending, false, .prim (.integer 5), .integer 5⟩) 0 0).2 0
        0).value = .integer 5 ∧
      ((cell.calculate (evaluate fuel)
        (grid_with_A1 ⟨"5".toList, .pending, false, .prim (.integer 5), .integer 5⟩) 0 0).2 0
        0).needs_redraw = true ∧
      ((cell.calculate (evaluate fuel)
        (grid_with_A1 ⟨"abc".toList, .pending, false, .prim (.text "abc".toList),
          .text "abc".toList⟩) 0 0).2 0 0).value = .text "abc".toList ∧
      ((cell.calculate (evaluate fuel)
        (grid_with_A1 ⟨"abc".toList, .pending, false, .prim (.text "abc".toList),
          .text "abc".toList⟩) 0 0).2 0 0).needs_redraw = true ∧
      (recalculate fuel
        (grid_with_A1 ⟨"5".toList, .finished, false, .prim (.integer 5), .integer 5⟩)).1 =
        .ok () ∧
      ((recalculate fuel
        (grid_with_A1 ⟨"5".toList, .finished, false, .prim (.integer 5), .integer 5⟩)).2 0
        0).value = .integer 5 ∧
      ((recalculate fuel
        (grid_with_A1 ⟨"5".toList, .finished, false, .prim (.integer 5), .integer 5⟩)).2 0
        0).needs_redraw = true ∧
      ((cell.calculate (evaluate fuel)
        (grid_with_A1 ⟨"=5".toList, .pending, false, .prim (.integer 5), .integer 5⟩) 0 0).2 0
        0).needs_redraw = false ∧
      ((cell.calculate (evaluate fuel)
        (grid_with_A1 ⟨"=5".toList, .pending, false, .prim (.integer 4), .integer 4⟩) 0 0).2 0
        0).needs_redraw = true := by
  have hre := recalculate_A1_literal fuel
    ⟨"5".toList, .finished, false, .prim (.integer 5), .integer 5⟩ (.integer 5) (by rfl)
  have hf5 := calculate_formula_ok (evaluate fuel)
    (grid_with_A1 ⟨"=5".toList, .pending, false, .prim (.integer 5), .integer 5⟩) _ 0 0
    (.prim (.integer 5)) (.integer 5) rfl (by rfl) (by rfl) (evaluate_prim fuel _ _)
  have hf4 := calculate_formula_ok (evaluate fuel)
    (grid_with_A1 ⟨"=5".toList, .pending, false, .prim (.integer 4), .integer 4⟩) _ 0 0
    (.prim (.integer 5)) (.integer 5) rfl (by rfl) (by rfl) (evaluate_prim fuel _ _)
  refine ⟨by rfl, by rfl, by rfl, by rfl, hre.1, ?_, ?_, ?_, ?_⟩
  · rw [hre.2]
  · rw [hre.2]
  · rw [hf5, grid_set_same]
    rfl
  · rw [hf4, grid_set_same]
    rfl

/-- C37. Trailing empty argument in the code: the last piece of the
argument text is dropped when it is empty or blank, whatever stands before
it, so `SUM(1,)` parses to the call of `SUM` on `1` alone (as do `SUM(1, )`
and, with two arguments, `SUM(1,2,)`); `SUM()` and `SUM( )` parse to the
call without arguments, and `SUM(,1)` and `SUM(1,,2)` do not parse. -/
theorem trailing_comma_accepted :
    expression.parse "SUM(1,)".toList = .ok (.function "SUM".toList [.prim (.integer 1)]) ∧
      expression.parse "SUM(1, )".toList = .ok (.function "SUM".toList [.prim (.integer 1)]) ∧
      expression.parse "SUM(1,2,)".toList =
        .ok (.function "SUM".toList [.prim (.integer 1), .prim (.integer 2)]) ∧
      expression.parse "SUM()".toList = .ok (.function "SUM".toList []) ∧
      expression.parse "SUM( )".toList = .ok (.function "SUM".toList []) ∧
      expression.parse "SUM(,1)".toList =
        .parse_exception "SUM(,1)".toList "does not match any expression types" ∧
      expression.parse "SUM(1,,2)".toList =
        .parse_exception "SUM(1,,2)".toList "does not match any expression types" := by
  refine ⟨by rfl, by rfl, by rfl, by rfl, by rfl, by rfl, by rfl⟩

/-- C39. Grid bounds in the code: `A101` and `ZZ1` are accepted by the
parser as references to row 100 and to column 701, and the evaluation of
such a reference indexes the arrays of 100 rows and 100 columns without any
test, which is undefined behaviour (`fault`); so does the calculation of a
cell holding `=A101`. -/
theorem reference_outside_grid (fuel : Nat) (g : grid) :
    expression.parse "A101".toList = .ok (.reference ⟨100, 0⟩) ∧
      expression.parse "ZZ1".toList = .ok (.reference ⟨0, 701⟩) ∧
      evaluate (fuel + 1) g (.reference ⟨100, 0⟩) = (.error .fault, g) ∧
      evaluate (fuel + 1) g (.reference ⟨0, 701⟩) = (.error .fault, g) ∧
      parse_evaluate (fuel + 1) g "A101".toList = (.error .fault, g) ∧
      parse_evaluate (fuel + 2) g "ZZ1+1".toList = (.error .fault, g) ∧
      (cell.calculate (evaluate (fuel + 1))
        (grid_with_A1 ⟨"=A101".toList, .pending, false, .prim (.text []), .text []⟩) 0 0).1 =
        .error .fault := by
  refine ⟨by rfl, by rfl, by rfl, by rfl, by rfl, by rfl, by rfl⟩

theorem to_string_length_le_signed (n : Int) (hlo : -(2 : Int) ^ 63 ≤ n) (hhi : n < 2 ^ 63) :
    (to_string n).length ≤ 20 := by
  by_cases h0 : 0 ≤ n
  · have := to_string_length_le n h0 hhi
    omega
  · unfold to_string
    rw [if_pos (by omega)]
    simp only [List.length_cons]
    have hd : (Nat.toDigits 10 n.natAbs).length ≤ 19 := by
      unfold Nat.toDigits
      apply Nat.toDigitsCore_length 10 (by decide) _ _ 19 _ (by decide)
      have : (n.natAbs : Int) ≤ 2 ^ 63 := by omega
      have h2 : n.natAbs ≤ 2 ^ 63 := by exact_mod_cast this
      calc n.natAbs ≤ 2 ^ 63 := h2
        _ < 10 ^ 19 := by decide
    omega

theorem to_size_t_nonneg (x : Int) (h0 : 0 ≤ x) (h1 : x < 2 ^ 64) : to_size_t x = x.toNat := by
  unfold to_size_t
  rw [Int.emod_eq_of_lt h0 h1]

theorem centered_length (content : List Char) (width : Nat) :
    (centered content width).length = width := by
  unfold centered
  split_ifs with h
  · simp
  · simp only [List.length_append, List.length_replicate]
    omega

theorem text_cell_value_length (raw : List Char) (width : Nat) :
    (text.cell_value raw width).length = width := by
  unfold text.cell_value
  simp only [List.length_take]
  split_ifs with h
  · simp only [List.length_append, List.length_take, List.length_replicate]
    omega
  · simp only [List.length_take]
    omega

theorem pad_length (res : List Char) (width : Nat) (h : res.length ≤ width) :
    (if res.length < width then List.replicate (width - res.length) ' ' ++ res
      else res).length = width := by
  split_ifs with h3
  · simp only [List.length_append, List.length_replicate]
    omega
  · omega

theorem integer_cell_value_length (raw : Int) (width : Nat) (hw : 1 ≤ width)
    (hlo : -(2 : Int) ^ 63 ≤ raw) (hhi : raw < 2 ^ 63) :
    (integer.cell_value raw width).length = width := by
  have hlen := to_string_length_le_signed raw hlo hhi
  have hE : "E+".toList.length = 2 := rfl
  have hP : ".".toList.length = 1 := rfl
  unfold integer.cell_value
  generalize to_string raw = full at hlen ⊢
  simp only []
  generalize to_string ((full.length : Int) - 1) = e
  by_cases hfit : full.length ≤ width
  · rw [if_pos hfit]
    simp only [List.length_append, List.length_replicate]
    omega
  · rw [if_neg hfit]
    have h2 : (full.take 1).length = 1 := by
      rw [List.length_take]
      omega
    by_cases hneg : raw ≥ 0
    · simp only [hneg, if_true, sub_zero, List.nil_append]
      rw [to_size_t_nonneg (width : Int) (by omega) (by omega)]
      by_cases hb1 : (width : Int).toNat < 3 + e.length
      · rw [if_pos hb1, List.length_replicate]
      · rw [if_neg hb1]
        by_cases hb2 : (width : Int).toNat < 5 + e.length
        · rw [if_pos hb2]
          apply pad_length
          simp only [List.length_append, h2, hE]
          omega
        · rw [if_neg hb2, to_size_t_nonneg ((width : Int) - 4 - e.length) (by omega) (by omega)]
          have hmid : (List.take ((width : Int) - 4 - e.length).toNat (List.drop 1 full)).length =
              width - 4 - e.length := by
            rw [List.length_take, List.length_drop]
            omega
          apply pad_length
          simp only [List.length_append, h2, hmid, hE, hP]
          omega
    · simp only [hneg, if_false]
      rw [to_size_t_nonneg ((width : Int) - 1) (by omega) (by omega)]
      by_cases hb1 : ((width : Int) - 1).toNat < 3 + e.length
      · rw [if_pos hb1, List.length_replicate]
      · rw [if_neg hb1]
        by_cases hb2 : ((width : Int) - 1).toNat < 5 + e.length
        · rw [if_pos hb2]
          apply pad_length
          simp only [List.length_append, List.length_cons, List.length_nil, h2, hE]
          omega
        · rw [if_neg hb2,
            to_size_t_nonneg ((width : Int) - 1 - 4 - e.length) (by omega) (by omega)]
          have hmid : (List.take ((width : Int) - 1 - 4 - e.length).toNat
              (List.drop 1 full)).length = width - 5 - e.length := by
            rw [List.length_take, List.length_drop]
            omega
          apply pad_length
          simp only [List.length_append, List.length_cons, List.length_nil, h2, hmid, hE, hP]
          omega

/-- C36. Fixed width: for every value (an Integer in the 64-bit range of
either sign, a Text, a Boolean or an Error) and every width `w >= 1`,
`cell_value(w)` has exactly `w` characters. -/
theorem fixed_width (v : primitive) (w : Nat) (hw : 1 ≤ w)
    (hv : ∀ n, v = .integer n → -(2 : Int) ^ 63 ≤ n ∧ n < 2 ^ 63) :
    (v.cell_value w).length = w := by
  cases v with
  | integer n =>
    obtain ⟨hlo, hhi⟩ := hv n rfl
    exact integer_cell_value_length n w hw hlo hhi
  | text t => exact text_cell_value_length t w
  | boolean b => exact centered_length _ w
  | error k => exact centered_length _ w

theorem fixed_width_witness :
    1 ≤ 6 ∧ primitive.cell_value (.integer (-123456789)) 6 = " --E+9".toList ∧
      (primitive.cell_value (.integer (-123456789)) 6).length = 6 :=
  ⟨by decide, by rfl,
    fixed_width (.integer (-123456789)) 6 (by decide) (fun n h => by
      cases h
      exact ⟨by decide, by decide⟩)⟩

theorem trim_copy_length (s : List Char) : (trim_copy s).length ≤ s.length := by
  unfold trim_copy
  exact ((List.rdropWhile_prefix _ _).length_le).trans ((List.dropWhile_suffix _).length_le)

/-- The characters of an operator are neither quotes nor brackets. -/
theorem get_precedence_neutral (op : List Char) (h : get_precedence op ≠ -1) :
    ∀ c ∈ op, neutral c := by
  unfold get_precedence at h
  split_ifs at h with h1 h2 h3 h4
  · rcases h1 with rfl | rfl <;> decide
  · rcases h2 with rfl | rfl <;> decide
  · subst h3; decide
  · rcases h4 with rfl | rfl | rfl | rfl | rfl | rfl <;> decide
  · exact absurd rfl h

theorem scan_found_cons (c : Char) (rest : List Char) (i : Nat) (m : op_min)
    (h : scan_found rest (i + 1) m) : scan_found (c :: rest) i m := by
  obtain ⟨k, w, h1, h2, h3, h4, h5⟩ := h
  refine ⟨k + 1, w, ?_, ?_, h3, ?_, ?_⟩
  · rw [h1]; congr 1; omega
  · rw [h2]; congr 1; omega
  · simp only [List.length_cons]; omega
  · simpa using h5

/-- The operator scan either leaves the state it was given or ends with an
operator chosen inside the text it has read. -/
theorem scan_operator_found (l : List Char) :
    ∀ (i : Nat) (skip : Bool) (bracket_level : Int) (is_text : Bool) (m m1 : op_min),
      scan_operator l i skip bracket_level is_text m = some m1 →
      m1 = m ∨ scan_found l i m1 := by
  induction l with
  | nil =>
    intro i skip bl it m m1 h
    simp only [scan_operator, Option.some.injEq] at h
    exact Or.inl h.symm
  | cons c rest ih =>
    intro i skip bl it m m1 h
    have step : ∀ (sk : Bool) (b : Int) (t : Bool),
        scan_operator rest (i + 1) sk b t m = some m1 → m1 = m ∨ scan_found (c :: rest) i m1 := by
      intro sk b t h0
      rcases ih (i + 1) sk b t m m1 h0 with h1 | h1
      · exact Or.inl h1
      · exact Or.inr (scan_found_cons c rest i m1 h1)
    rw [scan_operator.eq_2] at h
    by_cases hskip : skip = true
    · rw [if_pos hskip] at h
      exact step _ _ _ h
    · rw [if_neg hskip] at h
      simp only [] at h
      by_cases htext : (if c = dquote then !it else it) = true
      · rw [if_pos htext] at h
        exact step _ _ _ h
      · rw [if_neg htext] at h
        by_cases h2 : bl = 0 ∧ rest ≠ [] ∧ get_precedence (c :: rest.take 1) ≠ -1 ∧
            (m.min_precedence = -1 ∨ get_precedence (c :: rest.take 1) ≤ m.min_precedence)
        · rw [if_pos h2] at h
          rcases ih (i + 1) _ _ _ _ m1 h with h1 | h1
          · right
            refine ⟨0, 2, ?_, ?_, by omega, ?_, ?_⟩
            · rw [h1]; simp
            · rw [h1]; simp
            · have : 1 ≤ rest.length := by
                cases rest with
                | nil => exact absurd rfl h2.2.1
                | cons _ _ => simp
              simp only [List.length_cons]; omega
            · have hn := get_precedence_neutral _ h2.2.2.1
              intro ch hch
              apply hn
              simp only [List.drop_zero, List.take_succ_cons, List.mem_cons] at hch
              simp only [List.mem_cons]
              exact hch
          · exact Or.inr (scan_found_cons c rest i m1 h1)
        · rw [if_neg h2] at h
          have step1 : ∀ (sk : Bool) (b : Int) (t : Bool),
              scan_operator rest (i + 1) sk b t
                (if bl = 0 ∧ get_precedence [c] ≠ -1 ∧
                    (m.min_precedence = -1 ∨ get_precedence [c] ≤ m.min_precedence) then
                  ⟨i, i + 1, get_precedence [c]⟩ else m) = some m1 →
              m1 = m ∨ scan_found (c :: rest) i m1 := by
            intro sk b t h0
            rcases ih (i + 1) sk b t _ m1 h0 with h1 | h1
            · by_cases h3 : bl = 0 ∧ get_precedence [c] ≠ -1 ∧
                  (m.min_precedence = -1 ∨ get_precedence [c] ≤ m.min_precedence)
              · rw [if_pos h3] at h1
                right
                refine ⟨0, 1, ?_, ?_, by omega, ?_, ?_⟩
                · rw [h1]; simp
                · rw [h1]; simp
                · simp only [List.length_cons]; omega
                · have hn := get_precedence_neutral _ h3.2.1
                  intro ch hch
                  apply hn
                  simp only [List.drop_zero, List.take_succ_cons, List.take_zero,
                    List.mem_singleton] at hch
                  simp only [List.mem_singleton]
                  exact hch
              · rw [if_neg h3] at h1
                exact Or.inl h1
            · exact Or.inr (scan_found_cons c rest i m1 h1)
          by_cases ho : c = '('
          · rw [if_pos ho] at h
            exact step1 _ _ _ h
          · rw [if_neg ho] at h
            by_cases hc : c = ')'
            · rw [if_pos hc] at h
              by_cases hb : bl - 1 < 0
              · rw [if_pos hb] at h
                cases h
              · rw [if_neg hb] at h
                exact step1 _ _ _ h
            · rw [if_neg hc] at h
              exact step1 _ _ _ h

/-- The operands of the operator chosen by the scan are shorter than the
scanned text. -/
theorem scan_found_operands (trimmed : List Char) (m : op_min) (h : scan_found trimmed 0 m) :
    (trimmed.take m.min_i.toNat).length < trimmed.length ∧
      (trimmed.drop m.min_j.toNat).length < trimmed.length := by
  obtain ⟨k, w, h1, h2, h3, h4, _⟩ := h
  rw [h1, h2]
  simp only [Int.toNat_ofNat, List.length_take, List.length_drop]
  omega

theorem parse_operator_fuel (p : List Char → parse_result) (str trimmed : List Char)
    (hp : ∀ t : List Char, t.length < trimmed.length → p t ≠ .out_of_fuel) :
    parse_operator p str trimmed ≠ .out_of_fuel := by
  unfold parse_operator
  rcases hscan : scan_operator trimmed 0 false 0 false ⟨-1, -1, -1⟩ with _ | m
  · simp
  · simp only []
    by_cases hpr : m.min_precedence ≠ -1
    · rw [if_pos hpr]
      have hfound : scan_found trimmed 0 m := by
        rcases scan_operator_found trimmed 0 false 0 false _ m hscan with h | h
        · rw [h] at hpr
          exact absurd rfl hpr
        · exact h
      obtain ⟨hl, hr⟩ := scan_found_operands trimmed m hfound
      have h1 := hp _ hl
      have h2 := hp _ hr
      revert h1 h2
      generalize p (trimmed.take m.min_i.toNat) = a
      generalize p (trimmed.drop m.min_j.toNat) = b
      intro h1 h2
      split_ifs <;> cases a <;> cases b <;> simp_all
    · rw [if_neg hpr]
      simp

theorem parse_bracket_fuel (p : List Char → parse_result) (trimmed : List Char)
    (hne : trimmed ≠ [])
    (hp : ∀ t : List Char, t.length < trimmed.length → p t ≠ .out_of_fuel) :
    parse_bracket p trimmed ≠ some .out_of_fuel := by
  unfold parse_bracket
  split_ifs with h
  · have hlen : ((trimmed.drop 1).take (trimmed.length - 2)).length < trimmed.length := by
      have : 1 ≤ trimmed.length := by
        cases trimmed with
        | nil => exact absurd rfl hne
        | cons _ _ => simp
      simp only [List.length_take, List.length_drop]
      omega
    have h1 := hp _ hlen
    rcases hpi : p ((trimmed.drop 1).take (trimmed.length - 2)) with e | ⟨a, msg⟩ | _
    · simp
    · simp
    · exact absurd hpi h1
  · simp

theorem parse_args_fuel (p : List Char → parse_result) (l : List (List Char))
    (hp : ∀ s ∈ l, p s ≠ .out_of_fuel) : parse_args p l ≠ .out_of_fuel := by
  induction l with
  | nil => simp [parse_args]
  | cons s rest ih =>
    have h1 := hp s (List.mem_cons_self _ _)
    have h2 := ih (fun t ht => hp t (List.mem_cons_of_mem _ ht))
    rw [parse_args]
    rcases hps : p s with e | ⟨a, msg⟩ | _
    · simp only []
      rcases hpa : parse_args p rest with es | _ | _
      · simp
      · simp
      · exact absurd hpa h2
    · simp
    · exact absurd hps h1

/-- No piece cut from a text is longer than the text. -/
theorem cut_top_level_length (rest : List Char) :
    ∀ (pre cur : List Char), ∀ piece ∈ cut_top_level pre rest cur,
      piece.length ≤ cur.length + rest.length := by
  induction rest with
  | nil =>
    intro pre cur piece h
    simp only [cut_top_level, List.mem_singleton] at h
    rw [h]
    simp
  | cons c rest ih =>
    intro pre cur piece h
    rw [cut_top_level] at h
    split_ifs at h with hc
    · simp only [List.mem_cons] at h
      rcases h with h | h
      · rw [h]; simp only [List.length_cons]; omega
      · have := ih _ _ piece h
        simp only [List.length_nil, List.length_cons] at this ⊢
        omega
    · have := ih _ _ piece h
      simp only [List.length_append, List.length_cons, List.length_nil] at this ⊢
      omega

theorem function_call_args_fuel (p : List Char → parse_result) (name : List Char)
    (l : List (List Char)) (h : parse_args p l ≠ .out_of_fuel) :
    (match parse_args p l with
      | .ok arg => some (parse_result.ok (.function name arg))
      | .failure => none
      | .out_of_fuel => some .out_of_fuel) ≠ some .out_of_fuel := by
  revert h
  generalize parse_args p l = a
  intro h
  cases a with
  | ok arg => simp
  | failure => simp
  | out_of_fuel => exact absurd rfl h

theorem parse_function_call_fuel (p : List Char → parse_result) (str trimmed : List Char)
    (hp : ∀ t : List Char, t.length < trimmed.length → p t ≠ .out_of_fuel) :
    parse_function_call p str trimmed ≠ some .out_of_fuel := by
  unfold parse_function_call
  cases trimmed with
  | nil => simp
  | cons c0 tl =>
    simp only []
    by_cases h1 : (c0 :: tl).getLast? = some ')' ∧ is_letter_or_underscore c0 = true
    · rw [if_pos h1]
      by_cases h2 : (tl.dropWhile
          (fun x => is_letter_or_underscore x || is_digit x)).head? = some '('
      · rw [if_pos h2]
        rcases hsp : split_args ((tl.dropWhile
            (fun x => is_letter_or_underscore x || is_digit x)).drop 1).dropLast 0 false [] []
          with _ | ⟨lvl, txt, str_args, cur⟩
        · simp
        · simp only []
          by_cases h3 : lvl = 0
          · rw [if_pos h3]
            obtain ⟨hcut, _⟩ := split_args_cut _ [] 0 false [] [] lvl txt str_args cur rfl hsp
            have hpieces : ∀ s ∈ str_args ++ [cur], s.length < (c0 :: tl).length := by
              intro s hs
              rw [hcut, List.nil_append] at hs
              have h4 := cut_top_level_length _ _ _ s hs
              have h5 : (tl.dropWhile
                  (fun x => is_letter_or_underscore x || is_digit x)).length ≤ tl.length :=
                (List.dropWhile_suffix _).length_le
              simp only [List.length_nil, List.length_dropLast, List.length_drop,
                List.length_cons] at h4 ⊢
              omega
            refine function_call_args_fuel p _ _ (parse_args_fuel p _ ?_)
            intro s hs
            apply hp
            apply hpieces
            by_cases hc : cur.length ≠ 0 ∧ trim_copy cur ≠ []
            · rw [if_pos hc] at hs
              exact hs
            · rw [if_neg hc] at hs
              exact List.mem_append_left _ hs
          · rw [if_neg h3]
            simp
      · rw [if_neg h2]
        simp
    · rw [if_neg h1]
      simp

/-- With more fuel than the text has characters the parser does not run out
of fuel: every recursive call is on a text shorter than the trimmed input. -/
theorem parse_fuel_total : ∀ (fuel : Nat) (s : List Char), s.length < fuel →
    parse_fuel fuel s ≠ .out_of_fuel := by
  intro fuel
  induction fuel with
  | zero => intro s h; omega
  | succ fuel ih =>
    intro s hs
    have htrim := trim_copy_length s
    have hp : ∀ t : List Char, t.length < (trim_copy s).length →
        parse_fuel fuel t ≠ .out_of_fuel := fun t ht => ih t (by omega)
    rw [parse_fuel]
    by_cases hne : trim_copy s = []
    · simp [hne]
    · have hb := parse_bracket_fuel (parse_fuel fuel) (trim_copy s) hne hp
      have hf := parse_function_call_fuel (parse_fuel fuel) s (trim_copy s) hp
      have ho := parse_operator_fuel (parse_fuel fuel) s (trim_copy s) hp
      simp only [hne, if_false]
      revert hb hf ho
      generalize parse_boolean (trim_copy s) = r1
      generalize parse_text (trim_copy s) = r2
      generalize parse_integer (trim_copy s) = r3
      generalize parse_reference (trim_copy s) = r4
      generalize parse_bracket (parse_fuel fuel) (trim_copy s) = r5
      generalize parse_function_call (parse_fuel fuel) s (trim_copy s) = r6
      generalize parse_operator (parse_fuel fuel) s (trim_copy s) = r7
      intro hb hf ho
      cases r1 <;> cases r2 <;> cases r3 <;> cases r4 <;> cases r5 <;> cases r6 <;> simp_all

theorem expression_parse_total (s : List Char) : expression.parse s ≠ .out_of_fuel :=
  parse_fuel_total (s.length + 1) s (by omega)

/-- C38. Parser termination: with any fuel above the length of the input,
and so for `expression::parse` on every input, the parser returns a tree or
fails with a `parse_exception`; it never runs out of fuel, since every
recursive call (bracket interior, argument, left and right operand) is on a
text shorter than the trimmed input. -/
theorem parser_termination (fuel : Nat) (s : List Char) (h : s.length < fuel) :
    ((∃ e, parse_fuel fuel s = .ok e) ∨ ∃ a m, parse_fuel fuel s = .parse_exception a m) ∧
      ((∃ e, expression.parse s = .ok e) ∨ ∃ a m, expression.parse s = .parse_exception a m) := by
  have h1 := parse_fuel_total fuel s h
  have h2 := expression_parse_total s
  constructor
  · rcases hp : parse_fuel fuel s with e | ⟨a, m⟩ | _
    · exact Or.inl ⟨e, rfl⟩
    · exact Or.inr ⟨a, m, rfl⟩
    · exact absurd hp h1
  · rcases hp : expression.parse s with e | ⟨a, m⟩ | _
    · exact Or.inl ⟨e, rfl⟩
    · exact Or.inr ⟨a, m, rfl⟩
    · exact absurd hp h2

theorem parser_termination_witness :
    "((1+2)*SUM(3,4))".toList.length < 17 ∧
      ((∃ e, parse_fuel 17 "((1+2)*SUM(3,4))".toList = .ok e) ∨
        ∃ a m, parse_fuel 17 "((1+2)*SUM(3,4))".toList = .parse_exception a m) :=
  ⟨by decide, (parser_termination 17 "((1+2)*SUM(3,4))".toList (by decide)).1⟩

theorem depth_step_neutral (st : Int × Bool) (c : Char) (h : neutral c) :
    depth_step st c = st := by
  obtain ⟨h1, h2, h3⟩ := h
  obtain ⟨d, b⟩ := st
  cases b <;> simp [depth_step, h1, h2, h3]

theorem depth_step_shift (d k : Int) (b : Bool) (c : Char) :
    depth_step (d + k, b) c = ((depth_step (d, b) c).1 + k, (depth_step (d, b) c).2) := by
  unfold depth_step
  simp only []
  split_ifs <;> simp <;> omega

theorem foldl_depth_shift (s : List Char) : ∀ (d k : Int) (b : Bool),
    s.foldl depth_step (d + k, b) =
      ((s.foldl depth_step (d, b)).1 + k, (s.foldl depth_step (d, b)).2) := by
  induction s with
  | nil => intro d k b; rfl
  | cons c rest ih =>
    intro d k b
    simp only [List.foldl_cons]
    rw [depth_step_shift, ih]

theorem never_negative_shift (s : List Char) : ∀ (d k : Int) (b : Bool), 0 ≤ k →
    never_negative (d, b) s = true → never_negative (d + k, b) s = true := by
  induction s with
  | nil => intro d k b _ _; rfl
  | cons c rest ih =>
    intro d k b hk h
    simp only [never_negative, Bool.and_eq_true, decide_eq_true_eq] at h ⊢
    rw [depth_step_shift]
    exact ⟨by simp only []; omega, ih _ k _ hk h.2⟩

theorem never_negative_append (s t : List Char) : ∀ st : Int × Bool,
    never_negative st (s ++ t) =
      (never_negative st s && never_negative (s.foldl depth_step st) t) := by
  induction s with
  | nil => intro st; simp [never_negative]
  | cons c rest ih =>
    intro st
    rw [List.cons_append, never_negative, never_negative, ih, List.foldl_cons, Bool.and_assoc]

theorem never_negative_neutral (s : List Char) (hs : ∀ c ∈ s, neutral c) :
    ∀ st : Int × Bool, 0 ≤ st.1 → never_negative st s = true := by
  induction s with
  | nil => intro st _; rfl
  | cons c rest ih =>
    intro st h0
    have hc := depth_step_neutral st c (hs c (List.mem_cons_self _ _))
    simp only [never_negative, hc, Bool.and_eq_true, decide_eq_true_eq]
    exact ⟨h0, ih (fun x hx => hs x (List.mem_cons_of_mem _ hx)) st h0⟩

theorem foldl_depth_neutral (s : List Char) (hs : ∀ c ∈ s, neutral c) :
    ∀ st : Int × Bool, s.foldl depth_step st = st := by
  induction s with
  | nil => intro st; rfl
  | cons c rest ih =>
    intro st
    rw [List.foldl_cons, depth_step_neutral st c (hs c (List.mem_cons_self _ _))]
    exact ih (fun x hx => hs x (List.mem_cons_of_mem _ hx)) st

theorem balanced_neutral (s : List Char) (hs : ∀ c ∈ s, neutral c) : balanced s :=
  ⟨never_negative_neutral s hs _ (le_refl _), foldl_depth_neutral s hs _⟩

theorem balanced_append (s t : List Char) (hs : balanced s) (ht : balanced t) :
    balanced (s ++ t) := by
  obtain ⟨hs1, hs2⟩ := hs
  obtain ⟨ht1, ht2⟩ := ht
  unfold depth_after at hs2 ht2
  refine ⟨?_, ?_⟩
  · rw [never_negative_append, hs1, hs2, ht1]
    rfl
  · unfold depth_after
    rw [List.foldl_append, hs2, ht2]

theorem balanced_wrap (s : List Char) (hs : balanced s) : balanced ('(' :: s ++ [')']) := by
  obtain ⟨hs1, hs2⟩ := hs
  unfold depth_after at hs2
  have hopen : depth_step (0, false) '(' = (0 + 1, false) := by decide
  have hclose : depth_step (0 + 1, false) ')' = (0, false) := by decide
  have hrun : s.foldl depth_step (0 + 1, false) = (0 + 1, false) := by
    rw [foldl_depth_shift, hs2]
  refine ⟨?_, ?_⟩
  · rw [List.cons_append, never_negative, hopen, never_negative_append,
      never_negative_shift s 0 1 false (by omega) hs1, hrun, never_negative, hclose,
      never_negative]
    rfl
  · unfold depth_after
    rw [List.cons_append, List.foldl_cons, hopen, List.foldl_append, hrun, List.foldl_cons,
      hclose]
    rfl

/-- Inside quotes every character but the quote is passed over. -/
theorem foldl_depth_quoted (mid : List Char) (h : dquote ∉ mid) (d : Int) :
    mid.foldl depth_step (d, true) = (d, true) ∧
      (0 ≤ d → never_negative (d, true) mid = true) := by
  induction mid with
  | nil => exact ⟨rfl, fun _ => rfl⟩
  | cons c rest ih =>
    have hc : c ≠ dquote := fun hc => h (hc ▸ List.mem_cons_self _ _)
    have hrest : dquote ∉ rest := fun hr => h (List.mem_cons_of_mem _ hr)
    have hstep : depth_step (d, true) c = (d, true) := by simp [depth_step, hc]
    obtain ⟨h1, h2⟩ := ih hrest
    refine ⟨by rw [List.foldl_cons, hstep, h1], fun h0 => ?_⟩
    simp only [never_negative, hstep, Bool.and_eq_true, decide_eq_true_eq]
    exact ⟨h0, h2 h0⟩

theorem balanced_quoted (mid : List Char) (h : dquote ∉ mid) :
    balanced (dquote :: mid ++ [dquote]) := by
  have hopen : depth_step (0, false) dquote = (0, true) := by decide
  have hclose : depth_step (0, true) dquote = (0, false) := by decide
  obtain ⟨h1, h2⟩ := foldl_depth_quoted mid h 0
  refine ⟨?_, ?_⟩
  · rw [List.cons_append, never_negative, hopen, never_negative_append, h2 (le_refl _), h1,
      never_negative, hclose, never_negative]
    rfl
  · unfold depth_after
    rw [List.cons_append, List.foldl_cons, hopen, List.foldl_append, h1, List.foldl_cons,
      hclose]
    rfl

/-- The quote flag after a text is the parity of its number of quotes. -/
theorem foldl_depth_flag (s : List Char) : ∀ st : Int × Bool,
    (s.foldl depth_step st).2 = xor st.2 (decide (s.count dquote % 2 = 1)) := by
  induction s with
  | nil => intro st; simp
  | cons c rest ih =>
    intro st
    rw [List.foldl_cons, ih]
    obtain ⟨d, b⟩ := st
    by_cases hc : c = dquote
    · subst hc
      have h1 : (depth_step (d, b) dquote).2 = !b := by
        cases b <;> simp [depth_step]
      rw [h1, List.count_cons_self]
      by_cases hp : List.count dquote rest % 2 = 1
      · have : ¬ ((List.count dquote rest + 1) % 2 = 1) := by omega
        cases b <;> simp [hp, this]
      · have : (List.count dquote rest + 1) % 2 = 1 := by omega
        cases b <;> simp [hp, this]
    · have h1 : (depth_step (d, b) c).2 = b := by
        cases b <;> simp [depth_step, hc]
      rw [h1, List.count_cons_of_ne (Ne.symm hc)]

theorem never_negative_prefix (s : List Char) : ∀ st : Int × Bool, 0 ≤ st.1 →
    never_negative st s = true → ∀ pre, pre <+: s → 0 ≤ (pre.foldl depth_step st).1 := by
  induction s with
  | nil =>
    intro st h0 _ pre hpre
    rw [List.prefix_nil] at hpre
    rw [hpre]
    exact h0
  | cons c rest ih =>
    intro st h0 h pre hpre
    simp only [never_negative, Bool.and_eq_true, decide_eq_true_eq] at h
    cases pre with
    | nil => exact h0
    | cons c1 pre1 =>
      rw [List.cons_prefix_cons] at hpre
      obtain ⟨rfl, hp⟩ := hpre
      rw [List.foldl_cons]
      exact ih _ h.1 h.2 pre1 hp

theorem neutral_of_toNat (c : Char) (h : c.toNat ≠ 34 ∧ c.toNat ≠ 40 ∧ c.toNat ≠ 41) :
    neutral c := by
  refine ⟨fun hc => h.1 ?_, fun hc => h.2.1 ?_, fun hc => h.2.2 ?_⟩ <;> rw [hc] <;> decide

theorem isspace_neutral (c : Char) (h : isspace c = true) : neutral c := by
  apply neutral_of_toNat
  have := (isspace_iff c).mp h
  omega

theorem is_digit_neutral (c : Char) (h : is_digit c = true) : neutral c := by
  apply neutral_of_toNat
  have := (is_digit_iff c).mp h
  omega

theorem is_letter_neutral (c : Char) (h : is_letter c = true) : neutral c := by
  apply neutral_of_toNat
  have := (is_letter_iff c).mp h
  omega

theorem identifier_neutral (c : Char) (h : (is_letter_or_underscore c || is_digit c) = true) :
    neutral c := by
  apply neutral_of_toNat
  rw [Bool.or_eq_true] at h
  rcases h with h | h
  · have := (is_letter_or_underscore_iff c).mp h
    omega
  · have := (is_digit_iff c).mp h
    omega

theorem rdropWhile_append_rtakeWhile (p : Char → Bool) (l : List Char) :
    l.rdropWhile p ++ l.rtakeWhile p = l := by
  unfold List.rdropWhile List.rtakeWhile
  rw [← List.reverse_append, List.takeWhile_append_dropWhile, List.reverse_reverse]

/-- A text is its trimmed text between two runs of white space. -/
theorem trim_copy_split (s : List Char) :
    s = s.takeWhile isspace ++ (trim_copy s ++ (s.dropWhile isspace).rtakeWhile isspace) := by
  unfold trim_copy
  rw [rdropWhile_append_rtakeWhile, List.takeWhile_append_dropWhile]

theorem balanced_trim (s : List Char) (h : balanced (trim_copy s)) : balanced s := by
  rw [trim_copy_split s]
  apply balanced_append
  · exact balanced_neutral _ (fun c hc => isspace_neutral c (List.mem_takeWhile_imp hc))
  · apply balanced_append _ _ h
    exact balanced_neutral _ (fun c hc => isspace_neutral c (List.mem_rtakeWhile_imp hc))

theorem trim_copy_nil_spaces (s : List Char) (h : trim_copy s = []) : ∀ c ∈ s, neutral c := by
  unfold trim_copy at h
  rw [List.rdropWhile_eq_nil_iff] at h
  intro c hc
  have hs : s = s.takeWhile isspace ++ s.dropWhile isspace :=
    (List.takeWhile_append_dropWhile _ _).symm
  rw [hs] at hc
  rcases List.mem_append.mp hc with h1 | h1
  · exact isspace_neutral c (List.mem_takeWhile_imp h1)
  · exact isspace_neutral c (h c h1)

/-- Rule "constant" accepts texts without quotes and brackets. -/
theorem parse_boolean_neutral (t : List Char) (e : expression) (h : parse_boolean t = some e) :
    ∀ c ∈ t, neutral c := by
  have hup : t.map toupper = "TRUE".toList ∨ t.map toupper = "FALSE".toList := by
    unfold parse_boolean at h
    simp only [] at h
    split_ifs at h with h1 h2
    · exact Or.inl h1
    · exact Or.inr h2
  intro c hc
  have hmem : toupper c ∈ t.map toupper := List.mem_map_of_mem _ hc
  have hletter : 65 ≤ (toupper c).toNat ∧ (toupper c).toNat ≤ 90 := by
    rcases hup with h1 | h1
    · rw [h1] at hmem
      simp only [String.toList, List.mem_cons, List.mem_singleton, List.not_mem_nil,
        or_false] at hmem
      rcases hmem with h2 | h2 | h2 | h2 <;> rw [h2] <;> decide
    · rw [h1] at hmem
      simp only [String.toList, List.mem_cons, List.mem_singleton, List.not_mem_nil,
        or_false] at hmem
      rcases hmem with h2 | h2 | h2 | h2 | h2 <;> rw [h2] <;> decide
  apply neutral_of_toNat
  by_cases hlow : 97 ≤ c.toNat ∧ c.toNat ≤ 122
  · omega
  · rw [toupper_of_not_lower c hlow] at hletter
    omega

/-- Rule "string" accepts a quoted text without a quote inside. -/
theorem parse_text_balanced (t : List Char) (e : expression) (h : parse_text t = some e) :
    balanced t := by
  unfold parse_text at h
  split_ifs at h with hc
  obtain ⟨h1, h2, h3⟩ := hc
  cases t with
  | nil => simp at h1
  | cons c0 tl =>
    simp only [List.head?_cons, Option.some.injEq] at h1
    subst h1
    rw [List.count_cons_self] at h3
    have hcount : tl.count dquote = 1 := by omega
    have htl : tl ≠ [] := by
      intro hnil
      rw [hnil] at hcount
      simp at hcount
    have hlast : tl.getLast? = some dquote := by
      cases tl with
      | nil => exact absurd rfl htl
      | cons c1 tl1 =>
        rw [List.getLast?_cons_cons] at h2
        exact h2
    obtain ⟨mid, hmid⟩ := List.getLast?_eq_some_iff.mp hlast
    subst hmid
    rw [List.count_append, List.count_singleton_self] at hcount
    have hnot : dquote ∉ mid := by
      rw [← List.count_eq_zero]
      omega
    exact balanced_quoted mid hnot

/-- A text that `strtol` reads to its end consists of white space, a sign
and digits. -/
theorem strto_whole_neutral (lo hi : Int) (s : List Char) (v : Int)
    (h : strto lo hi s = some (v, s.length)) : ∀ c ∈ s, neutral c := by
  unfold strto at h
  simp only [] at h
  have h1 : s = s.takeWhile isspace ++ s.dropWhile isspace :=
    (List.takeWhile_append_dropWhile _ _).symm
  have l1 := congrArg List.length h1
  by_cases hsg : (List.dropWhile isspace s).head? = some '-' ∨
      (List.dropWhile isspace s).head? = some '+'
  · simp only [hsg, if_true] at h
    have hlen : (s.takeWhile isspace).length + 1 +
        (((s.dropWhile isspace).drop 1).takeWhile is_digit).length = s.length := by
      split_ifs at h <;> exact (Prod.mk.inj (Option.some.inj h)).2
    have h2 : s.dropWhile isspace = (s.dropWhile isspace).take 1 ++
        (s.dropWhile isspace).drop 1 := (List.take_append_drop _ _).symm
    have h3 : (s.dropWhile isspace).drop 1 =
        ((s.dropWhile isspace).drop 1).takeWhile is_digit ++
          ((s.dropWhile isspace).drop 1).dropWhile is_digit :=
      (List.takeWhile_append_dropWhile _ _).symm
    have l2 := congrArg List.length h2
    have l3 := congrArg List.length h3
    simp only [List.length_append, List.length_take] at l1 l2 l3
    have hrest : ((s.dropWhile isspace).drop 1).dropWhile is_digit = [] := by
      apply List.eq_nil_of_length_eq_zero
      omega
    rw [hrest, List.append_nil] at h3
    intro c hc
    rw [h1] at hc
    rcases List.mem_append.mp hc with hc1 | hc1
    · exact isspace_neutral c (List.mem_takeWhile_imp hc1)
    · rw [h2] at hc1
      rcases List.mem_append.mp hc1 with hc2 | hc2
      · cases hsd : s.dropWhile isspace with
        | nil => rw [hsd] at hc2; simp at hc2
        | cons c1 tl =>
          rw [hsd] at hc2 hsg
          simp only [List.take_succ_cons, List.take_zero, List.mem_singleton] at hc2
          simp only [List.head?_cons, Option.some.injEq] at hsg
          rw [hc2]
          rcases hsg with hsg | hsg <;> rw [hsg] <;> decide
      · rw [h3] at hc2
        exact is_digit_neutral c (List.mem_takeWhile_imp hc2)
  · simp only [hsg, if_false, List.drop_zero, add_zero] at h
    have hlen : (s.takeWhile isspace).length +
        ((s.dropWhile isspace).takeWhile is_digit).length = s.length := by
      split_ifs at h <;> exact (Prod.mk.inj (Option.some.inj h)).2
    have h3 : s.dropWhile isspace =
        (s.dropWhile isspace).takeWhile is_digit ++
          (s.dropWhile isspace).dropWhile is_digit :=
      (List.takeWhile_append_dropWhile _ _).symm
    have l3 := congrArg List.length h3
    simp only [List.length_append] at l1 l3
    have hrest : (s.dropWhile isspace).dropWhile is_digit = [] := by
      apply List.eq_nil_of_length_eq_zero
      omega
    rw [hrest, List.append_nil] at h3
    intro c hc
    rw [h1] at hc
    rcases List.mem_append.mp hc with hc1 | hc1
    · exact isspace_neutral c (List.mem_takeWhile_imp hc1)
    · rw [h3] at hc1
      exact is_digit_neutral c (List.mem_takeWhile_imp hc1)

/-- Rule "integer" accepts texts without quotes and brackets. -/
theorem parse_integer_neutral (t : List Char) (e : expression) (h : parse_integer t = some e) :
    ∀ c ∈ t, neutral c := by
  unfold parse_integer at h
  rcases hst : stoll t with _ | ⟨v, size⟩
  · rw [hst] at h
    cases h
  · rw [hst] at h
    simp only [] at h
    split_ifs at h with hsz
    have hsz2 : size = t.length := by
      by_contra hne
      exact hsz hne
    rw [hsz2] at hst
    exact strto_whole_neutral _ _ t v hst

theorem row_from_code_neutral (code : List Char) (r : Int)
    (h : row_reference.from_code code = some r) : ∀ c ∈ code, neutral c := by
  unfold row_reference.from_code at h
  split_ifs at h with h0
  rcases hst : stoi code with _ | ⟨v, parsed⟩
  · rw [hst] at h
    cases h
  · rw [hst] at h
    simp only [] at h
    split_ifs at h with hp hneg
    have hp2 : parsed = code.length := by
      by_contra hne
      exact hp hne
    rw [hp2] at hst
    exact strto_whole_neutral _ _ code v hst

/-- Rule "reference" accepts texts without quotes and brackets. -/
theorem parse_reference_neutral (t : List Char) (e : expression)
    (h : parse_reference t = some e) : ∀ c ∈ t, neutral c := by
  unfold parse_reference at h
  rcases hfc : cell_reference.from_code t with _ | ref
  · rw [hfc] at h
    cases h
  · unfold cell_reference.from_code at hfc
    rcases hh : t.head? with _ | c0
    · rw [hh] at hfc
      cases hfc
    · rw [hh] at hfc
      simp only [] at hfc
      split_ifs at hfc with h1 h2
      rcases hrow : row_reference.from_code (List.dropWhile is_letter t) with _ | r
      · rw [hrow] at hfc
        cases hfc
      · have hn := row_from_code_neutral _ r hrow
        intro c hc
        rw [← List.takeWhile_append_dropWhile is_letter t] at hc
        rcases List.mem_append.mp hc with hc1 | hc1
        · exact is_letter_neutral c (List.mem_takeWhile_imp hc1)
        · exact hn c hc1

/-- Rule "bracket" returns the tree of the text between the brackets. -/
theorem parse_bracket_ok (p : List Char → parse_result) (t : List Char) (e : expression)
    (h : parse_bracket p t = some (.ok e)) :
    ∃ inner, t = '(' :: inner ++ [')'] ∧ p inner = .ok e := by
  unfold parse_bracket at h
  split_ifs at h with hc
  obtain ⟨h1, h2⟩ := hc
  cases t with
  | nil => simp at h1
  | cons c0 tl =>
    simp only [List.head?_cons, Option.some.injEq] at h1
    subst h1
    have htl : tl ≠ [] := by
      intro hnil
      rw [hnil] at h2
      simp at h2
    have hlast : tl.getLast? = some ')' := by
      cases tl with
      | nil => exact absurd rfl htl
      | cons c1 tl1 =>
        rw [List.getLast?_cons_cons] at h2
        exact h2
    obtain ⟨inner, hinner⟩ := List.getLast?_eq_some_iff.mp hlast
    subst hinner
    refine ⟨inner, rfl, ?_⟩
    have hin : (List.take (('(' :: (inner ++ [')'])).length - 2)
        (List.drop 1 ('(' :: (inner ++ [')'])))) = inner := by
      simp
    rw [hin] at h
    rcases hp : p inner with e1 | ⟨a, m⟩ | _
    · rw [hp] at h
      simp only [Option.some.injEq, parse_result.ok.injEq] at h
      rw [h]
    · rw [hp] at h
      cases h
    · rw [hp] at h
      cases h

theorem parse_args_ok (p : List Char → parse_result) (l : List (List Char)) :
    ∀ es, parse_args p l = .ok es → ∀ s ∈ l, ∃ e, p s = .ok e := by
  induction l with
  | nil => intro es _ s hs; simp at hs
  | cons s0 rest ih =>
    intro es h s hs
    rw [parse_args] at h
    rcases hp : p s0 with e1 | ⟨a, m⟩ | _
    · rw [hp] at h
      simp only [] at h
      rcases hpa : parse_args p rest with es1 | _ | _
      · rcases List.mem_cons.mp hs with h1 | h1
        · exact ⟨e1, h1 ▸ hp⟩
        · exact ih es1 hpa s h1
      · rw [hpa] at h
        cases h
      · rw [hpa] at h
        cases h
    · rw [hp] at h
      cases h
    · rw [hp] at h
      cases h

theorem depth_step_outside (lvl : Int) (txt : Bool) (c : Char)
    (htf : (if c = dquote then !txt else txt) = false) :
    depth_step (lvl, txt) c =
      (if c = '(' then lvl + 1 else if c = ')' then lvl - 1 else lvl, false) := by
  unfold depth_step
  simp only []
  rw [htf]
  simp

/-- One step of the comma-splitting loop: its depth and quote flag move as
in `depth_step`, a closing bracket below depth 0 stops it, and the quote
flag stays the parity of the quotes in the piece being collected. -/
theorem split_args_step (c : Char) (rest : List Char) (lvl : Int) (txt : Bool)
    (args : List (List Char)) (cur : List Char) (r : Int × Bool × List (List Char) × List Char)
    (h : split_args (c :: rest) lvl txt args cur = some r) :
    ∃ args1 cur1, split_args rest (depth_step (lvl, txt) c).1 (depth_step (lvl, txt) c).2
        args1 cur1 = some r ∧
      (0 ≤ lvl → 0 ≤ (depth_step (lvl, txt) c).1) ∧
      (txt = decide (cur.count dquote % 2 = 1) →
        (depth_step (lvl, txt) c).2 = decide (cur1.count dquote % 2 = 1)) := by
  rw [split_args] at h
  simp only [] at h
  have hpar : ∀ b : Bool, b = decide (cur.count dquote % 2 = 1) →
      (if c = dquote then !b else b) = decide ((cur ++ [c]).count dquote % 2 = 1) := by
    intro b hb
    rw [List.count_append]
    by_cases hc : c = dquote
    · subst hc
      rw [if_pos rfl, hb, List.count_singleton_self]
      by_cases hp : cur.count dquote % 2 = 1
      · have : ¬ ((cur.count dquote + 1) % 2 = 1) := by omega
        simp [hp, this]
      · have : (cur.count dquote + 1) % 2 = 1 := by omega
        simp [hp, this]
    · rw [if_neg hc, hb]
      have : List.count dquote [c] = 0 := by
        rw [List.count_eq_zero]
        simp [Ne.symm hc]
      rw [this, add_zero]
  by_cases htext : (if c = dquote then !txt else txt) = true
  · rw [if_pos htext] at h
    have hstep : depth_step (lvl, txt) c = (lvl, true) := by
      simp only [depth_step, htext, if_true]
    refine ⟨args, cur ++ [c], by rw [hstep]; rw [htext] at h; exact h, fun h0 => by rw [hstep]; exact h0,
      fun hb => ?_⟩
    rw [hstep, ← hpar txt hb]
    exact htext.symm
  · rw [if_neg htext] at h
    have htf : (if c = dquote then !txt else txt) = false := by
      cases hx : (if c = dquote then !txt else txt)
      · rfl
      · exact absurd hx htext
    by_cases ho : c = '('
    · rw [if_pos ho] at h
      have hstep : depth_step (lvl, txt) c = (lvl + 1, false) := by
        rw [depth_step_outside _ _ _ htf, if_pos ho]
      have hcomma : ¬ (lvl = 0 ∧ c = ',') := by
        rw [ho]
        intro hx
        exact absurd hx.2 (by decide)
      rw [if_neg hcomma, if_neg hcomma, htf] at h
      refine ⟨args, cur ++ [c], by rw [hstep]; exact h, fun h0 => by rw [hstep]; simp only []; omega,
        fun hb => ?_⟩
      rw [hstep, ← hpar txt hb, htf]
    · rw [if_neg ho] at h
      by_cases hc : c = ')'
      · rw [if_pos hc] at h
        by_cases hneg : lvl - 1 < 0
        · rw [if_pos hneg] at h
          cases h
        · rw [if_neg hneg] at h
          have hstep : depth_step (lvl, txt) c = (lvl - 1, false) := by
            rw [depth_step_outside _ _ _ htf, if_neg ho, if_pos hc]
          have hcomma : ¬ (lvl = 0 ∧ c = ',') := by
            rw [hc]
            intro hx
            exact absurd hx.2 (by decide)
          rw [if_neg hcomma, if_neg hcomma, htf] at h
          refine ⟨args, cur ++ [c], by rw [hstep]; exact h,
            fun h0 => by rw [hstep]; simp only []; omega, fun hb => ?_⟩
          rw [hstep, ← hpar txt hb, htf]
      · rw [if_neg hc] at h
        have hstep : depth_step (lvl, txt) c = (lvl, false) := by
          rw [depth_step_outside _ _ _ htf, if_neg ho, if_neg hc]
        rw [htf] at h
        by_cases hcomma : lvl = 0 ∧ c = ','
        · rw [if_pos hcomma, if_pos hcomma] at h
          refine ⟨args ++ [cur], [], by rw [hstep]; exact h, fun h0 => by rw [hstep]; exact h0,
            fun _ => ?_⟩
          rw [hstep]
          simp
        · rw [if_neg hcomma, if_neg hcomma] at h
          refine ⟨args, cur ++ [c], by rw [hstep]; exact h, fun h0 => by rw [hstep]; exact h0,
            fun hb => ?_⟩
          rw [hstep, ← hpar txt hb, htf]

/-- A run of the comma-splitting loop that does not stop on a bracket never
goes below depth 0, and ends with the parity of the quotes of its last
piece as quote flag. -/
theorem split_args_run (rest : List Char) :
    ∀ (lvl : Int) (txt : Bool) (args : List (List Char)) (cur : List Char)
      (lvl1 : Int) (txt1 : Bool) (args1 : List (List Char)) (cur1 : List Char),
      split_args rest lvl txt args cur = some (lvl1, txt1, args1, cur1) → 0 ≤ lvl →
      txt = decide (cur.count dquote % 2 = 1) →
      never_negative (lvl, txt) rest = true ∧ txt1 = decide (cur1.count dquote % 2 = 1) := by
  induction rest with
  | nil =>
    intro lvl txt args cur lvl1 txt1 args1 cur1 h _ hb
    simp only [split_args, Option.some.injEq, Prod.mk.injEq] at h
    obtain ⟨_, rfl, _, rfl⟩ := h
    exact ⟨rfl, hb⟩
  | cons c rest ih =>
    intro lvl txt args cur lvl1 txt1 args1 cur1 h h0 hb
    obtain ⟨args2, cur2, hrec, hd, hq⟩ := split_args_step c rest lvl txt args cur _ h
    obtain ⟨hn, hfin⟩ := ih _ _ args2 cur2 lvl1 txt1 args1 cur1 hrec (hd h0) (hq hb)
    refine ⟨?_, hfin⟩
    rw [never_negative]
    simp only [Bool.and_eq_true, decide_eq_true_eq]
    exact ⟨hd h0, hn⟩

theorem function_call_args_ok (p : List Char → parse_result) (name : List Char)
    (l : List (List Char)) (e : expression)
    (h : (match parse_args p l with
      | .ok arg => some (parse_result.ok (.function name arg))
      | .failure => none
      | .out_of_fuel => some .out_of_fuel) = some (.ok e)) :
    ∃ es, parse_args p l = .ok es := by
  revert h
  generalize parse_args p l = a
  intro h
  cases a with
  | ok arg => exact ⟨arg, rfl⟩
  | failure => cases h
  | out_of_fuel => cases h

/-- Rule "function call" accepts balanced texts, when the parser of the
arguments does. -/
theorem parse_function_call_balanced (p : List Char → parse_result) (str t : List Char)
    (e : expression) (h : parse_function_call p str t = some (.ok e))
    (hp : ∀ u e1, p u = .ok e1 → balanced u) : balanced t := by
  unfold parse_function_call at h
  cases t with
  | nil => cases h
  | cons c0 tl =>
    simp only [] at h
    by_cases h1 : (c0 :: tl).getLast? = some ')' ∧ is_letter_or_underscore c0 = true
    · rw [if_pos h1] at h
      by_cases h2 : (tl.dropWhile
          (fun x => is_letter_or_underscore x || is_digit x)).head? = some '('
      · rw [if_pos h2] at h
        rcases hsp : split_args ((tl.dropWhile
            (fun x => is_letter_or_underscore x || is_digit x)).drop 1).dropLast 0 false [] []
          with _ | ⟨lvl, txt, str_args, cur⟩
        · rw [hsp] at h
          cases h
        · rw [hsp] at h
          simp only [] at h
          by_cases h3 : lvl = 0
          · rw [if_pos h3] at h
            subst h3
            -- the shape of the text
            have hsplit := List.takeWhile_append_dropWhile
              (fun x => is_letter_or_underscore x || is_digit x) tl
            rcases hafter : tl.dropWhile
                (fun x => is_letter_or_underscore x || is_digit x) with _ | ⟨c1, after⟩
            · rw [hafter] at h2
              simp at h2
            · rw [hafter] at h2 hsp hsplit
              simp only [List.head?_cons, Option.some.injEq] at h2
              subst h2
              have hlast0 : (c0 :: tl).getLast? = some ')' := h1.1
              rw [← hsplit] at hlast0
              have hlast1 : ('(' :: after).getLast? = some ')' := by
                have hne : ('(' :: after) ≠ [] := by simp
                rw [← List.cons_append, List.getLast?_append_of_ne_nil _ hne] at hlast0
                exact hlast0
              have hane : after ≠ [] := by
                intro hnil
                rw [hnil] at hlast1
                simp at hlast1
              have hlast2 : after.getLast? = some ')' := by
                cases after with
                | nil => exact absurd rfl hane
                | cons c2 a2 =>
                  rw [List.getLast?_cons_cons] at hlast1
                  exact hlast1
              obtain ⟨inner, hinner⟩ := List.getLast?_eq_some_iff.mp hlast2
              subst hinner
              have hin : (List.drop 1 ('(' :: (inner ++ [')']))).dropLast = inner := by
                simp
              rw [hin] at hsp
              -- the inner text is balanced
              obtain ⟨hnn, hflag⟩ := split_args_run inner 0 false [] [] 0 txt str_args cur hsp
                (le_refl _) (by simp)
              obtain ⟨hcut, hdepth⟩ := split_args_cut inner [] 0 false [] [] 0 txt str_args cur
                rfl hsp
              rw [List.nil_append] at hdepth
              obtain ⟨es, hes⟩ := function_call_args_ok p _ _ e h
              have htxt : txt = false := by
                by_cases hc : cur.length ≠ 0 ∧ trim_copy cur ≠ []
                · rw [if_pos hc] at hes
                  obtain ⟨e1, he1⟩ := parse_args_ok p _ es hes cur
                    (List.mem_append_right _ (List.mem_singleton_self _))
                  have hbal := (hp cur e1 he1).2
                  unfold depth_after at hbal
                  have hfl := foldl_depth_flag cur (0, false)
                  rw [hbal] at hfl
                  simp only [Bool.false_xor] at hfl
                  rw [hflag, ← hfl]
                · have hcount : cur.count dquote = 0 := by
                    rw [List.count_eq_zero]
                    by_cases hlen : cur.length ≠ 0
                    · have htr : trim_copy cur = [] := by
                        by_contra hne
                        exact hc ⟨hlen, hne⟩
                      intro hmem
                      exact (trim_copy_nil_spaces cur htr dquote hmem).1 rfl
                    · have : cur = [] := List.eq_nil_of_length_eq_zero (by omega)
                      rw [this]
                      simp
                  rw [hflag, hcount]
                  simp
              have hbal_inner : balanced inner := ⟨hnn, by rw [hdepth, htxt]⟩
              have hname : ∀ c ∈ c0 :: tl.takeWhile
                  (fun x => is_letter_or_underscore x || is_digit x), neutral c := by
                intro c hc
                rcases List.mem_cons.mp hc with hc1 | hc1
                · rw [hc1]
                  apply identifier_neutral
                  rw [h1.2]
                  rfl
                · have hc2 := List.mem_takeWhile_imp hc1
                  exact identifier_neutral c hc2
              have hshape : c0 :: tl = (c0 :: tl.takeWhile
                  (fun x => is_letter_or_underscore x || is_digit x)) ++
                  ('(' :: inner ++ [')']) := by
                rw [List.cons_append, List.cons_append, hsplit]
              rw [hshape]
              exact balanced_append _ _ (balanced_neutral _ hname) (balanced_wrap inner hbal_inner)
          · rw [if_neg h3] at h
            cases h
      · rw [if_neg h2] at h
        cases h
    · rw [if_neg h1] at h
      cases h

/-- Rule "operator" accepts balanced texts, when the parser of the operands
does. -/
theorem parse_operator_balanced (p : List Char → parse_result) (str t : List Char)
    (e : expression) (h : parse_operator p str t = .ok e)
    (hp : ∀ u e1, p u = .ok e1 → balanced u) : balanced t := by
  unfold parse_operator at h
  rcases hscan : scan_operator t 0 false 0 false ⟨-1, -1, -1⟩ with _ | m
  · rw [hscan] at h
    cases h
  · rw [hscan] at h
    simp only [] at h
    by_cases hpr : m.min_precedence ≠ -1
    · rw [if_pos hpr] at h
      have hfound : scan_found t 0 m := by
        rcases scan_operator_found t 0 false 0 false _ m hscan with h0 | h0
        · rw [h0] at hpr
          exact absurd rfl hpr
        · exact h0
      obtain ⟨k, w, hi, hj, hw, hkw, hneutral⟩ := hfound
      have hik : m.min_i.toNat = k := by
        rw [hi, Int.toNat_ofNat]
        omega
      have hjk : m.min_j.toNat = k + w := by
        rw [hj, Int.toNat_ofNat]
        omega
      have hwk : (m.min_j - m.min_i).toNat = w := by
        rw [hi, hj]
        have : (((0 + k + w : Nat) : Int) - ((0 + k : Nat) : Int)) = (w : Int) := by
          push_cast
          omega
        rw [this, Int.toNat_ofNat]
      rw [hik, hjk, hwk] at h
      have hshape : t = t.take k ++ ((t.drop k).take w ++ t.drop (k + w)) := by
        have h1 : (t.drop k).take w ++ t.drop (k + w) = t.drop k := by
          rw [← List.drop_drop]
          exact List.take_append_drop w (t.drop k)
        rw [h1, List.take_append_drop]
      have hop : balanced ((t.drop k).take w) := balanced_neutral _ hneutral
      by_cases hun : is_unary ((t.drop k).take w) = true ∧ trim_copy (t.take k) = []
      · rw [if_neg (not_not.mpr hun)] at h
        rcases hr : p (t.drop (k + w)) with er | ⟨a, msg⟩ | _
        · rw [hshape]
          exact balanced_append _ _ (balanced_neutral _ (trim_copy_nil_spaces _ hun.2))
            (balanced_append _ _ hop (hp _ er hr))
        · rw [hr] at h
          cases h
        · rw [hr] at h
          cases h
      · rw [if_pos hun] at h
        rcases hl : p (t.take k) with el | ⟨a, msg⟩ | _
        · rw [hl] at h
          simp only [] at h
          rcases hr : p (t.drop (k + w)) with er | ⟨a, msg⟩ | _
          · rw [hshape]
            exact balanced_append _ _ (hp _ el hl) (balanced_append _ _ hop (hp _ er hr))
          · rw [hr] at h
            cases h
          · rw [hr] at h
            cases h
        · rw [hl] at h
          cases h
        · rw [hl] at h
          cases h
    · rw [if_neg hpr] at h
      cases h

/-- Every text accepted by the parser is balanced. -/
theorem parse_fuel_balanced : ∀ (fuel : Nat) (s : List Char) (e : expression),
    parse_fuel fuel s = .ok e → balanced s := by
  intro fuel
  induction fuel with
  | zero => intro s e h; cases h
  | succ fuel ih =>
    intro s e h
    apply balanced_trim
    rw [parse_fuel] at h
    by_cases hne : trim_copy s = []
    · rw [if_pos hne] at h
      cases h
    · rw [if_neg hne] at h
      rcases h1 : parse_boolean (trim_copy s) with _ | e1
      · rcases h2 : parse_text (trim_copy s) with _ | e2
        · rcases h3 : parse_integer (trim_copy s) with _ | e3
          · rcases h4 : parse_reference (trim_copy s) with _ | e4
            · rcases h5 : parse_bracket (parse_fuel fuel) (trim_copy s) with _ | r5
              · rcases h6 : parse_function_call (parse_fuel fuel) s (trim_copy s) with _ | r6
                · simp only [h1, h2, h3, h4, h5, h6] at h
                  exact parse_operator_balanced _ s _ e h ih
                · simp only [h1, h2, h3, h4, h5, h6] at h
                  rw [h] at h6
                  exact parse_function_call_balanced _ s _ e h6 ih
              · simp only [h1, h2, h3, h4, h5] at h
                rw [h] at h5
                obtain ⟨inner, hin, hpi⟩ := parse_bracket_ok _ _ e h5
                rw [hin]
                exact balanced_wrap inner (ih inner e hpi)
            · exact balanced_neutral _ (parse_reference_neutral _ e4 h4)
          · exact balanced_neutral _ (parse_integer_neutral _ e3 h3)
        · exact parse_text_balanced _ e2 h2
      · exact balanced_neutral _ (parse_boolean_neutral _ e1 h1)

/-- C40. Accepted formulas are bracket-balanced: when `expression::parse`
succeeds on `s`, then reading `s` from the left, with a quote flag toggled
at each double quote and the bracket depth counted outside quotes, the depth
is never negative after a prefix of `s` and is 0 at the end, outside quotes;
and the number of double quotes of `s` is even. -/
theorem accepted_formulas_balanced (s : List Char) (e : expression)
    (h : expression.parse s = .ok e) :
    (∀ pre, pre <+: s → 0 ≤ (depth_after pre).1) ∧ depth_after s = (0, false) ∧
      s.count dquote % 2 = 0 := by
  obtain ⟨h1, h2⟩ := parse_fuel_balanced _ s e h
  refine ⟨fun pre hpre => never_negative_prefix s (0, false) (le_refl _) h1 pre hpre, h2, ?_⟩
  have hfl := foldl_depth_flag s (0, false)
  unfold depth_after at h2
  rw [h2] at hfl
  simp only [Bool.false_xor] at hfl
  have : ¬ (s.count dquote % 2 = 1) := by
    intro hc
    rw [hc] at hfl
    simp at hfl
  omega

theorem accepted_formulas_balanced_witness :
    expression.parse "SUM((1+2),3)".toList =
        .ok (.function "SUM".toList [.function "+".toList [.prim (.integer 1),
          .prim (.integer 2)], .prim (.integer 3)]) ∧
      depth_after "SUM((1+2),3)".toList = (0, false) ∧
      "SUM((1+2),3)".toList.count dquote % 2 = 0 :=
  ⟨by rfl, (accepted_formulas_balanced "SUM((1+2),3)".toList _ (by rfl)).2⟩

theorem frozen_refl (g : grid) : frozen g g := fun _ _ => ⟨rfl, fun _ => rfl⟩

theorem frozen_trans {g g1 g2 : grid} (h1 : frozen g g1) (h2 : frozen g1 g2) : frozen g g2 := by
  intro r c
  obtain ⟨a1, b1⟩ := h1 r c
  obtain ⟨a2, b2⟩ := h2 r c
  refine ⟨a2.trans a1, fun h => ?_⟩
  have e1 := b1 h
  rw [b2 (by rw [e1]; exact h), e1]

/-- Writing a cell that was pending, without changing its raw text, gives a
later state. -/
theorem frozen_set {g g1 : grid} (r c : Nat) (x : cell) (h : frozen g g1)
    (hp : (g r c).calculation_state = .pending) (hx : x.raw = (g r c).raw) :
    frozen g (g1.set r c x) := by
  intro r1 c1
  by_cases he : r1 = r ∧ c1 = c
  · obtain ⟨rfl, rfl⟩ := he
    rw [grid_set_same]
    exact ⟨hx, fun hn => absurd hp hn⟩
  · rw [grid_set_other _ _ _ _ _ _ he]
    exact h r1 c1

theorem arg_evaluate_frozen (ev : evaluator) (hev : ∀ g e, frozen g (ev g e).2)
    (arg : List expression) : ∀ g, frozen g (arg_evaluate ev g arg).2 := by
  induction arg with
  | nil => intro g; exact frozen_refl g
  | cons e rest ih =>
    intro g
    rw [arg_evaluate]
    have h1 := hev g e
    rcases hx : ev g e with ⟨_ | v, g1⟩
    · rw [hx] at h1
      exact h1
    · rw [hx] at h1
      have h2 := ih g1
      simp only []
      rcases hy : arg_evaluate ev g1 rest with ⟨_ | vs, g2⟩
      · rw [hy] at h2
        exact frozen_trans h1 h2
      · rw [hy] at h2
        exact frozen_trans h1 h2

theorem op_add_grid (ev : evaluator) (g : grid) (arg : List expression) :
    (function.op_add ev g arg).2 = (arg_evaluate ev g arg).2 := by
  unfold function.op_add
  rcases arg_evaluate ev g arg with ⟨_ | evaluated, g1⟩
  · rfl
  · simp only []
    repeat' split
    all_goals rfl

theorem op_minus_grid (ev : evaluator) (g : grid) (arg : List expression) :
    (function.op_minus ev g arg).2 = (arg_evaluate ev g arg).2 := by
  unfold function.op_minus
  rcases arg_evaluate ev g arg with ⟨_ | evaluated, g1⟩
  · rfl
  · simp only []
    repeat' split
    all_goals rfl

theorem op_multiply_grid (ev : evaluator) (g : grid) (arg : List expression) :
    (function.op_multiply ev g arg).2 = g ∨
      (function.op_multiply ev g arg).2 = (arg_evaluate ev g arg).2 := by
  unfold function.op_multiply
  split_ifs
  · exact Or.inl rfl
  · right
    rcases arg_evaluate ev g arg with ⟨_ | evaluated, g1⟩
    · rfl
    · simp only []
      repeat' split
      all_goals rfl

theorem op_divide_grid (ev : evaluator) (g : grid) (arg : List expression) :
    (function.op_divide ev g arg).2 = g ∨
      (function.op_divide ev g arg).2 = (arg_evaluate ev g arg).2 := by
  unfold function.op_divide
  split_ifs
  · exact Or.inl rfl
  · right
    rcases arg_evaluate ev g arg with ⟨_ | evaluated, g1⟩
    · rfl
    · simp only []
      repeat' split
      all_goals rfl

theorem op_concat_grid (ev : evaluator) (g : grid) (arg : List expression) :
    (function.op_concat ev g arg).2 = g ∨
      (function.op_concat ev g arg).2 = (arg_evaluate ev g arg).2 := by
  unfold function.op_concat
  split_ifs
  · exact Or.inl rfl
  · right
    rcases arg_evaluate ev g arg with ⟨_ | evaluated, g1⟩
    · rfl
    · simp only []
      repeat' split
      all_goals rfl

theorem equality_operator_grid (ci : Int → Int → Bool) (ct : List Char → List Char → Bool)
    (cb : Bool → Bool → Bool) (ev : evaluator) (g : grid) (arg : List expression) :
    (function.equality_operator ci ct cb ev g arg).2 = (arg_evaluate ev g arg).2 := by
  unfold function.equality_operator
  rcases arg_evaluate ev g arg with ⟨_ | evaluated, g1⟩
  · rfl
  · simp only []
    repeat' split
    all_goals rfl

theorem sum_loop_frozen (ev : evaluator) (hev : ∀ g e, frozen g (ev g e).2)
    (arg : List expression) : ∀ g ans, frozen g (function.sum_loop ev g arg ans).2 := by
  induction arg with
  | nil => intro g ans; exact frozen_refl g
  | cons e rest ih =>
    intro g ans
    rw [function.sum_loop]
    have h1 := hev g e
    rcases hx : ev g e with ⟨_ | v, g1⟩
    · rw [hx] at h1
      exact h1
    · rw [hx] at h1
      simp only []
      cases v with
      | integer n => exact frozen_trans h1 (ih g1 _)
      | text t => exact h1
      | boolean b => exact h1
      | error k => exact h1

theorem if_func_frozen (ev : evaluator) (hev : ∀ g e, frozen g (ev g e).2)
    (g : grid) (arg : List expression) : frozen g (function.if_func ev g arg).2 := by
  unfold function.if_func
  split
  · rename_i a0 a1 a2
    have h1 := hev g a0
    rcases hx : ev g a0 with ⟨_ | v, g1⟩
    · rw [hx] at h1
      exact h1
    · rw [hx] at h1
      simp only []
      cases v with
      | integer n => exact h1
      | text t => exact h1
      | boolean b =>
        cases b
        · exact frozen_trans h1 (hev g1 a2)
        · exact frozen_trans h1 (hev g1 a1)
      | error k => exact h1
  · exact frozen_refl g

theorem builtin_call_frozen (f : builtin) (ev : evaluator) (hev : ∀ g e, frozen g (ev g e).2)
    (g : grid) (arg : List expression) : frozen g (f.call ev g arg).2 := by
  have ha := arg_evaluate_frozen ev hev arg g
  cases f with
  | op_add => simp only [builtin.call]; rw [op_add_grid]; exact ha
  | op_minus => simp only [builtin.call]; rw [op_minus_grid]; exact ha
  | op_multiply =>
    simp only [builtin.call]
    rcases op_multiply_grid ev g arg with h | h <;> rw [h]
    · exact frozen_refl g
    · exact ha
  | op_divide =>
    simp only [builtin.call]
    rcases op_divide_grid ev g arg with h | h <;> rw [h]
    · exact frozen_refl g
    · exact ha
  | op_concat =>
    simp only [builtin.call]
    rcases op_concat_grid ev g arg with h | h <;> rw [h]
    · exact frozen_refl g
    · exact ha
  | op_eq => simp only [builtin.call]; rw [equality_operator_grid]; exact ha
  | op_neq => simp only [builtin.call]; rw [equality_operator_grid]; exact ha
  | op_less => simp only [builtin.call]; rw [equality_operator_grid]; exact ha
  | op_leq => simp only [builtin.call]; rw [equality_operator_grid]; exact ha
  | op_greater => simp only [builtin.call]; rw [equality_operator_grid]; exact ha
  | op_geq => simp only [builtin.call]; rw [equality_operator_grid]; exact ha
  | sum => simp only [builtin.call]; exact sum_loop_frozen ev hev arg g 0
  | if_func => simp only [builtin.call]; exact if_func_frozen ev hev g arg

/-- The calculation of a cell changes no raw text and no cell that was not
pending, whenever the evaluator it uses does not. -/
theorem calculate_frozen (ev : evaluator) (hev : ∀ g e, frozen g (ev g e).2)
    (g : grid) (r c : Nat) : frozen g (cell.calculate ev g r c).2 := by
  unfold cell.calculate
  simp only []
  cases hs : (g r c).calculation_state with
  | finished => exact frozen_refl g
  | in_progress => exact frozen_refl g
  | pending =>
    simp only []
    have h1 : frozen g (g.set r c { g r c with calculation_state := .in_progress }) :=
      frozen_set r c _ (frozen_refl g) hs rfl
    rcases hl : cell.literal (g r c).raw with _ | res
    · simp only []
      rcases hp : expression.parse ((g r c).raw.drop 1) with e | ⟨a, m⟩ | _
      · simp only [grid_set_same]
        have h2 : frozen g ((g.set r c { g r c with calculation_state := .in_progress }).set r c
            { g r c with calculation_state := .in_progress, expr := e }) :=
          frozen_set r c _ h1 hs rfl
        have h3 := hev ((g.set r c { g r c with calculation_state := .in_progress }).set r c
            { g r c with calculation_state := .in_progress, expr := e }) e
        have hraw3 := (frozen_trans h2 h3 r c).1
        rcases hx : ev ((g.set r c { g r c with calculation_state := .in_progress }).set r c
            { g r c with calculation_state := .in_progress, expr := e }) e with ⟨f | v, g3⟩
        · rw [hx] at h3 hraw3
          cases f with
          | thrown k => exact frozen_set r c _ (frozen_trans h2 h3) hs hraw3
          | parse_exception a m => exact frozen_trans h2 h3
          | fault => exact frozen_trans h2 h3
          | out_of_fuel => exact frozen_trans h2 h3
        · rw [hx] at h3 hraw3
          exact frozen_set r c _ (frozen_trans h2 h3) hs hraw3
      · exact h1
      · exact h1
    · exact frozen_set r c _ h1 hs rfl

/-- Evaluation changes no raw text and no cell that was not pending. -/
theorem evaluate_frozen : ∀ (fuel : Nat) (g : grid) (e : expression),
    frozen g (evaluate fuel g e).2 := by
  intro fuel
  induction fuel with
  | zero =>
    intro g e
    cases e <;> exact frozen_refl g
  | succ fuel ih =>
    intro g e
    cases e with
    | prim p => exact frozen_refl g
    | reference ref =>
      rw [evaluate]
      split_ifs
      · exact calculate_frozen _ ih g _ _
      · exact frozen_refl g
    | function name arg =>
      rw [evaluate]
      rcases function.lookup name with _ | f
      · exact frozen_refl g
      · exact builtin_call_frozen f _ ih g arg

theorem sweep_frozen (fuel : Nat) (l : List (Nat × Nat)) :
    ∀ g, frozen g (sweep fuel l g).2 := by
  induction l with
  | nil => intro g; exact frozen_refl g
  | cons p rest ih =>
    intro g
    obtain ⟨r, c⟩ := p
    rw [sweep]
    have h1 := calculate_frozen (evaluate fuel) (evaluate_frozen fuel) g r c
    rcases hx : cell.calculate (evaluate fuel) g r c with ⟨f | v, g1⟩
    · rw [hx] at h1
      cases f with
      | thrown k => exact frozen_trans h1 (ih g1)
      | parse_exception a m => exact h1
      | fault => exact h1
      | out_of_fuel => exact h1
    · rw [hx] at h1
      exact frozen_trans h1 (ih g1)

/-- C34. Stuck state on parse failure: when `calculate` runs on a pending
cell whose raw text is `=` followed by a body that does not parse, the call
fails with the `parse_exception` (not with an Error value) and only sets the
state of the cell to in progress: its cached value is unchanged. After any
later evaluation or sweep from that grid (without a reset) the cell is as it
was left, and `calculate` on it throws `Error(Recur)`. -/
theorem stuck_after_parse_failure (ev : evaluator) (g : grid) (r c : Nat)
    (body attempt : List Char) (message : String)
    (hs : (g r c).calculation_state = .pending) (hraw : (g r c).raw = '=' :: body)
    (hp : expression.parse body = .parse_exception attempt message) :
    cell.calculate ev g r c =
        (.error (.parse_exception attempt message),
          g.set r c { g r c with calculation_state := .in_progress }) ∧
      ((cell.calculate ev g r c).2 r c).calculation_state = .in_progress ∧
      ((cell.calculate ev g r c).2 r c).value = (g r c).value ∧
      (∀ ev1 : evaluator, cell.calculate ev1 (cell.calculate ev g r c).2 r c =
        (.error (.thrown .recur), (cell.calculate ev g r c).2)) ∧
      (∀ (ev1 : evaluator) (fuel : Nat) (e : expression),
        cell.calculate ev1 (evaluate fuel (cell.calculate ev g r c).2 e).2 r c =
          (.error (.thrown .recur), (evaluate fuel (cell.calculate ev g r c).2 e).2)) ∧
      (∀ (ev1 : evaluator) (fuel : Nat) (l : List (Nat × Nat)),
        cell.calculate ev1 (sweep fuel l (cell.calculate ev g r c).2).2 r c =
          (.error (.thrown .recur), (sweep fuel l (cell.calculate ev g r c).2).2)) := by
  have hcalc : cell.calculate ev g r c =
      (.error (.parse_exception attempt message),
        g.set r c { g r c with calculation_state := .in_progress }) := by
    have hl : cell.literal (g r c).raw = none := by rw [hraw]; exact literal_formula body
    have hp2 : expression.parse ((g r c).raw.drop 1) = .parse_exception attempt message := by
      rw [hraw]; exact hp
    simp only [cell.calculate, hs, hl, hp2]
  rw [hcalc]
  have hst : ((g.set r c { g r c with calculation_state := .in_progress }) r c).calculation_state =
      .in_progress := by rw [grid_set_same]
  have hlater : ∀ g1, frozen (g.set r c { g r c with calculation_state := .in_progress }) g1 →
      ∀ ev1 : evaluator, cell.calculate ev1 g1 r c = (.error (.thrown .recur), g1) := by
    intro g1 hf ev1
    apply calculate_in_progress
    rw [(hf r c).2 (by rw [hst]; decide)]
    exact hst
  refine ⟨rfl, hst, by simp only [grid_set_same], hlater _ (frozen_refl _), fun ev1 fuel e => ?_,
    fun ev1 fuel l => ?_⟩
  · exact hlater _ (evaluate_frozen fuel _ e) ev1
  · exact hlater _ (sweep_frozen fuel l _) ev1

theorem stuck_after_parse_failure_witness :
    (grid_with_A1 ⟨"=1+".toList, .pending, false, .prim (.text []), .integer 7⟩ 0
        0).calculation_state = .pending ∧
      expression.parse "1+".toList = .parse_exception [] "empty expresion" ∧
      (cell.calculate (evaluate 3)
        (grid_with_A1 ⟨"=1+".toList, .pending, false, .prim (.text []), .integer 7⟩) 0 0).1 =
        .error (.parse_exception [] "empty expresion") ∧
      ((cell.calculate (evaluate 3)
        (grid_with_A1 ⟨"=1+".toList, .pending, false, .prim (.text []), .integer 7⟩) 0 0).2 0
        0).value = .integer 7 :=
  have h := stuck_after_parse_failure (evaluate 3)
    (grid_with_A1 ⟨"=1+".toList, .pending, false, .prim (.text []), .integer 7⟩) 0 0
    "1+".toList [] "empty expresion" rfl rfl (by rfl)
  ⟨rfl, by rfl, congrArg Prod.fst h.1, h.2.2.1⟩

theorem depth_function (name : List Char) (arg : List expression) :
    (expression.function name arg).depth = expression.depth_list arg + 1 := by
  rw [expression.depth]

theorem depth_list_mem (arg : List expression) : ∀ a ∈ arg, a.depth ≤ expression.depth_list arg := by
  induction arg with
  | nil => intro a h; simp at h
  | cons e rest ih =>
    intro a h
    rw [expression.depth_list]
    rcases List.mem_cons.mp h with h1 | h1
    · rw [h1]; exact le_max_left _ _
    · exact (ih a h1).trans (le_max_right _ _)

theorem arg_evaluate_fuel (ev : evaluator) (hev : ∀ g e, frozen g (ev g e).2) (g0 : grid)
    (arg : List expression) :
    (∀ g1, frozen g0 g1 → ∀ a ∈ arg, (ev g1 a).1 ≠ .error .out_of_fuel) →
    ∀ g, frozen g0 g → (arg_evaluate ev g arg).1 ≠ .error .out_of_fuel := by
  induction arg with
  | nil => intro _ g _; simp [arg_evaluate]
  | cons e rest ih =>
    intro H g hg
    rw [arg_evaluate]
    have h1 := H g hg e (List.mem_cons_self _ _)
    have hf := hev g e
    rcases hx : ev g e with ⟨f | v, g1⟩
    · rw [hx] at h1
      simpa using h1
    · rw [hx] at hf
      have h2 := ih (fun g2 hg2 a ha => H g2 hg2 a (List.mem_cons_of_mem _ ha)) g1
        (frozen_trans hg hf)
      simp only []
      rcases hy : arg_evaluate ev g1 rest with ⟨f | vs, g2⟩
      · rw [hy] at h2
        simpa using h2
      · simp

theorem op_add_fuel (ev : evaluator) (g : grid) (arg : List expression)
    (h : (arg_evaluate ev g arg).1 ≠ .error .out_of_fuel) :
    (function.op_add ev g arg).1 ≠ .error .out_of_fuel := by
  unfold function.op_add
  rcases hx : arg_evaluate ev g arg with ⟨f | evaluated, g1⟩
  · rw [hx] at h
    simpa using h
  · simp only []
    repeat' split
    all_goals simp

theorem op_minus_fuel (ev : evaluator) (g : grid) (arg : List expression)
    (h : (arg_evaluate ev g arg).1 ≠ .error .out_of_fuel) :
    (function.op_minus ev g arg).1 ≠ .error .out_of_fuel := by
  unfold function.op_minus
  rcases hx : arg_evaluate ev g arg with ⟨f | evaluated, g1⟩
  · rw [hx] at h
    simpa using h
  · simp only []
    repeat' split
    all_goals simp

theorem op_multiply_fuel (ev : evaluator) (g : grid) (arg : List expression)
    (h : (arg_evaluate ev g arg).1 ≠ .error .out_of_fuel) :
    (function.op_multiply ev g arg).1 ≠ .error .out_of_fuel := by
  unfold function.op_multiply
  split_ifs
  · simp
  · rcases hx : arg_evaluate ev g arg with ⟨f | evaluated, g1⟩
    · rw [hx] at h
      simpa using h
    · simp only []
      repeat' split
      all_goals simp

theorem op_divide_fuel (ev : evaluator) (g : grid) (arg : List expression)
    (h : (arg_evaluate ev g arg).1 ≠ .error .out_of_fuel) :
    (function.op_divide ev g arg).1 ≠ .error .out_of_fuel := by
  unfold function.op_divide
  split_ifs
  · simp
  · rcases hx : arg_evaluate ev g arg with ⟨f | evaluated, g1⟩
    · rw [hx] at h
      simpa using h
    · simp only []
      repeat' split
      all_goals simp

theorem op_concat_fuel (ev : evaluator) (g : grid) (arg : List expression)
    (h : (arg_evaluate ev g arg).1 ≠ .error .out_of_fuel) :
    (function.op_concat ev g arg).1 ≠ .error .out_of_fuel := by
  unfold function.op_concat
  split_ifs
  · simp
  · rcases hx : arg_evaluate ev g arg with ⟨f | evaluated, g1⟩
    · rw [hx] at h
      simpa using h
    · simp only []
      repeat' split
      all_goals simp

theorem equality_operator_fuel (ci : Int → Int → Bool) (ct : List Char → List Char → Bool)
    (cb : Bool → Bool → Bool) (ev : evaluator) (g : grid) (arg : List expression)
    (h : (arg_evaluate ev g arg).1 ≠ .error .out_of_fuel) :
    (function.equality_operator ci ct cb ev g arg).1 ≠ .error .out_of_fuel := by
  unfold function.equality_operator
  rcases hx : arg_evaluate ev g arg with ⟨f | evaluated, g1⟩
  · rw [hx] at h
    simpa using h
  · simp only []
    repeat' split
    all_goals simp

theorem sum_loop_fuel (ev : evaluator) (hev : ∀ g e, frozen g (ev g e).2) (g0 : grid)
    (arg : List expression) :
    (∀ g1, frozen g0 g1 → ∀ a ∈ arg, (ev g1 a).1 ≠ .error .out_of_fuel) →
    ∀ g ans, frozen g0 g → (function.sum_loop ev g arg ans).1 ≠ .error .out_of_fuel := by
  induction arg with
  | nil => intro _ g ans _; simp [function.sum_loop]
  | cons e rest ih =>
    intro H g ans hg
    rw [function.sum_loop]
    have h1 := H g hg e (List.mem_cons_self _ _)
    have hf := hev g e
    rcases hx : ev g e with ⟨f | v, g1⟩
    · rw [hx] at h1
      simpa using h1
    · rw [hx] at hf
      simp only []
      cases v with
      | integer n =>
        exact ih (fun g2 hg2 a ha => H g2 hg2 a (List.mem_cons_of_mem _ ha)) g1 _
          (frozen_trans hg hf)
      | text t => simp [cast_integer]
      | boolean b => simp [cast_integer]
      | error k => simp [cast_integer]

theorem if_func_fuel (ev : evaluator) (hev : ∀ g e, frozen g (ev g e).2) (g : grid)
    (arg : List expression)
    (H : ∀ g1, frozen g g1 → ∀ a ∈ arg, (ev g1 a).1 ≠ .error .out_of_fuel) :
    (function.if_func ev g arg).1 ≠ .error .out_of_fuel := by
  unfold function.if_func
  split
  · rename_i a0 a1 a2
    have h1 := H g (frozen_refl g) a0 (by simp)
    have hf := hev g a0
    rcases hx : ev g a0 with ⟨f | v, g1⟩
    · rw [hx] at h1
      simpa using h1
    · rw [hx] at hf
      simp only []
      cases v with
      | integer n => simp [cast_boolean]
      | text t => simp [cast_boolean]
      | boolean b =>
        cases b
        · exact H g1 hf a2 (by simp)
        · exact H g1 hf a1 (by simp)
      | error k => simp [cast_boolean]
  · simp

theorem builtin_call_fuel (f : builtin) (ev : evaluator) (hev : ∀ g e, frozen g (ev g e).2)
    (g : grid) (arg : List expression)
    (H : ∀ g1, frozen g g1 → ∀ a ∈ arg, (ev g1 a).1 ≠ .error .out_of_fuel) :
    (f.call ev g arg).1 ≠ .error .out_of_fuel := by
  have ha := arg_evaluate_fuel ev hev g arg H g (frozen_refl g)
  cases f with
  | op_add => exact op_add_fuel ev g arg ha
  | op_minus => exact op_minus_fuel ev g arg ha
  | op_multiply => exact op_multiply_fuel ev g arg ha
  | op_divide => exact op_divide_fuel ev g arg ha
  | op_concat => exact op_concat_fuel ev g arg ha
  | op_eq => exact equality_operator_fuel _ _ _ ev g arg ha
  | op_neq => exact equality_operator_fuel _ _ _ ev g arg ha
  | op_less => exact equality_operator_fuel _ _ _ ev g arg ha
  | op_leq => exact equality_operator_fuel _ _ _ ev g arg ha
  | op_greater => exact equality_operator_fuel _ _ _ ev g arg ha
  | op_geq => exact equality_operator_fuel _ _ _ ev g arg ha
  | sum => exact sum_loop_fuel ev hev g arg H g 0 (frozen_refl g)
  | if_func => exact if_func_fuel ev hev g arg H

/-- The calculation of a cell runs out of fuel only through the evaluation
of its formula. -/
theorem calculate_fuel (ev : evaluator) (g : grid) (r c : Nat)
    (H : (g r c).calculation_state = .pending → ∀ e,
      expression.parse ((g r c).raw.drop 1) = .ok e →
      (ev ((g.set r c { g r c with calculation_state := .in_progress }).set r c
        { g r c with calculation_state := .in_progress, expr := e }) e).1 ≠
        .error .out_of_fuel) :
    (cell.calculate ev g r c).1 ≠ .error .out_of_fuel := by
  unfold cell.calculate
  simp only []
  cases hs : (g r c).calculation_state with
  | finished => simp
  | in_progress => simp
  | pending =>
    simp only []
    rcases hl : cell.literal (g r c).raw with _ | res
    · simp only []
      have htot := expression_parse_total ((g r c).raw.drop 1)
      rcases hp : expression.parse ((g r c).raw.drop 1) with e | ⟨a, m⟩ | _
      · simp only [grid_set_same]
        have h3 := H hs e hp
        rcases hx : ev ((g.set r c { g r c with calculation_state := .in_progress }).set r c
            { g r c with calculation_state := .in_progress, expr := e }) e with ⟨f | v, g3⟩
        · rw [hx] at h3
          cases f with
          | thrown k => simp
          | parse_exception a m => simp
          | fault => simp
          | out_of_fuel => exact absurd rfl h3
        · simp
      · simp
      · exact absurd hp htot
    · simp

theorem mem_sweep_order (r c : Nat) (hr : r < MAX_ROW) (hc : c < MAX_COL) :
    (r, c) ∈ sweep_order := by
  simp only [sweep_order, List.mem_flatMap, List.mem_range, List.mem_map]
  exact ⟨r, hr, c, hc, rfl⟩

theorem countP_lt (l : List (Nat × Nat)) (p q : Nat × Nat → Bool)
    (himp : ∀ x ∈ l, p x = true → q x = true) (x : Nat × Nat) (hx : x ∈ l)
    (hq : q x = true) (hp : p x = false) : l.countP p < l.countP q := by
  induction l with
  | nil => simp at hx
  | cons y rest ih =>
    have hmono : rest.countP p ≤ rest.countP q :=
      List.countP_mono_left (fun z hz => himp z (List.mem_cons_of_mem _ hz))
    rcases List.mem_cons.mp hx with h1 | h1
    · subst h1
      rw [List.countP_cons_of_pos _ _ hq, List.countP_cons_of_neg _ _ (by simp [hp])]
      omega
    · have h2 := ih (fun z hz => himp z (List.mem_cons_of_mem _ hz)) h1
      by_cases hpy : p y = true
      · rw [List.countP_cons_of_pos _ _ hpy,
          List.countP_cons_of_pos _ _ (himp y (List.mem_cons_self _ _) hpy)]
        omega
      · rw [List.countP_cons_of_neg _ _ hpy]
        by_cases hqy : q y = true
        · rw [List.countP_cons_of_pos _ _ hqy]
          omega
        · rw [List.countP_cons_of_neg _ _ hqy]
          exact h2

theorem frozen_pending (g g1 : grid) (h : frozen g g1) (r c : Nat)
    (hp : (g1 r c).calculation_state = .pending) : (g r c).calculation_state = .pending := by
  by_contra hn
  rw [(h r c).2 hn] at hp
  exact hn hp

theorem pending_count_frozen (g g1 : grid) (h : frozen g g1) :
    pending_count g1 ≤ pending_count g := by
  unfold pending_count
  apply List.countP_mono_left
  intro p _ hp
  simp only [decide_eq_true_eq] at hp ⊢
  exact frozen_pending g g1 h p.1 p.2 hp

/-- A pending cell that is taken in progress is one pending cell less. -/
theorem pending_count_lt (g g1 : grid) (h : frozen g g1) (r c : Nat) (hr : r < MAX_ROW)
    (hc : c < MAX_COL) (hp : (g r c).calculation_state = .pending)
    (hp1 : (g1 r c).calculation_state ≠ .pending) : pending_count g1 < pending_count g := by
  unfold pending_count
  apply countP_lt _ _ _ _ (r, c) (mem_sweep_order r c hr hc)
  · simp only [decide_eq_true_eq]
    exact hp
  · simp only [decide_eq_false_iff_not]
    exact hp1
  · intro p _ hpp
    simp only [decide_eq_true_eq] at hpp ⊢
    exact frozen_pending g g1 h p.1 p.2 hpp

theorem foldr_max_mem (l : List Nat) : ∀ x ∈ l, x ≤ l.foldr max 0 := by
  induction l with
  | nil => intro x h; simp at h
  | cons y rest ih =>
    intro x h
    rw [List.foldr_cons]
    rcases List.mem_cons.mp h with h1 | h1
    · rw [h1]; exact le_max_left _ _
    · exact (ih x h1).trans (le_max_right _ _)

theorem formula_depth_le (g : grid) : ∀ p ∈ sweep_order,
    formula_depth (g p.1 p.2).raw ≤ grid_depth g := by
  intro p hp
  unfold grid_depth
  apply foldr_max_mem
  exact List.mem_map_of_mem (fun p => formula_depth (g p.1 p.2).raw) hp

theorem formula_depth_ok (raw : List Char) (e : expression)
    (h : expression.parse (raw.drop 1) = .ok e) : formula_depth raw = e.depth := by
  unfold formula_depth
  rw [h]

/-- Evaluation does not run out of fuel when the fuel exceeds the depth of
the expression plus, for each pending cell, one more than the largest depth
of a formula: each cell leaves the pending state at most once. -/
theorem evaluate_fuel_enough : ∀ (fuel : Nat) (g : grid) (e : expression) (D : Nat),
    (∀ p ∈ sweep_order, formula_depth (g p.1 p.2).raw ≤ D) →
    e.depth + pending_count g * (D + 1) < fuel →
    (evaluate fuel g e).1 ≠ .error .out_of_fuel := by
  intro fuel
  induction fuel with
  | zero => intro g e D _ h; omega
  | succ fuel ih =>
    intro g e D hD hfuel
    cases e with
    | prim p => simp [evaluate]
    | reference ref =>
      rw [evaluate]
      split_ifs with hin
      · apply calculate_fuel
        intro hs e1 hp
        have hr : ref.row.toNat < MAX_ROW := by
          have := hin.2.1
          omega
        have hc : ref.col.toNat < MAX_COL := by
          have := hin.2.2.2
          omega
        have hfr : frozen g ((g.set ref.row.toNat ref.col.toNat
            { g ref.row.toNat ref.col.toNat with calculation_state := .in_progress }).set
            ref.row.toNat ref.col.toNat
            { g ref.row.toNat ref.col.toNat with calculation_state := .in_progress,
                                                 expr := e1 }) :=
          frozen_set _ _ _ (frozen_set _ _ _ (frozen_refl g) hs rfl) hs rfl
        have hlt := pending_count_lt g _ hfr _ _ hr hc hs (by
          rw [grid_set_same]
          intro hcon
          cases hcon)
        have hd1 : e1.depth ≤ D := by
          rw [← formula_depth_ok _ e1 hp]
          exact hD (ref.row.toNat, ref.col.toNat) (mem_sweep_order _ _ hr hc)
        have hmul := Nat.mul_le_mul_right (D + 1) (Nat.succ_le_of_lt hlt)
        rw [Nat.succ_mul] at hmul
        rw [expression.depth] at hfuel
        apply ih _ e1 D
        · intro p hp2
          rw [(hfr p.1 p.2).1]
          exact hD p hp2
        · omega
      · simp
    | function name arg =>
      rw [evaluate]
      rcases function.lookup name with _ | f
      · simp
      · apply builtin_call_fuel f _ (evaluate_frozen fuel)
        intro g1 hg1 a ha
        have hle := pending_count_frozen g g1 hg1
        have hmul := Nat.mul_le_mul_right (D + 1) hle
        have hda := depth_list_mem arg a ha
        rw [depth_function] at hfuel
        apply ih g1 a D
        · intro p hp2
          rw [(hg1 p.1 p.2).1]
          exact hD p hp2
        · omega

theorem pending_count_le (g : grid) : pending_count g ≤ sweep_order.length :=
  List.countP_le_length _

theorem calculate_fuel_enough (fuel : Nat) (g : grid) (D : Nat) (r c : Nat) (hr : r < MAX_ROW)
    (hc : c < MAX_COL) (hD : ∀ p ∈ sweep_order, formula_depth (g p.1 p.2).raw ≤ D)
    (hfuel : pending_count g * (D + 1) ≤ fuel) :
    (cell.calculate (evaluate fuel) g r c).1 ≠ .error .out_of_fuel := by
  rw [← evaluate_reference fuel g r c hr hc]
  apply evaluate_fuel_enough (fuel + 1) g _ D hD
  rw [expression.depth]
  omega

theorem sweep_fuel_enough (fuel D : Nat) (l : List (Nat × Nat)) :
    ∀ g : grid, (∀ p ∈ l, p ∈ sweep_order) →
      (∀ p ∈ sweep_order, formula_depth (g p.1 p.2).raw ≤ D) →
      pending_count g * (D + 1) ≤ fuel → (sweep fuel l g).1 ≠ .error .out_of_fuel := by
  induction l with
  | nil => intro g _ _ _; simp [sweep]
  | cons p rest ih =>
    intro g hl hD hfuel
    obtain ⟨r, c⟩ := p
    obtain ⟨hr, hc⟩ := sweep_order_bounds (r, c) (hl (r, c) (List.mem_cons_self _ _))
    have h1 := calculate_fuel_enough fuel g D r c hr hc hD hfuel
    have hf := calculate_frozen (evaluate fuel) (evaluate_frozen fuel) g r c
    rw [sweep]
    rcases hx : cell.calculate (evaluate fuel) g r c with ⟨f | v, g1⟩
    · rw [hx] at h1 hf
      have hrec := ih g1 (fun q hq => hl q (List.mem_cons_of_mem _ hq))
        (fun q hq => by rw [(hf q.1 q.2).1]; exact hD q hq)
        ((Nat.mul_le_mul_right (D + 1) (pending_count_frozen g g1 hf)).trans hfuel)
      cases f with
      | thrown k => exact hrec
      | parse_exception a m => simp
      | fault => simp
      | out_of_fuel => exact absurd rfl h1
    · rw [hx] at hf
      exact ih g1 (fun q hq => hl q (List.mem_cons_of_mem _ hq))
        (fun q hq => by rw [(hf q.1 q.2).1]; exact hD q hq)
        ((Nat.mul_le_mul_right (D + 1) (pending_count_frozen g g1 hf)).trans hfuel)

/-- C35. Cycle-safe termination: on every grid, with fuel of at least the
number of cells times one more than the largest nesting depth of a formula,
`calculate` on any cell of the worksheet and `recalculate` do not run out
of fuel, whatever self-references and cycles the formulas contain: a cell
leaves the pending state at most once in a sweep, and a cell that is
re-entered while in progress fails at once with `Error(Recur)`, as the cell
`=A1` in A1 does. -/
theorem cycle_safe_termination (g : grid) (fuel : Nat)
    (h : sweep_order.length * (grid_depth g + 1) ≤ fuel) :
    (recalculate fuel g).1 ≠ .error .out_of_fuel ∧
      (∀ r c, r < MAX_ROW → c < MAX_COL →
        (cell.calculate (evaluate fuel) g r c).1 ≠ .error .out_of_fuel) ∧
      (∀ r c, r < MAX_ROW → c < MAX_COL → (g r c).calculation_state = .in_progress →
        ∀ ev : evaluator, cell.calculate ev g r c = (.error (.thrown .recur), g)) ∧
      (cell.calculate (evaluate 1)
        (grid_with_A1 ⟨"=A1".toList, .pending, false, .prim (.text []), .text []⟩) 0 0).1 =
        .error (.thrown .recur) := by
  refine ⟨?_, fun r c hr hc => ?_, fun r c _ _ hs ev => calculate_in_progress ev g r c hs,
    by rfl⟩
  · unfold recalculate
    apply sweep_fuel_enough fuel (grid_depth g) sweep_order (reset g) (fun p hp => hp)
    · intro p hp
      obtain ⟨hr, hc⟩ := sweep_order_bounds p hp
      rw [reset_apply g _ _ hr hc]
      exact formula_depth_le g p hp
    · exact (Nat.mul_le_mul_right _ (pending_count_le _)).trans h
  · apply calculate_fuel_enough fuel g (grid_depth g) r c hr hc (formula_depth_le g)
    exact (Nat.mul_le_mul_right _ (pending_count_le _)).trans h

theorem cycle_safe_termination_witness :
    (recalculate (sweep_order.length * (grid_depth (two_cell_grid "=B1+1".toList
        "=A1+1".toList) + 1)) (two_cell_grid "=B1+1".toList "=A1+1".toList)).1 ≠
      .error .out_of_fuel :=
  (cycle_safe_termination (two_cell_grid "=B1+1".toList "=A1+1".toList) _ (le_refl _)).1

/-! ## Argument counts of the trees built by the parser -/

theorem operators_ok_function (name : List Char) (arg : List expression) :
    (expression.function name arg).operators_ok =
      (operator_arity_ok name arg.length && expression.operators_ok_list arg) := by
  rw [expression.operators_ok]

theorem parse_boolean_operators_ok (t : List Char) (e : expression)
    (h : parse_boolean t = some e) : e.operators_ok = true := by
  unfold parse_boolean at h
  simp only [] at h
  split_ifs at h <;> simp only [Option.some.injEq] at h <;> subst h <;> rfl

theorem parse_text_operators_ok (t : List Char) (e : expression)
    (h : parse_text t = some e) : e.operators_ok = true := by
  unfold parse_text at h
  split_ifs at h
  simp only [Option.some.injEq] at h
  subst h
  rfl

theorem parse_integer_operators_ok (t : List Char) (e : expression)
    (h : parse_integer t = some e) : e.operators_ok = true := by
  unfold parse_integer at h
  rcases hst : stoll t with _ | ⟨v, size⟩
  · rw [hst] at h
    cases h
  · rw [hst] at h
    simp only [] at h
    split_ifs at h
    simp only [Option.some.injEq] at h
    subst h
    rfl

theorem parse_reference_operators_ok (t : List Char) (e : expression)
    (h : parse_reference t = some e) : e.operators_ok = true := by
  unfold parse_reference at h
  rcases hfc : cell_reference.from_code t with _ | ref
  · rw [hfc] at h
    cases h
  · rw [hfc] at h
    simp only [Option.map_some', Option.some.injEq] at h
    subst h
    rfl

theorem parse_args_operators_ok (p : List Char → parse_result)
    (hp : ∀ u e1, p u = .ok e1 → e1.operators_ok = true) (l : List (List Char)) :
    ∀ es, parse_args p l = .ok es → expression.operators_ok_list es = true := by
  induction l with
  | nil =>
    intro es h
    simp only [parse_args, args_result.ok.injEq] at h
    subst h
    rfl
  | cons s0 rest ih =>
    intro es h
    rw [parse_args] at h
    rcases hps : p s0 with e1 | ⟨a, m⟩ | _
    · rw [hps] at h
      simp only [] at h
      rcases hpa : parse_args p rest with es1 | _ | _
      · rw [hpa] at h
        simp only [args_result.ok.injEq] at h
        subst h
        rw [expression.operators_ok_list, hp s0 e1 hps, ih es1 hpa]
        rfl
      · rw [hpa] at h
        cases h
      · rw [hpa] at h
        cases h
    · rw [hps] at h
      cases h
    · rw [hps] at h
      cases h

theorem function_call_args_tree (p : List Char → parse_result) (name : List Char)
    (l : List (List Char)) (e : expression)
    (h : (match parse_args p l with
      | .ok arg => some (parse_result.ok (.function name arg))
      | .failure => none
      | .out_of_fuel => some .out_of_fuel) = some (.ok e)) :
    ∃ es, parse_args p l = .ok es ∧ e = .function name es := by
  revert h
  generalize parse_args p l = a
  intro h
  cases a with
  | ok arg =>
    simp only [Option.some.injEq, parse_result.ok.injEq] at h
    exact ⟨arg, rfl, h.symm⟩
  | failure => cases h
  | out_of_fuel => cases h

/-- A name that starts with a letter or an underscore is not an operator. -/
theorem identifier_not_operator (c0 : Char) (l : List Char)
    (h : is_letter_or_underscore c0 = true) : get_precedence (c0 :: l) = -1 := by
  apply get_precedence_cons
  have := (is_letter_or_underscore_iff c0).mp h
  omega

theorem parse_function_call_operators_ok (p : List Char → parse_result) (str t : List Char)
    (e : expression) (h : parse_function_call p str t = some (.ok e))
    (hp : ∀ u e1, p u = .ok e1 → e1.operators_ok = true) : e.operators_ok = true := by
  unfold parse_function_call at h
  cases t with
  | nil => cases h
  | cons c0 tl =>
    simp only [] at h
    by_cases h1 : (c0 :: tl).getLast? = some ')' ∧ is_letter_or_underscore c0 = true
    · rw [if_pos h1] at h
      by_cases h2 : (tl.dropWhile
          (fun x => is_letter_or_underscore x || is_digit x)).head? = some '('
      · rw [if_pos h2] at h
        rcases hsp : split_args ((tl.dropWhile
            (fun x => is_letter_or_underscore x || is_digit x)).drop 1).dropLast 0 false [] []
          with _ | ⟨lvl, txt, str_args, cur⟩
        · rw [hsp] at h
          cases h
        · rw [hsp] at h
          simp only [] at h
          by_cases h3 : lvl = 0
          · rw [if_pos h3] at h
            obtain ⟨es, hes, he⟩ := function_call_args_tree p _ _ e h
            rw [he, operators_ok_function, parse_args_operators_ok p hp _ es hes]
            unfold operator_arity_ok
            rw [identifier_not_operator c0 _ h1.2]
            rfl
          · rw [if_neg h3] at h
            cases h
      · rw [if_neg h2] at h
        cases h
    · rw [if_neg h1] at h
      cases h

theorem parse_operator_operators_ok (p : List Char → parse_result) (str t : List Char)
    (e : expression) (h : parse_operator p str t = .ok e)
    (hp : ∀ u e1, p u = .ok e1 → e1.operators_ok = true) : e.operators_ok = true := by
  unfold parse_operator at h
  rcases hscan : scan_operator t 0 false 0 false ⟨-1, -1, -1⟩ with _ | m
  · rw [hscan] at h
    cases h
  · rw [hscan] at h
    simp only [] at h
    by_cases hpr : m.min_precedence ≠ -1
    · rw [if_pos hpr] at h
      by_cases hun : is_unary ((t.drop m.min_i.toNat).take (m.min_j - m.min_i).toNat) = true ∧
          trim_copy (t.take m.min_i.toNat) = []
      · rw [if_neg (not_not.mpr hun)] at h
        rcases hr : p (t.drop m.min_j.toNat) with er | ⟨a, msg⟩ | _
        · rw [hr] at h
          simp only [parse_result.ok.injEq] at h
          subst h
          rw [operators_ok_function, expression.operators_ok_list, expression.operators_ok_list,
            hp _ er hr]
          unfold operator_arity_ok
          rw [hun.1]
          simp
        · rw [hr] at h
          cases h
        · rw [hr] at h
          cases h
      · rw [if_pos hun] at h
        rcases hl : p (t.take m.min_i.toNat) with el | ⟨a, msg⟩ | _
        · rw [hl] at h
          simp only [] at h
          rcases hr : p (t.drop m.min_j.toNat) with er | ⟨a, msg⟩ | _
          · rw [hr] at h
            simp only [parse_result.ok.injEq] at h
            subst h
            rw [operators_ok_function, expression.operators_ok_list,
              expression.operators_ok_list, expression.operators_ok_list, hp _ el hl,
              hp _ er hr]
            unfold operator_arity_ok
            simp
          · rw [hr] at h
            cases h
          · rw [hr] at h
            cases h
        · rw [hl] at h
          cases h
        · rw [hl] at h
          cases h
    · rw [if_neg hpr] at h
      cases h

/-- In every tree built by the parser, a call named by an operator has two
operands, or one operand under a unary `+` or `-`. -/
theorem parse_fuel_operators_ok : ∀ (fuel : Nat) (s : List Char) (e : expression),
    parse_fuel fuel s = .ok e → e.operators_ok = true := by
  intro fuel
  induction fuel with
  | zero => intro s e h; cases h
  | succ fuel ih =>
    intro s e h
    rw [parse_fuel] at h
    by_cases hne : trim_copy s = []
    · rw [if_pos hne] at h
      cases h
    · rw [if_neg hne] at h
      rcases h1 : parse_boolean (trim_copy s) with _ | e1
      · rcases h2 : parse_text (trim_copy s) with _ | e2
        · rcases h3 : parse_integer (trim_copy s) with _ | e3
          · rcases h4 : parse_reference (trim_copy s) with _ | e4
            · rcases h5 : parse_bracket (parse_fuel fuel) (trim_copy s) with _ | r5
              · rcases h6 : parse_function_call (parse_fuel fuel) s (trim_copy s) with _ | r6
                · simp only [h1, h2, h3, h4, h5, h6] at h
                  exact parse_operator_operators_ok _ s _ e h ih
                · simp only [h1, h2, h3, h4, h5, h6] at h
                  rw [h] at h6
                  exact parse_function_call_operators_ok _ s _ e h6 ih
              · simp only [h1, h2, h3, h4, h5] at h
                rw [h] at h5
                obtain ⟨inner, _, hpi⟩ := parse_bracket_ok _ _ e h5
                exact ih inner e hpi
            · simp only [h1, h2, h3, h4] at h
              simp only [parse_result.ok.injEq] at h
              rw [← h]
              exact parse_reference_operators_ok _ e4 h4
          · simp only [h1, h2, h3] at h
            simp only [parse_result.ok.injEq] at h
            rw [← h]
            exact parse_integer_operators_ok _ e3 h3
        · simp only [h1, h2] at h
          simp only [parse_result.ok.injEq] at h
          rw [← h]
          exact parse_text_operators_ok _ e2 h2
      · simp only [h1] at h
        simp only [parse_result.ok.injEq] at h
        rw [← h]
        exact parse_boolean_operators_ok _ e1 h1

/-- The counts that the operator rule gives are the allowed ones: two for
`*`, `/`, `&` and the six comparisons, one or two for `+` and `-`. -/
theorem operator_arity_allowed (name : List Char) (n : Nat)
    (h : operator_arity_ok name n = true) :
    ((name = "*".toList ∨ name = "/".toList ∨ name = "&".toList ∨ comparison_op name) →
        n = 2) ∧
      ((name = "+".toList ∨ name = "-".toList) → n = 1 ∨ n = 2) := by
  unfold operator_arity_ok at h
  simp only [Bool.or_eq_true, Bool.and_eq_true, decide_eq_true_eq] at h
  constructor
  · intro hn
    have hprec : get_precedence name ≠ -1 := by
      rcases hn with rfl | rfl | rfl | hc
      · decide
      · decide
      · decide
      · rcases hc with rfl | rfl | rfl | rfl | rfl | rfl <;> decide
    have hun : is_unary name = false := by
      rcases hn with rfl | rfl | rfl | hc
      · decide
      · decide
      · decide
      · rcases hc with rfl | rfl | rfl | rfl | rfl | rfl <;> decide
    rcases h with (h | h) | h
    · exact absurd h hprec
    · exact h
    · rw [hun] at h
      exact absurd h.1 (by decide)
  · intro hn
    have hprec : get_precedence name ≠ -1 := by
      rcases hn with rfl | rfl <;> decide
    rcases h with (h | h) | h
    · exact absurd h hprec
    · exact Or.inr h
    · exact Or.inl h.2

/-- C23, as amended. Wrong arity: for `*`, `/`, `&` (two arguments), `IF`
(three) and `+`, `-` (one or two, arguments being literals), a call whose
argument count is not allowed fails with `Error(Arg)`, as `IF(TRUE,1)`
does. The six comparisons do not test their argument count; in every tree
built by `parse` a call named by an operator has an allowed count, so a
comparison always has exactly two operands. -/
theorem wrong_arity (fuel : Nat) (g : grid) (arg : List expression) :
    (arg.length ≠ 2 →
        evaluate (fuel + 1) g (.function "*".toList arg) = (.error (.thrown .arg), g) ∧
        evaluate (fuel + 1) g (.function "/".toList arg) = (.error (.thrown .arg), g) ∧
        evaluate (fuel + 1) g (.function "&".toList arg) = (.error (.thrown .arg), g)) ∧
      (arg.length ≠ 3 →
        evaluate (fuel + 1) g (.function "IF".toList arg) = (.error (.thrown .arg), g)) ∧
      (∀ ps : List primitive, arg = ps.map expression.prim → ps.length ≠ 1 → ps.length ≠ 2 →
        evaluate (fuel + 1) g (.function "+".toList arg) = (.error (.thrown .arg), g) ∧
        evaluate (fuel + 1) g (.function "-".toList arg) = (.error (.thrown .arg), g)) ∧
      parse_evaluate 3 empty_grid "IF(TRUE,1)".toList = (.error (.thrown .arg), empty_grid) ∧
      (∀ (s : List Char) (e : expression), expression.parse s = .ok e →
        e.operators_ok = true) ∧
      (∀ (s name : List Char) (args : List expression),
        expression.parse s = .ok (.function name args) → comparison_op name →
        args.length = 2) ∧
      (∀ (name : List Char) (n : Nat), comparison_op name →
        operator_arity_ok name n = true → n = 2) := by
  obtain ⟨h1, h2, h3⟩ := fixed_arity_checked fuel g arg
  refine ⟨h1, h2, h3, by rfl, fun s e h => parse_fuel_operators_ok _ s e h,
    fun s name args h hc => ?_, fun name n hc h => ?_⟩
  · have hok := parse_fuel_operators_ok _ s _ h
    rw [operators_ok_function, Bool.and_eq_true] at hok
    exact (operator_arity_allowed name args.length hok.1).1 (Or.inr (Or.inr (Or.inr hc)))
  · exact (operator_arity_allowed name n h).1 (Or.inr (Or.inr (Or.inr hc)))

theorem wrong_arity_witness :
    [expression.prim (.boolean true), .prim (.integer 1)].length ≠ 3 ∧
      evaluate (0 + 1) empty_grid
          (.function "IF".toList [.prim (.boolean true), .prim (.integer 1)]) =
        (.error (.thrown .arg), empty_grid) ∧
      [expression.prim (.integer 1)].length ≠ 2 ∧
      evaluate (0 + 1) empty_grid (.function "*".toList [.prim (.integer 1)]) =
        (.error (.thrown .arg), empty_grid) :=
  have h := wrong_arity 0 empty_grid [.prim (.boolean true), .prim (.integer 1)]
  have h2 := wrong_arity 0 empty_grid [.prim (.integer 1)]
  ⟨by decide, h.2.1 (by decide), by decide, (h2.1 (by decide)).1⟩

end Spreadsheet
